import Mathlib

/-!
# Verification of the Context & Relationship Resolution Engine

A shallow embedding, in Lean 4, of the algorithmic core of the `insight-forge`
backend: the relationship resolver (`app/services/relationship_resolver.py`),
the SQL generator (`app/services/sql_generator.py`), the context validator
(`app/services/context_validator.py`) and the context parser / serializer
(`app/services/context_parser.py`).  Python dictionaries that carry a fixed set
of keys are embedded as structures; dictionaries with dynamic keys are embedded
as association lists in insertion order (CPython dictionaries preserve
insertion order); Python sets that are only iterated deterministically in the
modelled runs are embedded as lists in insertion order.  Fallible Python code
is embedded in `Except`; `while` loops are embedded with an explicit fuel
argument together with lemmas showing the chosen fuel is sufficient.
-/

/-! ## Data model: relationships, edges, graphs

A relationship dictionary as consumed by `RelationshipResolver`
(`relationship_resolver.py`): keys `id`, `left_dataset`, `right_dataset`,
`join_type` (read with `.get('join_type', 'inner')`, hence optional) and
`conditions`.  A join condition carries `left_column`, `operator`,
`right_column` and the optional `condition_type` (read with
`.get('condition_type', 'on')`). -/

structure JoinCondition where
  left_column : String
  operator : String
  right_column : String
  condition_type : Option String := none
deriving DecidableEq, Repr

structure Relationship where
  id : String
  left_dataset : String
  right_dataset : String
  join_type : Option String := none
  conditions : List JoinCondition := []
deriving DecidableEq, Repr

/-- An adjacency entry built by `RelationshipResolver._build_graph`:
`{'to': ..., 'relationship': ..., 'reverse': ...}` (the `'to'` key is named
`toDs` here because `to` is reserved in Lean). -/
structure Edge where
  toDs : String
  relationship : Relationship
  reverse : Bool
deriving DecidableEq, Repr

/-- The graph `{dataset_id: [edges]}` as an association list in insertion
order (CPython dict semantics). -/
abbrev Graph := List (String × List Edge)

/-- `graph.get(k)` — first (and only, keys are unique) binding of `k`. -/
def alGet (g : Graph) (k : String) : Option (List Edge) :=
  match g with
  | [] => none
  | (k', v) :: rest => if k' = k then some v else alGet rest k

/-- `k in graph`. -/
def alHasKey (g : Graph) (k : String) : Bool :=
  (alGet g k).isSome

/-- `if k not in graph: graph[k] = []` — insert an empty adjacency list at the
end (dict insertion order) when the key is absent. -/
def ensureKey (g : Graph) (k : String) : Graph :=
  if alHasKey g k then g else g ++ [(k, [])]

/-- `graph[k].append(e)` — append an edge to the adjacency list of `k`
(the key is present whenever this is called, and keys are unique). -/
def pushEdge (g : Graph) (k : String) (e : Edge) : Graph :=
  match g with
  | [] => []
  | (a, v) :: rest =>
    if a = k then (a, v ++ [e]) :: rest else (a, v) :: pushEdge rest k e

/-- `RelationshipResolver._build_graph`: each relationship contributes a
forward edge under its `left_dataset` key and a reverse edge under its
`right_dataset` key; the relationship dictionary itself is stored on both
edges unchanged. -/
def build_graph (rels : List Relationship) : Graph :=
  rels.foldl
    (fun g rel =>
      let g1 := ensureKey g rel.left_dataset
      let g2 := ensureKey g1 rel.right_dataset
      let g3 := pushEdge g2 rel.left_dataset ⟨rel.right_dataset, rel, false⟩
      pushEdge g3 rel.right_dataset ⟨rel.left_dataset, rel, true⟩)
    []

/-- `self.graph.get(current, [])`. -/
def adj (g : Graph) (n : String) : List Edge :=
  (alGet g n).getD []

/-- The keys of the graph, in insertion order. -/
def graphNodes (g : Graph) : List String :=
  g.map Prod.fst

/-! ## Breadth-first search (`find_join_path`)

The Python loop pops `(current, path)` from the left of a deque, skips nodes
whose path has already reached `max_depth`, and otherwise walks the adjacency
list of `current` in order: an edge to the target returns immediately, an edge
to an unvisited node marks it visited and enqueues it at the right.  The
inner `for` loop is embedded as `expand`, the outer `while` as `bfsLoop` with
an explicit fuel that the lemmas below show is never exhausted. -/

/-- One expansion of `current`'s adjacency list.  Returns `.inl` with the
found path on an edge to the target, otherwise `.inr` with the grown visited
list and queue. -/
def expand (target : String) (path : List Edge) :
    List Edge → List String → List (String × List Edge) →
    (List Edge) ⊕ (List String × List (String × List Edge))
  | [], visited, queue => .inr (visited, queue)
  | e :: es, visited, queue =>
    if e.toDs = target then .inl (path ++ [e])
    else if e.toDs ∈ visited then expand target path es visited queue
    else expand target path es (visited ++ [e.toDs]) (queue ++ [(e.toDs, path ++ [e])])

/-- The BFS `while queue:` loop. -/
def bfsLoop (g : Graph) (target : String) (maxDepth : Nat) :
    Nat → List (String × List Edge) → List String → Option (List Edge)
  | _, [], _ => none
  | 0, _ :: _, _ => none
  | fuel + 1, (cur, path) :: rest, visited =>
    if maxDepth ≤ path.length then bfsLoop g target maxDepth fuel rest visited
    else
      match expand target path (adj g cur) visited rest with
      | .inl found => some found
      | .inr (v', q') => bfsLoop g target maxDepth fuel q' v'

/-- `RelationshipResolver.find_join_path` (the resolver's graph is rebuilt
from its relationship list, as `__init__` does).  The fuel
`(graphNodes g).length` bounds the number of loop iterations: every iteration
pops one queue entry and every entry's node was freshly added to `visited`,
which never exceeds the key set. -/
def find_join_path (rels : List Relationship) (from_ds to_ds : String)
    (maxDepth : Nat) : Option (List Edge) :=
  let g := build_graph rels
  if from_ds = to_ds then some []
  else if ¬ alHasKey g from_ds then none
  else if ¬ alHasKey g to_ds then none
  else bfsLoop g to_ds maxDepth (graphNodes g).length [(from_ds, [])] [from_ds]

/-! ## Path semantics

`IsPath g a b es` says the edge list `es` leads from node `a` to node `b`
following the adjacency lists of `g`.  This is the reference semantics against
which the BFS is verified. -/

inductive IsPath (g : Graph) : String → String → List Edge → Prop
  | nil (a : String) : IsPath g a a []
  | cons {a b : String} {e : Edge} {es : List Edge} :
      e ∈ adj g a → IsPath g e.toDs b es → IsPath g a b (e :: es)

theorem isPath_nil_iff {g : Graph} {a b : String} : IsPath g a b [] ↔ a = b := by
  constructor
  · intro h; cases h; rfl
  · rintro rfl; exact .nil a

theorem isPath_cons_iff {g : Graph} {a b : String} {e : Edge} {es : List Edge} :
    IsPath g a b (e :: es) ↔ e ∈ adj g a ∧ IsPath g e.toDs b es := by
  constructor
  · intro h; cases h with
    | cons he hp => exact ⟨he, hp⟩
  · rintro ⟨he, hp⟩; exact .cons he hp

theorem isPath_append {g : Graph} {a b c : String} {es es' : List Edge}
    (h : IsPath g a b es) (h' : IsPath g b c es') : IsPath g a c (es ++ es') := by
  induction h with
  | nil => simpa using h'
  | cons he _ ih => exact .cons he (ih h')

theorem isPath_snoc_iff {g : Graph} {a c : String} {es : List Edge} {e : Edge} :
    IsPath g a c (es ++ [e]) ↔ ∃ b, IsPath g a b es ∧ e ∈ adj g b ∧ e.toDs = c := by
  induction es generalizing a with
  | nil =>
    simp only [List.nil_append]
    constructor
    · intro h
      cases h with
      | cons he hp =>
        cases hp
        exact ⟨a, .nil a, he, rfl⟩
    · rintro ⟨b, hb, he, rfl⟩
      cases hb
      exact .cons he (.nil _)
  | cons e' es' ih =>
    simp only [List.cons_append, isPath_cons_iff, ih]
    constructor
    · rintro ⟨he', b, hb, he, rfl⟩
      exact ⟨b, ⟨he', hb⟩, he, rfl⟩
    · rintro ⟨b, ⟨he', hb⟩, he, rfl⟩
      exact ⟨he', b, hb, he, rfl⟩

/-- `a` can reach `b` in `g`. -/
def Reaches (g : Graph) (a b : String) : Prop :=
  ∃ es, IsPath g a b es

/-! ## Well-formedness of the built graph -/

theorem alGet_append_some {g₁ g₂ : Graph} {k : String} {v : List Edge}
    (h : alGet g₁ k = some v) : alGet (g₁ ++ g₂) k = some v := by
  induction g₁ with
  | nil => simp [alGet] at h
  | cons p rest ih =>
    obtain ⟨a, w⟩ := p
    by_cases ha : a = k
    · simp only [alGet, ha, if_pos rfl] at h ⊢; exact h
    · simp only [List.cons_append, alGet, ha, if_false] at h ⊢
      exact ih h

theorem alGet_append_none {g₁ g₂ : Graph} {k : String}
    (h : alGet g₁ k = none) : alGet (g₁ ++ g₂) k = alGet g₂ k := by
  induction g₁ with
  | nil => simp
  | cons p rest ih =>
    obtain ⟨a, w⟩ := p
    by_cases ha : a = k
    · simp [alGet, ha] at h
    · simp only [alGet, ha, if_false] at h
      simpa [alGet, ha] using ih h

theorem alGet_ensureKey {g : Graph} {k n : String} :
    alGet (ensureKey g k) n =
      if alHasKey g k then alGet g n
      else if alHasKey g n then alGet g n
      else if k = n then some [] else none := by
  unfold ensureKey
  by_cases h : alHasKey g k
  · rw [if_pos h, if_pos h]
  · rw [if_neg h, if_neg h]
    by_cases hn : alHasKey g n
    · rw [if_pos hn]
      obtain ⟨v, hv⟩ := Option.isSome_iff_exists.mp hn
      rw [alGet_append_some hv, hv]
    · rw [if_neg hn]
      have : alGet g n = none := Option.not_isSome_iff_eq_none.mp (by simpa [alHasKey] using hn)
      rw [alGet_append_none this]
      simp [alGet]

/-- `pushEdge` updates the first binding of `k` only, which is the one `alGet`
reads: all graphs this is applied to have unique keys. -/
theorem alGet_pushEdge_first {g : Graph} {k n : String} {e : Edge} :
    alGet (pushEdge g k e) n =
      if n = k then (alGet g n).map (fun v => v ++ [e]) else alGet g n := by
  induction g with
  | nil => simp [pushEdge, alGet]
  | cons p rest ih =>
    obtain ⟨a, w⟩ := p
    by_cases hak : a = k
    · subst hak
      by_cases han : a = n
      · subst han
        simp [pushEdge, alGet]
      · have hna : ¬ n = a := fun h => han h.symm
        simp only [pushEdge, if_pos rfl, alGet, han, if_false]
        by_cases hnk : n = a
        · exact absurd hnk hna
        · rw [if_neg hnk]
    · simp only [pushEdge, if_neg hak]
      by_cases han : a = n
      · subst han
        have hnk : ¬ a = k := hak
        simp [alGet, hnk]
      · simp only [alGet, han, if_false]
        exact ih

theorem graphNodes_ensureKey {g : Graph} {k : String} :
    graphNodes (ensureKey g k) =
      if alHasKey g k then graphNodes g else graphNodes g ++ [k] := by
  unfold ensureKey
  by_cases h : alHasKey g k <;> simp [h, graphNodes]

theorem graphNodes_pushEdge {g : Graph} {k : String} {e : Edge} :
    graphNodes (pushEdge g k e) = graphNodes g := by
  induction g with
  | nil => simp [pushEdge, graphNodes]
  | cons p rest ih =>
    obtain ⟨a, v⟩ := p
    by_cases hp : a = k
    · simp [pushEdge, graphNodes, hp]
    · simpa [pushEdge, graphNodes, hp] using ih

theorem alHasKey_iff_mem_graphNodes {g : Graph} {k : String} :
    alHasKey g k = true ↔ k ∈ graphNodes g := by
  induction g with
  | nil => simp [alHasKey, alGet, graphNodes]
  | cons p rest ih =>
    by_cases hp : p.1 = k
    · simp [alHasKey, alGet, hp, graphNodes]
    · simp only [alHasKey, alGet, hp, if_false, graphNodes, List.map_cons, List.mem_cons]
      rw [← graphNodes, ← alHasKey, ih]
      constructor
      · exact Or.inr
      · rintro (h | h)
        · exact absurd h.symm hp
        · exact h

/-- Well-formedness facts about a graph built by `_build_graph`, relative to
the relationship list it was built from. -/
structure GraphWF (rels : List Relationship) (g : Graph) : Prop where
  nodup : (graphNodes g).Nodup
  closed : ∀ n e, e ∈ adj g n → alHasKey g e.toDs = true
  rel_mem : ∀ n e, e ∈ adj g n → e.relationship ∈ rels

/-- One step of the `_build_graph` fold. -/
def buildStep (g : Graph) (rel : Relationship) : Graph :=
  let g1 := ensureKey g rel.left_dataset
  let g2 := ensureKey g1 rel.right_dataset
  let g3 := pushEdge g2 rel.left_dataset ⟨rel.right_dataset, rel, false⟩
  pushEdge g3 rel.right_dataset ⟨rel.left_dataset, rel, true⟩

theorem build_graph_eq_foldl (rels : List Relationship) :
    build_graph rels = rels.foldl buildStep [] := rfl

theorem build_graph_append (rels : List Relationship) (r : Relationship) :
    build_graph (rels ++ [r]) = buildStep (build_graph rels) r := by
  simp [build_graph_eq_foldl, List.foldl_append]

theorem alHasKey_ensureKey_self {g : Graph} {k : String} :
    alHasKey (ensureKey g k) k = true := by
  by_cases h : alHasKey g k
  · unfold ensureKey; rw [if_pos h]; exact h
  · unfold ensureKey; rw [if_neg h]
    have hg : alGet g k = none := Option.not_isSome_iff_eq_none.mp (by simpa [alHasKey] using h)
    simp [alHasKey, alGet_append_none hg, alGet]

theorem alHasKey_ensureKey_mono {g : Graph} {k n : String}
    (h : alHasKey g n = true) : alHasKey (ensureKey g k) n = true := by
  unfold ensureKey
  by_cases hk : alHasKey g k
  · rw [if_pos hk]; exact h
  · rw [if_neg hk]
    obtain ⟨v, hv⟩ := Option.isSome_iff_exists.mp h
    simp [alHasKey, alGet_append_some hv]

theorem alHasKey_pushEdge {g : Graph} {k n : String} {e : Edge} :
    alHasKey (pushEdge g k e) n = alHasKey g n := by
  simp only [alHasKey, alGet_pushEdge_first]
  by_cases h : n = k
  · rw [if_pos h]; cases alGet g n <;> simp
  · rw [if_neg h]

theorem mem_adj_pushEdge {g : Graph} {k n : String} {e e' : Edge}
    (h : e' ∈ adj (pushEdge g k e) n) : e' ∈ adj g n ∨ (n = k ∧ e' = e) := by
  simp only [adj, alGet_pushEdge_first] at h
  by_cases hk : n = k
  · rw [if_pos hk] at h
    cases hg : alGet g n with
    | none => rw [hg] at h; simp at h
    | some v =>
      rw [hg] at h
      simp only [Option.map_some', Option.getD_some, List.mem_append, List.mem_singleton] at h
      rcases h with h | h
      · exact Or.inl (by simp [adj, hg, h])
      · exact Or.inr ⟨hk, h⟩
  · rw [if_neg hk] at h
    exact Or.inl h

theorem mem_adj_ensureKey {g : Graph} {k n : String} {e : Edge}
    (h : e ∈ adj (ensureKey g k) n) : e ∈ adj g n := by
  simp only [adj, alGet_ensureKey] at h
  by_cases h1 : alHasKey g k
  · rwa [if_pos h1] at h
  · rw [if_neg h1] at h
    by_cases h2 : alHasKey g n
    · rwa [if_pos h2] at h
    · rw [if_neg h2] at h
      by_cases h3 : k = n <;> simp [h3] at h

theorem mem_adj_buildStep {g : Graph} {r : Relationship} {n : String} {e : Edge}
    (h : e ∈ adj (buildStep g r) n) :
    e ∈ adj g n ∨ (n = r.left_dataset ∧ e = ⟨r.right_dataset, r, false⟩) ∨
      (n = r.right_dataset ∧ e = ⟨r.left_dataset, r, true⟩) := by
  unfold buildStep at h
  rcases mem_adj_pushEdge h with h | ⟨hn, rfl⟩
  · rcases mem_adj_pushEdge h with h | ⟨hn, rfl⟩
    · exact Or.inl (mem_adj_ensureKey (mem_adj_ensureKey h))
    · exact Or.inr (Or.inl ⟨hn, rfl⟩)
  · exact Or.inr (Or.inr ⟨hn, rfl⟩)

theorem graphNodes_buildStep_nodup {g : Graph} {r : Relationship}
    (h : (graphNodes g).Nodup) : (graphNodes (buildStep g r)).Nodup := by
  unfold buildStep
  rw [graphNodes_pushEdge, graphNodes_pushEdge]
  have step : ∀ (g' : Graph) (k : String), (graphNodes g').Nodup →
      (graphNodes (ensureKey g' k)).Nodup := by
    intro g' k hg'
    rw [graphNodes_ensureKey]
    by_cases hk : alHasKey g' k
    · simpa [hk] using hg'
    · have : k ∉ graphNodes g' := fun hm =>
        hk (alHasKey_iff_mem_graphNodes.mpr hm)
      simp [hk, List.nodup_append, hg', this]
  exact step _ _ (step _ _ h)

theorem alHasKey_buildStep_mono {g : Graph} {r : Relationship} {n : String}
    (h : alHasKey g n = true) : alHasKey (buildStep g r) n = true := by
  unfold buildStep
  rw [alHasKey_pushEdge, alHasKey_pushEdge]
  exact alHasKey_ensureKey_mono (alHasKey_ensureKey_mono h)

theorem alHasKey_buildStep_left {g : Graph} {r : Relationship} :
    alHasKey (buildStep g r) r.left_dataset = true := by
  unfold buildStep
  rw [alHasKey_pushEdge, alHasKey_pushEdge]
  exact alHasKey_ensureKey_mono alHasKey_ensureKey_self

theorem alHasKey_buildStep_right {g : Graph} {r : Relationship} :
    alHasKey (buildStep g r) r.right_dataset = true := by
  unfold buildStep
  rw [alHasKey_pushEdge, alHasKey_pushEdge]
  exact alHasKey_ensureKey_self

theorem build_graph_wf (rels : List Relationship) :
    GraphWF rels (build_graph rels) := by
  induction rels using List.reverseRecOn with
  | nil =>
    exact ⟨by simp [build_graph, graphNodes],
           by intro n e h; simp [build_graph, adj, alGet] at h,
           by intro n e h; simp [build_graph, adj, alGet] at h⟩
  | append_singleton rs r ih =>
    rw [build_graph_append]
    refine ⟨graphNodes_buildStep_nodup ih.nodup, ?_, ?_⟩
    · intro n e h
      rcases mem_adj_buildStep h with h' | ⟨hn, rfl⟩ | ⟨hn, rfl⟩
      · exact alHasKey_buildStep_mono (ih.closed n e h')
      · exact alHasKey_buildStep_right
      · exact alHasKey_buildStep_left
    · intro n e h
      rcases mem_adj_buildStep h with h' | ⟨hn, rfl⟩ | ⟨hn, rfl⟩
      · exact List.mem_append_left _ (ih.rel_mem n e h')
      · simp
      · simp

/-! ## Facts about one BFS expansion step -/

theorem expand_inl_spec {t : String} {path : List Edge} {es : List Edge}
    {v : List String} {q : List (String × List Edge)} {res : List Edge}
    (h : expand t path es v q = .inl res) :
    ∃ e ∈ es, e.toDs = t ∧ res = path ++ [e] := by
  induction es generalizing v q with
  | nil => simp [expand] at h
  | cons e es' ih =>
    by_cases ht : e.toDs = t
    · simp only [expand, if_pos ht] at h
      cases h
      exact ⟨e, List.mem_cons_self e es', ht, rfl⟩
    · simp only [expand, if_neg ht] at h
      by_cases hv : e.toDs ∈ v
      · rw [if_pos hv] at h
        obtain ⟨e', he', ht', hres⟩ := ih h
        exact ⟨e', List.mem_cons_of_mem e he', ht', hres⟩
      · rw [if_neg hv] at h
        obtain ⟨e', he', ht', hres⟩ := ih h
        exact ⟨e', List.mem_cons_of_mem e he', ht', hres⟩

theorem expand_inr_no_target {t : String} {path : List Edge} {es : List Edge}
    {v : List String} {q : List (String × List Edge)}
    {v' : List String} {q' : List (String × List Edge)}
    (h : expand t path es v q = .inr (v', q')) :
    ∀ e ∈ es, e.toDs ≠ t := by
  induction es generalizing v q with
  | nil => intro e he; simp at he
  | cons e es' ih =>
    by_cases ht : e.toDs = t
    · simp [expand, if_pos ht] at h
    · simp only [expand, if_neg ht] at h
      intro e' he'
      rcases List.mem_cons.mp he' with rfl | he'
      · exact ht
      · by_cases hv : e.toDs ∈ v
        · rw [if_pos hv] at h; exact ih h e' he'
        · rw [if_neg hv] at h; exact ih h e' he'

theorem expand_inr_v_append {t : String} {path : List Edge} {es : List Edge}
    {v : List String} {q : List (String × List Edge)}
    {v' : List String} {q' : List (String × List Edge)}
    (h : expand t path es v q = .inr (v', q')) :
    ∃ Δ, v' = v ++ Δ := by
  induction es generalizing v q with
  | nil =>
    simp only [expand, Sum.inr.injEq, Prod.mk.injEq] at h
    exact ⟨[], by simp [h.1.symm]⟩
  | cons e es' ih =>
    by_cases ht : e.toDs = t
    · simp [expand, if_pos ht] at h
    · simp only [expand, if_neg ht] at h
      by_cases hv : e.toDs ∈ v
      · rw [if_pos hv] at h; exact ih h
      · rw [if_neg hv] at h
        obtain ⟨Δ, hΔ⟩ := ih h
        exact ⟨e.toDs :: Δ, by simp [hΔ]⟩

theorem expand_inr_q_append {t : String} {path : List Edge} {es : List Edge}
    {v : List String} {q : List (String × List Edge)}
    {v' : List String} {q' : List (String × List Edge)}
    (h : expand t path es v q = .inr (v', q')) :
    ∃ new, q' = q ++ new ∧
      ∀ pr ∈ new, ∃ e ∈ es, pr.1 = e.toDs ∧ pr.2 = path ++ [e] ∧ pr.1 ∉ v := by
  induction es generalizing v q with
  | nil =>
    simp only [expand, Sum.inr.injEq, Prod.mk.injEq] at h
    exact ⟨[], by simp [h.2.symm], by intro pr hpr; simp at hpr⟩
  | cons e es' ih =>
    by_cases ht : e.toDs = t
    · simp [expand, if_pos ht] at h
    · simp only [expand, if_neg ht] at h
      by_cases hv : e.toDs ∈ v
      · rw [if_pos hv] at h
        obtain ⟨new, hq, hnew⟩ := ih h
        refine ⟨new, hq, fun pr hpr => ?_⟩
        obtain ⟨e', he', h1, h2, h3⟩ := hnew pr hpr
        exact ⟨e', List.mem_cons_of_mem e he', h1, h2, h3⟩
      · rw [if_neg hv] at h
        obtain ⟨new, hq, hnew⟩ := ih h
        refine ⟨(e.toDs, path ++ [e]) :: new, by simpa using hq, fun pr hpr => ?_⟩
        rcases List.mem_cons.mp hpr with rfl | hpr
        · exact ⟨e, List.mem_cons_self e es', rfl, rfl, hv⟩
        · obtain ⟨e', he', h1, h2, h3⟩ := hnew pr hpr
          refine ⟨e', List.mem_cons_of_mem e he', h1, h2, fun hm => h3 ?_⟩
          exact List.mem_append_left _ hm

theorem expand_inr_v_nodup {t : String} {path : List Edge} {es : List Edge}
    {v : List String} {q : List (String × List Edge)}
    {v' : List String} {q' : List (String × List Edge)}
    (h : expand t path es v q = .inr (v', q')) (hv : v.Nodup) : v'.Nodup := by
  induction es generalizing v q with
  | nil =>
    simp only [expand, Sum.inr.injEq, Prod.mk.injEq] at h
    exact h.1 ▸ hv
  | cons e es' ih =>
    by_cases ht : e.toDs = t
    · simp [expand, if_pos ht] at h
    · simp only [expand, if_neg ht] at h
      by_cases hmem : e.toDs ∈ v
      · rw [if_pos hmem] at h; exact ih h hv
      · rw [if_neg hmem] at h
        exact ih h (by simp [List.nodup_append, hv, hmem])

theorem expand_inr_v_from {t : String} {path : List Edge} {es : List Edge}
    {v : List String} {q : List (String × List Edge)}
    {v' : List String} {q' : List (String × List Edge)}
    (h : expand t path es v q = .inr (v', q')) :
    ∀ x ∈ v', x ∈ v ∨ ∃ e ∈ es, x = e.toDs := by
  induction es generalizing v q with
  | nil =>
    simp only [expand, Sum.inr.injEq, Prod.mk.injEq] at h
    intro x hx
    exact Or.inl (h.1 ▸ hx)
  | cons e es' ih =>
    by_cases ht : e.toDs = t
    · simp [expand, if_pos ht] at h
    · simp only [expand, if_neg ht] at h
      intro x hx
      by_cases hmem : e.toDs ∈ v
      · rw [if_pos hmem] at h
        rcases ih h x hx with h' | ⟨e', he', hx'⟩
        · exact Or.inl h'
        · exact Or.inr ⟨e', List.mem_cons_of_mem e he', hx'⟩
      · rw [if_neg hmem] at h
        rcases ih h x hx with h' | ⟨e', he', hx'⟩
        · rcases List.mem_append.mp h' with h' | h'
          · exact Or.inl h'
          · exact Or.inr ⟨e, List.mem_cons_self e es', by simpa using h'⟩
        · exact Or.inr ⟨e', List.mem_cons_of_mem e he', hx'⟩

theorem expand_inr_targets_visited {t : String} {path : List Edge} {es : List Edge}
    {v : List String} {q : List (String × List Edge)}
    {v' : List String} {q' : List (String × List Edge)}
    (h : expand t path es v q = .inr (v', q')) :
    (∀ x ∈ v, x ∈ v') ∧ ∀ e ∈ es, e.toDs ∈ v' := by
  induction es generalizing v q with
  | nil =>
    simp only [expand, Sum.inr.injEq, Prod.mk.injEq] at h
    exact ⟨fun x hx => h.1 ▸ hx, by intro e he; simp at he⟩
  | cons e es' ih =>
    by_cases ht : e.toDs = t
    · simp [expand, if_pos ht] at h
    · simp only [expand, if_neg ht] at h
      by_cases hmem : e.toDs ∈ v
      · rw [if_pos hmem] at h
        obtain ⟨hsub, hall⟩ := ih h
        refine ⟨hsub, fun e' he' => ?_⟩
        rcases List.mem_cons.mp he' with rfl | he'
        · exact hsub _ hmem
        · exact hall e' he'
      · rw [if_neg hmem] at h
        obtain ⟨hsub, hall⟩ := ih h
        refine ⟨fun x hx => hsub x (List.mem_append_left _ hx), fun e' he' => ?_⟩
        rcases List.mem_cons.mp he' with rfl | he'
        · exact hsub _ (by simp)
        · exact hall e' he'

theorem expand_inr_count {t : String} {path : List Edge} {es : List Edge}
    {v : List String} {q : List (String × List Edge)}
    {v' : List String} {q' : List (String × List Edge)}
    (h : expand t path es v q = .inr (v', q')) :
    v'.length + q.length = v.length + q'.length := by
  induction es generalizing v q with
  | nil =>
    simp only [expand, Sum.inr.injEq, Prod.mk.injEq] at h
    rw [h.1, h.2]
  | cons e es' ih =>
    by_cases ht : e.toDs = t
    · simp [expand, if_pos ht] at h
    · simp only [expand, if_neg ht] at h
      by_cases hmem : e.toDs ∈ v
      · rw [if_pos hmem] at h; exact ih h
      · rw [if_neg hmem] at h
        have := ih h
        simp only [List.length_append, List.length_cons, List.length_nil] at this
        omega

theorem expand_inr_fresh_in_queue {t : String} {path : List Edge} {es : List Edge}
    {v : List String} {q : List (String × List Edge)}
    {v' : List String} {q' : List (String × List Edge)}
    (h : expand t path es v q = .inr (v', q')) :
    ∀ x ∈ v', x ∉ v → ∃ pr ∈ q', pr.1 = x := by
  induction es generalizing v q with
  | nil =>
    simp only [expand, Sum.inr.injEq, Prod.mk.injEq] at h
    intro x hx hxv
    exact absurd (h.1 ▸ hx) hxv
  | cons e es' ih =>
    by_cases ht : e.toDs = t
    · simp [expand, if_pos ht] at h
    · simp only [expand, if_neg ht] at h
      by_cases hmem : e.toDs ∈ v
      · rw [if_pos hmem] at h; exact ih h
      · rw [if_neg hmem] at h
        intro x hx hxv
        by_cases hxe : x = e.toDs
        · subst hxe
          obtain ⟨new, hq, _⟩ := expand_inr_q_append h
          exact ⟨(e.toDs, path ++ [e]), by rw [hq]; exact List.mem_append_left _ (by simp), rfl⟩
        · obtain ⟨pr, hpr, hprx⟩ :=
            ih h x hx (fun hm => (List.mem_append.mp hm).elim hxv (by simp [hxe]))
          exact ⟨pr, hpr, hprx⟩

/-! ## The BFS loop invariant

`BfsInv` captures the state of the Python loop between iterations: queue
entries carry genuine shortest paths from the source, queue path lengths are
sorted inside a window of width one, every fully-processed visited node either
sits at depth `≥ maxDepth` (it was pruned) or has had all its neighbours
checked (none was the target, all are visited). -/

structure BfsInv (g : Graph) (s t : String) (d : Nat)
    (q : List (String × List Edge)) (v : List String) : Prop where
  src_mem : s ∈ v
  tgt_not_mem : t ∉ v
  v_nodup : v.Nodup
  v_keys : ∀ x ∈ v, alHasKey g x = true
  q_in_v : ∀ p ∈ q, p.1 ∈ v
  q_paths : ∀ p ∈ q, IsPath g s p.1 p.2
  q_min : ∀ p ∈ q, ∀ π, IsPath g s p.1 π → p.2.length ≤ π.length
  q_sorted : q.Chain' (fun a b => a.2.length ≤ b.2.length)
  q_window : ∀ p ∈ q, ∀ p₀ ∈ q.head?, p.2.length ≤ p₀.2.length + 1
  q_le_d : ∀ p ∈ q, p.2.length ≤ d
  done_nodes : ∀ u ∈ v, (∀ p ∈ q, p.1 ≠ u) →
      (∀ π, IsPath g s u π → d ≤ π.length) ∨
      (∀ e ∈ adj g u, e.toDs ≠ t ∧ e.toDs ∈ v)

theorem sorted_head_le {q : List (String × List Edge)}
    (hs : q.Chain' (fun a b => a.2.length ≤ b.2.length)) :
    ∀ p ∈ q, ∀ p₀ ∈ q.head?, p₀.2.length ≤ p.2.length := by
  haveI : IsTrans (String × List Edge) (fun a b => a.2.length ≤ b.2.length) :=
    ⟨fun _ _ _ => Nat.le_trans⟩
  intro p hp p₀ hp₀
  cases q with
  | nil => simp at hp
  | cons h rest =>
    simp only [List.head?_cons, Option.mem_def, Option.some.injEq] at hp₀
    subst hp₀
    rcases List.mem_cons.mp hp with rfl | hp
    · exact le_refl _
    · have := List.chain'_iff_pairwise.mp hs
      exact (List.pairwise_cons.mp this).1 p hp

/-- Any path from the source to a node that is not yet visited is strictly
longer than the path of the queue's head entry. -/
theorem unvisited_far {g : Graph} {s t : String} {d : Nat}
    {q : List (String × List Edge)} {v : List String}
    (inv : BfsInv g s t d q v) {w : String} {π : List Edge}
    (hw : w ∉ v) (hπ : IsPath g s w π) :
    ∀ p₀ ∈ q.head?, p₀.2.length + 1 ≤ π.length := by
  intro p₀ hp₀
  have main : ∀ n w π, π.length = n → w ∉ v → IsPath g s w π →
      p₀.2.length + 1 ≤ π.length := by
    intro n
    induction n using Nat.strong_induction_on with
    | _ n ih =>
    intro w π hlen hw hπ
    cases hπr : π.reverse with
    | nil =>
      have hnil : π = [] := by simpa using congrArg List.reverse hπr
      subst hnil
      exact absurd ((isPath_nil_iff).mp hπ ▸ inv.src_mem) hw
    | cons e rs =>
      have hπeq : π = rs.reverse ++ [e] := by
        have := congrArg List.reverse hπr
        simpa using this
      subst hπeq
      obtain ⟨u, hu, he, rfl⟩ := isPath_snoc_iff.mp hπ
      by_cases huv : u ∈ v
      · by_cases huq : ∃ p ∈ q, p.1 = u
        · obtain ⟨p, hp, hpu⟩ := huq
          have h1 : p.2.length ≤ rs.reverse.length := inv.q_min p hp _ (hpu ▸ hu)
          have h2 : p₀.2.length ≤ p.2.length := sorted_head_le inv.q_sorted p hp p₀ hp₀
          simp only [List.length_append, List.length_cons, List.length_nil]
          omega
        · push_neg at huq
          rcases inv.done_nodes u huv huq with hfar | hnb
          · have h1 : d ≤ rs.reverse.length := hfar _ hu
            have hq0 : p₀ ∈ q := by
              cases q with
              | nil => simp at hp₀
              | cons a l =>
                simp only [List.head?_cons, Option.mem_def, Option.some.injEq] at hp₀
                subst hp₀; exact List.mem_cons_self a l
            have h2 : p₀.2.length ≤ d := inv.q_le_d p₀ hq0
            simp only [List.length_append, List.length_cons, List.length_nil]
            omega
          · exact absurd (hnb e he).2 hw
      · have h1 := ih rs.reverse.length (by simp [← hlen]) u rs.reverse rfl huv hu
        simp only [List.length_append, List.length_cons, List.length_nil]
        omega
  exact main π.length w π rfl hw hπ

/-- When the queue has emptied, no unvisited node is reachable within
`maxDepth` edges: every processed node was either pruned at depth `≥ maxDepth`
or had all its neighbours visited. -/
theorem queue_empty_far {g : Graph} {s t : String} {d : Nat} {v : List String}
    (inv : BfsInv g s t d [] v) {w : String} {π : List Edge}
    (hw : w ∉ v) (hπ : IsPath g s w π) : d + 1 ≤ π.length := by
  have main : ∀ n w π, π.length = n → w ∉ v → IsPath g s w π →
      d + 1 ≤ π.length := by
    intro n
    induction n using Nat.strong_induction_on with
    | _ n ih =>
    intro w π hlen hw hπ
    cases hπr : π.reverse with
    | nil =>
      have hnil : π = [] := by simpa using congrArg List.reverse hπr
      subst hnil
      exact absurd ((isPath_nil_iff).mp hπ ▸ inv.src_mem) hw
    | cons e rs =>
      have hπeq : π = rs.reverse ++ [e] := by
        have := congrArg List.reverse hπr
        simpa using this
      subst hπeq
      obtain ⟨u, hu, he, rfl⟩ := isPath_snoc_iff.mp hπ
      by_cases huv : u ∈ v
      · rcases inv.done_nodes u huv (by intro p hp; simp at hp) with hfar | hnb
        · have h1 : d ≤ rs.reverse.length := hfar _ hu
          simp only [List.length_append, List.length_cons, List.length_nil]
          omega
        · exact absurd (hnb e he).2 hw
      · have h1 := ih rs.reverse.length (by simp [← hlen]) u rs.reverse rfl huv hu
        simp only [List.length_append, List.length_cons, List.length_nil]
        omega
  exact main π.length w π rfl hw hπ

theorem nodup_subset_length {v l : List String} (hn : v.Nodup)
    (hs : ∀ x ∈ v, x ∈ l) : v.length ≤ l.length := by
  classical
  calc v.length = v.toFinset.card := (List.toFinset_card_of_nodup hn).symm
    _ ≤ l.toFinset.card := Finset.card_le_card (fun x hx => by
        simp only [List.mem_toFinset] at hx ⊢; exact hs x hx)
    _ ≤ l.length := l.toFinset_card_le

theorem chain'_of_const_len {l : List (String × List Edge)} {n : Nat}
    (h : ∀ p ∈ l, p.2.length = n) :
    l.Chain' (fun a b => a.2.length ≤ b.2.length) := by
  induction l with
  | nil => exact List.chain'_nil
  | cons a l ih =>
    rw [List.chain'_cons']
    refine ⟨?_, ih fun p hp => h p (List.mem_cons_of_mem a hp)⟩
    intro y hy
    have hya : y ∈ l := by
      cases l with
      | nil => simp at hy
      | cons b l' =>
        simp only [List.head?_cons, Option.mem_def, Option.some.injEq] at hy
        subst hy; exact List.mem_cons_self b l'
    rw [h a (List.mem_cons_self a l), h y (List.mem_cons_of_mem a hya)]

/-- Full functional correctness of the BFS loop: under the loop invariant and
with enough fuel, a `some` answer is a genuine shortest path to the target of
length at most `maxDepth`, and a `none` answer means every path to the target
is longer than `maxDepth`. -/
theorem bfsLoop_correct (g : Graph) (s t : String) (d : Nat) (hst : s ≠ t)
    (hclosed : ∀ n e, e ∈ adj g n → alHasKey g e.toDs = true) :
    ∀ fuel (q : List (String × List Edge)) (v : List String), BfsInv g s t d q v →
      q.length + ((graphNodes g).length - v.length) ≤ fuel →
      (∀ es, bfsLoop g t d fuel q v = some es →
        IsPath g s t es ∧ es.length ≤ d ∧ ∀ π, IsPath g s t π → es.length ≤ π.length) ∧
      (bfsLoop g t d fuel q v = none → ∀ π, IsPath g s t π → d < π.length) := by
  intro fuel
  induction fuel with
  | zero =>
    intro q v inv hfuel
    cases q with
    | nil =>
      constructor
      · intro es h; simp [bfsLoop] at h
      · intro _ π hπ
        have := queue_empty_far inv inv.tgt_not_mem hπ
        omega
    | cons p rest =>
      exfalso
      simp only [List.length_cons] at hfuel
      omega
  | succ fuel ih =>
    intro q v inv hfuel
    cases q with
    | nil =>
      constructor
      · intro es h; simp [bfsLoop] at h
      · intro _ π hπ
        have := queue_empty_far inv inv.tgt_not_mem hπ
        omega
    | cons hd rest =>
      obtain ⟨cur, path⟩ := hd
      have hheadpath : IsPath g s cur path := inv.q_paths _ (List.mem_cons_self _ _)
      have hheadmin : ∀ π, IsPath g s cur π → path.length ≤ π.length :=
        inv.q_min _ (List.mem_cons_self _ _)
      have hrest_sorted : rest.Chain' (fun a b => a.2.length ≤ b.2.length) :=
        (List.chain'_cons'.mp inv.q_sorted).2
      have hhead_le_next : ∀ y ∈ rest.head?, path.length ≤ y.2.length := by
        intro y hy
        exact (List.chain'_cons'.mp inv.q_sorted).1 y hy
      by_cases hprune : d ≤ path.length
      · -- depth-limit branch: `continue`
        have hred : bfsLoop g t d (fuel + 1) ((cur, path) :: rest) v =
            bfsLoop g t d fuel rest v := by
          simp only [bfsLoop]
          rw [if_pos hprune]
        rw [hred]
        have inv' : BfsInv g s t d rest v := by
          refine ⟨inv.src_mem, inv.tgt_not_mem, inv.v_nodup, inv.v_keys,
            fun p hp => inv.q_in_v p (List.mem_cons_of_mem _ hp),
            fun p hp => inv.q_paths p (List.mem_cons_of_mem _ hp),
            fun p hp => inv.q_min p (List.mem_cons_of_mem _ hp),
            hrest_sorted, ?_,
            fun p hp => inv.q_le_d p (List.mem_cons_of_mem _ hp), ?_⟩
          · intro p hp p₀ hp₀
            have h1 : p.2.length ≤ path.length + 1 :=
              inv.q_window p (List.mem_cons_of_mem _ hp) (cur, path) (by simp)
            have h2 : path.length ≤ p₀.2.length := hhead_le_next p₀ hp₀
            omega
          · intro u hu hnotin
            by_cases hcu : u = cur
            · subst hcu
              left
              intro π hπ
              exact le_trans hprune (hheadmin π hπ)
            · have : ∀ p ∈ (cur, path) :: rest, p.1 ≠ u := by
                intro p hp
                rcases List.mem_cons.mp hp with rfl | hp
                · exact fun h => hcu h.symm
                · exact hnotin p hp
              exact inv.done_nodes u hu this
        refine ih rest v inv' ?_
        simp only [List.length_cons] at hfuel
        omega
      · -- expansion branch
        cases hex : expand t path (adj g cur) v rest with
        | inl found =>
          have hred : bfsLoop g t d (fuel + 1) ((cur, path) :: rest) v = some found := by
            simp only [bfsLoop]
            rw [if_neg hprune, hex]
          rw [hred]
          obtain ⟨e, he, het, rfl⟩ := expand_inl_spec hex
          constructor
          · intro es hes
            cases hes
            refine ⟨isPath_snoc_iff.mpr ⟨cur, hheadpath, he, het⟩, ?_, ?_⟩
            · simp only [List.length_append, List.length_cons, List.length_nil]
              omega
            · intro π hπ
              cases hπr : π.reverse with
              | nil =>
                have hnil : π = [] := by simpa using congrArg List.reverse hπr
                subst hnil
                exact absurd (isPath_nil_iff.mp hπ) hst
              | cons e' rs =>
                have hπeq : π = rs.reverse ++ [e'] := by
                  have := congrArg List.reverse hπr
                  simpa using this
                subst hπeq
                obtain ⟨u, hu, he', ht'⟩ := isPath_snoc_iff.mp hπ
                simp only [List.length_append, List.length_cons, List.length_nil]
                by_cases huv : u ∈ v
                · by_cases huq : ∃ p ∈ (cur, path) :: rest, p.1 = u
                  · obtain ⟨p, hp, hpu⟩ := huq
                    have h1 : p.2.length ≤ rs.reverse.length := inv.q_min p hp _ (hpu ▸ hu)
                    have h2 : path.length ≤ p.2.length :=
                      sorted_head_le inv.q_sorted p hp (cur, path) (by simp)
                    omega
                  · push_neg at huq
                    rcases inv.done_nodes u huv huq with hfar | hnb
                    · have h1 : d ≤ rs.reverse.length := hfar _ hu
                      omega
                    · exact absurd ht' (hnb e' he').1
                · have h1 : path.length + 1 ≤ rs.reverse.length :=
                    unvisited_far inv huv hu (cur, path) (by simp)
                  omega
          · intro h; simp at h
        | inr pr =>
          obtain ⟨v', q'⟩ := pr
          have hred : bfsLoop g t d (fuel + 1) ((cur, path) :: rest) v =
              bfsLoop g t d fuel q' v' := by
            simp only [bfsLoop]
            rw [if_neg hprune, hex]
          rw [hred]
          have hnt := expand_inr_no_target hex
          obtain ⟨Δ, hvΔ⟩ := expand_inr_v_append hex
          obtain ⟨new, hqnew, hnewspec⟩ := expand_inr_q_append hex
          have hnodup' := expand_inr_v_nodup hex inv.v_nodup
          have hfrom := expand_inr_v_from hex
          obtain ⟨hvsub, htv⟩ := expand_inr_targets_visited hex
          have hcount := expand_inr_count hex
          have hfresh := expand_inr_fresh_in_queue hex
          have hnewlen : ∀ p ∈ new, p.2.length = path.length + 1 := by
            intro p hp
            obtain ⟨e, _, _, hp2, _⟩ := hnewspec p hp
            simp [hp2]
          have hvkeys' : ∀ x ∈ v', alHasKey g x = true := by
            intro x hx
            rcases hfrom x hx with hx' | ⟨e, he, rfl⟩
            · exact inv.v_keys x hx'
            · exact hclosed cur e he
          have inv' : BfsInv g s t d q' v' := by
            refine ⟨hvsub s inv.src_mem, ?_, hnodup', hvkeys', ?_, ?_, ?_, ?_, ?_, ?_, ?_⟩
            · intro ht'
              rcases hfrom t ht' with h' | ⟨e, he, rfl⟩
              · exact inv.tgt_not_mem h'
              · exact hnt e he rfl
            · intro p hp
              rw [hqnew] at hp
              rcases List.mem_append.mp hp with hp | hp
              · exact hvsub _ (inv.q_in_v p (List.mem_cons_of_mem _ hp))
              · obtain ⟨e, he, hp1, _, _⟩ := hnewspec p hp
                rw [hp1]; exact htv e he
            · intro p hp
              rw [hqnew] at hp
              rcases List.mem_append.mp hp with hp | hp
              · exact inv.q_paths p (List.mem_cons_of_mem _ hp)
              · obtain ⟨e, he, hp1, hp2, _⟩ := hnewspec p hp
                rw [hp1, hp2]
                exact isPath_snoc_iff.mpr ⟨cur, hheadpath, he, rfl⟩
            · intro p hp π hπ
              rw [hqnew] at hp
              rcases List.mem_append.mp hp with hp | hp
              · exact inv.q_min p (List.mem_cons_of_mem _ hp) π hπ
              · obtain ⟨e, he, hp1, hp2, hp3⟩ := hnewspec p hp
                have hfar : path.length + 1 ≤ π.length :=
                  unvisited_far inv hp3 hπ (cur, path) (by simp)
                rw [hp2]
                simp only [List.length_append, List.length_cons, List.length_nil]
                omega
            · rw [hqnew, List.chain'_append]
              refine ⟨hrest_sorted, chain'_of_const_len hnewlen, ?_⟩
              intro x hx y hy
              have hxmem : x ∈ rest := List.mem_of_mem_getLast? hx
              have h1 : x.2.length ≤ path.length + 1 :=
                inv.q_window x (List.mem_cons_of_mem _ hxmem) (cur, path) (by simp)
              have hymem : y ∈ new := by
                cases new with
                | nil => simp at hy
                | cons b l =>
                  simp only [List.head?_cons, Option.mem_def, Option.some.injEq] at hy
                  subst hy; exact List.mem_cons_self b l
              rw [hnewlen y hymem]
              omega
            · intro p hp p₀ hp₀
              rw [hqnew] at hp hp₀
              cases hrest : rest with
              | nil =>
                subst hrest
                simp only [List.nil_append] at hp hp₀
                have h1 := hnewlen p hp
                have hpm : p₀ ∈ new := by
                  cases new with
                  | nil => simp at hp₀
                  | cons b l =>
                    simp only [List.head?_cons, Option.mem_def, Option.some.injEq] at hp₀
                    subst hp₀; exact List.mem_cons_self b l
                rw [h1, hnewlen p₀ hpm]
                omega
              | cons r₀ rs =>
                subst hrest
                simp only [List.cons_append, List.head?_cons, Option.mem_def,
                  Option.some.injEq] at hp₀
                subst hp₀
                have hr₀ : path.length ≤ r₀.2.length := hhead_le_next r₀ (by simp)
                rcases List.mem_append.mp hp with hp | hp
                · have hpw : p.2.length ≤ path.length + 1 :=
                    inv.q_window p (List.mem_cons_of_mem _ hp) (cur, path) (by simp)
                  omega
                · rw [hnewlen p hp]
                  omega
            · intro p hp
              rw [hqnew] at hp
              rcases List.mem_append.mp hp with hp | hp
              · exact inv.q_le_d p (List.mem_cons_of_mem _ hp)
              · rw [hnewlen p hp]; omega
            · intro u hu hnotin
              by_cases huv : u ∈ v
              · by_cases hcu : u = cur
                · subst hcu
                  right
                  intro e he
                  exact ⟨hnt e he, htv e he⟩
                · have : ∀ p ∈ (cur, path) :: rest, p.1 ≠ u := by
                    intro p hp
                    rcases List.mem_cons.mp hp with rfl | hp
                    · exact fun h => hcu h.symm
                    · exact hnotin p (by rw [hqnew]; exact List.mem_append_left _ hp)
                  rcases inv.done_nodes u huv this with hfar | hnb
                  · exact Or.inl hfar
                  · exact Or.inr fun e he => ⟨(hnb e he).1, hvsub _ (hnb e he).2⟩
              · obtain ⟨p, hp, hp1⟩ := hfresh u hu huv
                exact absurd hp1 (hnotin p hp)
          refine ih q' v' inv' ?_
          have hle : v'.length ≤ (graphNodes g).length :=
            nodup_subset_length hnodup'
              (fun x hx => alHasKey_iff_mem_graphNodes.mp (hvkeys' x hx))
          have hvle : v.length ≤ v'.length := by
            rw [hvΔ]; simp
          simp only [List.length_cons] at hfuel
          omega

/-- Top-level BFS specification for `find_join_path`: a `some` answer is a
shortest connecting path of length at most `max_depth`; a `none` answer means
every connecting path is longer than `max_depth`. -/
theorem find_join_path_spec (rels : List Relationship) (s t : String) (d : Nat) :
    (∀ es, find_join_path rels s t d = some es →
      IsPath (build_graph rels) s t es ∧ es.length ≤ d ∧
      ∀ π, IsPath (build_graph rels) s t π → es.length ≤ π.length) ∧
    (find_join_path rels s t d = none →
      ∀ π, IsPath (build_graph rels) s t π → d < π.length) := by
  have hwf := build_graph_wf rels
  by_cases hst : s = t
  · subst hst
    constructor
    · intro es hes
      simp only [find_join_path, if_pos rfl] at hes
      cases hes
      exact ⟨.nil s, by simp, fun π _ => by simp⟩
    · intro h
      simp [find_join_path] at h
  · by_cases hks : alHasKey (build_graph rels) s
    · by_cases hkt : alHasKey (build_graph rels) t
      · have hred : find_join_path rels s t d =
            bfsLoop (build_graph rels) t d (graphNodes (build_graph rels)).length
              [(s, [])] [s] := by
          simp only [find_join_path, if_neg hst, hks, hkt]
          simp
        have inv₀ : BfsInv (build_graph rels) s t d [(s, [])] [s] := by
          refine ⟨List.mem_singleton_self s, ?_, List.nodup_singleton s, ?_, ?_, ?_, ?_,
            List.chain'_singleton _, ?_, ?_, ?_⟩
          · intro hmem
            exact hst ((List.mem_singleton.mp hmem)).symm
          · intro x hx
            rw [List.mem_singleton.mp hx]; exact hks
          · intro p hp
            rw [List.mem_singleton.mp hp]; exact List.mem_singleton_self s
          · intro p hp
            rw [List.mem_singleton.mp hp]; exact .nil s
          · intro p hp π hπ
            rw [List.mem_singleton.mp hp]; simp
          · intro p hp p₀ hp₀
            rw [List.mem_singleton.mp hp]; simp
          · intro p hp
            rw [List.mem_singleton.mp hp]; simp
          · intro u hu hnotin
            exfalso
            exact hnotin (s, []) (List.mem_singleton_self _) (List.mem_singleton.mp hu).symm
        have hN : 1 ≤ (graphNodes (build_graph rels)).length := by
          have := alHasKey_iff_mem_graphNodes.mp hks
          exact List.length_pos_of_mem this
        have := bfsLoop_correct (build_graph rels) s t d hst hwf.closed
          (graphNodes (build_graph rels)).length [(s, [])] [s] inv₀
          (by simp only [List.length_singleton]; omega)
        rw [hred]
        exact this
      · have hred : find_join_path rels s t d = none := by
          simp [find_join_path, if_neg hst, hks, hkt]
        rw [hred]
        constructor
        · intro es h; cases h
        · intro _ π hπ
          exfalso
          cases hπr : π.reverse with
          | nil =>
            have hnil : π = [] := by simpa using congrArg List.reverse hπr
            subst hnil
            exact hst (isPath_nil_iff.mp hπ)
          | cons e rs =>
            have hπeq : π = rs.reverse ++ [e] := by
              have := congrArg List.reverse hπr
              simpa using this
            subst hπeq
            obtain ⟨u, _, he, ht'⟩ := isPath_snoc_iff.mp hπ
            exact hkt (ht' ▸ hwf.closed u e he)
    · have hred : find_join_path rels s t d = none := by
        simp [find_join_path, if_neg hst, hks]
      rw [hred]
      constructor
      · intro es h; cases h
      · intro _ π hπ
        exfalso
        cases hπ with
        | nil => exact hst rfl
        | cons he _ =>
          rename_i e es'
          have : alGet (build_graph rels) s = none :=
            Option.not_isSome_iff_eq_none.mp (by simpa [alHasKey] using hks)
          rw [adj, this] at he
          simp at he

/-! ## Multi-dataset path search (`find_join_path_multi`)

The Python loop keeps a `connected` set (seeded with the first required
dataset) and a `remaining` set, repeatedly picks the globally shortest
point-to-point path between the two sets (`if path and len(path) <
best_distance` — note the emptiness guard), merges its edges, moves the far
endpoint, and finally de-duplicates the accumulated edges by relationship id.
CPython `set` iteration order is implementation-defined; the embedding
iterates both sets in insertion order, and no property proved below depends
on the iteration order. -/

/-- First-occurrence de-duplication, modelling `set(xs)` construction. -/
def dedupStrings : List String → List String → List String
  | [], _ => []
  | x :: xs, seen =>
    if x ∈ seen then dedupStrings xs seen
    else x :: dedupStrings xs (seen ++ [x])

theorem mem_dedupStrings {y : String} : ∀ {xs seen : List String},
    y ∈ dedupStrings xs seen ↔ y ∈ xs ∧ y ∉ seen := by
  intro xs
  induction xs with
  | nil => intro seen; simp [dedupStrings]
  | cons x xs ih =>
    intro seen
    by_cases hx : x ∈ seen
    · rw [dedupStrings, if_pos hx, ih]
      constructor
      · rintro ⟨h1, h2⟩; exact ⟨List.mem_cons_of_mem x h1, h2⟩
      · rintro ⟨h1, h2⟩
        rcases List.mem_cons.mp h1 with rfl | h1
        · exact absurd hx h2
        · exact ⟨h1, h2⟩
    · rw [dedupStrings, if_neg hx]
      constructor
      · intro hmem
        rcases List.mem_cons.mp hmem with rfl | hmem
        · exact ⟨List.mem_cons_self _ _, hx⟩
        · obtain ⟨h1, h2⟩ := ih.mp hmem
          exact ⟨List.mem_cons_of_mem x h1, fun hs => h2 (List.mem_append_left _ hs)⟩
      · rintro ⟨h1, h2⟩
        rcases List.mem_cons.mp h1 with rfl | h1
        · exact List.mem_cons_self _ _
        · by_cases hxy : y = x
          · subst hxy; exact List.mem_cons_self _ _
          · exact List.mem_cons_of_mem x (ih.mpr ⟨h1, fun hs =>
              (List.mem_append.mp hs).elim h2 (fun h => hxy (List.mem_singleton.mp h))⟩)

/-- The body of the innermost `for target_ds in remaining` loop:
`path = self.find_join_path(connected_ds, target_ds, max_depth)` followed by
`if path and len(path) < best_distance`. -/
def innerStep (rels : List Relationship) (d : Nat) (c : String)
    (acc : Option (String × List Edge)) (tg : String) : Option (String × List Edge) :=
  match find_join_path rels c tg d with
  | none => acc
  | some p =>
    if p = [] then acc
    else
      match acc with
      | none => some (tg, p)
      | some (tg0, p0) => if p.length < p0.length then some (tg, p) else some (tg0, p0)

/-- The nested `for connected_ds in connected: for target_ds in remaining:`
search for the globally shortest path between the two sets. -/
def bestCandidate (rels : List Relationship) (d : Nat)
    (connected remaining : List String) : Option (String × List Edge) :=
  connected.foldl (fun acc c => remaining.foldl (innerStep rels d c) acc) none

theorem innerStep_some {rels : List Relationship} {d : Nat} {c : String}
    {acc : Option (String × List Edge)} {tg b : String} {p : List Edge}
    (h : innerStep rels d c acc tg = some (b, p)) :
    acc = some (b, p) ∨ (b = tg ∧ p ≠ [] ∧ find_join_path rels c tg d = some p) := by
  unfold innerStep at h
  split at h
  · exact Or.inl h
  · rename_i q hf
    by_cases hq : q = []
    · rw [if_pos hq] at h; exact Or.inl h
    · rw [if_neg hq] at h
      split at h
      · simp only [Option.some.injEq, Prod.mk.injEq] at h
        refine Or.inr ⟨h.1.symm, ?_, ?_⟩
        · rw [h.2] at hq; exact hq
        · rw [hf, h.2]
      · rename_i tg0 p0
        by_cases hlt : q.length < p0.length
        · rw [if_pos hlt] at h
          simp only [Option.some.injEq, Prod.mk.injEq] at h
          refine Or.inr ⟨h.1.symm, ?_, ?_⟩
          · rw [h.2] at hq; exact hq
          · rw [hf, h.2]
        · rw [if_neg hlt] at h
          exact Or.inl h

theorem inner_fold_some {rels : List Relationship} {d : Nat} {c : String}
    {R C : List String} (hc : c ∈ C) :
    ∀ (rem : List String) (acc : Option (String × List Edge)),
      (∀ x ∈ rem, x ∈ R) →
      (∀ b p, acc = some (b, p) →
        b ∈ R ∧ p ≠ [] ∧ ∃ c' ∈ C, find_join_path rels c' b d = some p) →
      ∀ b p, rem.foldl (innerStep rels d c) acc = some (b, p) →
        b ∈ R ∧ p ≠ [] ∧ ∃ c' ∈ C, find_join_path rels c' b d = some p := by
  intro rem
  induction rem with
  | nil => intro acc _ hacc b p h; exact hacc b p h
  | cons tg rem ih =>
    intro acc hsub hacc b p h
    rw [List.foldl_cons] at h
    refine ih (innerStep rels d c acc tg) (fun x hx => hsub x (List.mem_cons_of_mem _ hx))
      ?_ b p h
    intro b' p' h'
    rcases innerStep_some h' with h' | ⟨heq, hne, hfind⟩
    · exact hacc b' p' h'
    · subst heq
      exact ⟨hsub _ (List.mem_cons_self _ _), hne, c, hc, hfind⟩

theorem bestCandidate_some {rels : List Relationship} {d : Nat}
    {connected remaining : List String} {b : String} {p : List Edge}
    (h : bestCandidate rels d connected remaining = some (b, p)) :
    b ∈ remaining ∧ p ≠ [] ∧ ∃ c ∈ connected, find_join_path rels c b d = some p := by
  unfold bestCandidate at h
  have main : ∀ (conn : List String) (acc : Option (String × List Edge)),
      (∀ x ∈ conn, x ∈ connected) →
      (∀ b' p', acc = some (b', p') →
        b' ∈ remaining ∧ p' ≠ [] ∧ ∃ c ∈ connected, find_join_path rels c b' d = some p') →
      ∀ b' p',
        conn.foldl (fun acc c => remaining.foldl (innerStep rels d c) acc) acc = some (b', p') →
        b' ∈ remaining ∧ p' ≠ [] ∧ ∃ c ∈ connected, find_join_path rels c b' d = some p' := by
    intro conn
    induction conn with
    | nil => intro acc _ hacc b' p' h'; exact hacc b' p' h'
    | cons c conn ih =>
      intro acc hsub hacc b' p' h'
      rw [List.foldl_cons] at h'
      refine ih _ (fun x hx => hsub x (List.mem_cons_of_mem _ hx)) ?_ b' p' h'
      intro b'' p'' h''
      exact inner_fold_some (hsub c (List.mem_cons_self _ _)) remaining acc
        (fun x hx => hx) hacc b'' p'' h''
  exact main connected none (fun x hx => hx) (by intro b' p' h'; cases h') b p h

/-- The `while remaining:` loop of `find_join_path_multi`, with fuel
`remaining.length` (each iteration removes exactly one remaining dataset). -/
def multiLoop (rels : List Relationship) (d : Nat) :
    Nat → List String → List String → List Edge → Option (List Edge)
  | _, _, [], acc => some acc
  | 0, _, _ :: _, _ => none
  | fuel + 1, connected, r :: rs, acc =>
    match bestCandidate rels d connected (r :: rs) with
    | none => none
    | some (best, path) =>
      multiLoop rels d fuel (connected ++ [best]) ((r :: rs).erase best) (acc ++ path)

/-- `seen_rels`-based de-duplication of the accumulated edge list. -/
def dedupEdges : List Edge → List String → List Edge
  | [], _ => []
  | e :: es, seen =>
    if e.relationship.id ∈ seen then dedupEdges es seen
    else e :: dedupEdges es (seen ++ [e.relationship.id])

/-- `RelationshipResolver.find_join_path_multi`. -/
def find_join_path_multi (rels : List Relationship) (ids : List String)
    (d : Nat) : Option (List Edge) :=
  if ids.length < 2 then some []
  else
    match ids with
    | [] => some []
    | x :: rest =>
      let remaining := dedupStrings rest []
      match multiLoop rels d remaining.length [x] remaining [] with
      | none => none
      | some all_edges => some (dedupEdges all_edges [])

theorem dedupEdges_ids_nodup : ∀ (es : List Edge) (seen : List String),
    ((dedupEdges es seen).map (fun e => e.relationship.id)).Nodup ∧
    ∀ i ∈ (dedupEdges es seen).map (fun e => e.relationship.id), i ∉ seen := by
  intro es
  induction es with
  | nil => intro seen; simp [dedupEdges]
  | cons e es ih =>
    intro seen
    by_cases hm : e.relationship.id ∈ seen
    · rw [dedupEdges, if_pos hm]
      exact ih seen
    · rw [dedupEdges, if_neg hm]
      obtain ⟨hnd, hnotin⟩ := ih (seen ++ [e.relationship.id])
      simp only [List.map_cons, List.nodup_cons]
      refine ⟨⟨?_, hnd⟩, ?_⟩
      · intro hmem
        exact hnotin _ hmem (List.mem_append_right _ (List.mem_singleton_self _))
      · intro i hi
        rcases List.mem_cons.mp hi with rfl | hi
        · exact hm
        · exact fun hs => hnotin i hi (List.mem_append_left _ hs)

theorem multiLoop_some_reaches {rels : List Relationship} {d : Nat} {x : String} :
    ∀ (fuel : Nat) (connected remaining : List String) (acc es : List Edge),
      multiLoop rels d fuel connected remaining acc = some es →
      (∀ c ∈ connected, Reaches (build_graph rels) x c) →
      ∀ y ∈ connected ++ remaining, Reaches (build_graph rels) x y := by
  intro fuel
  induction fuel with
  | zero =>
    intro connected remaining acc es h hconn y hy
    cases remaining with
    | nil => simpa using hconn y (by simpa using hy)
    | cons r rs => simp [multiLoop] at h
  | succ fuel ih =>
    intro connected remaining acc es h hconn y hy
    cases remaining with
    | nil => simpa using hconn y (by simpa using hy)
    | cons r rs =>
      rw [multiLoop] at h
      cases hb : bestCandidate rels d connected (r :: rs) with
      | none => rw [hb] at h; cases h
      | some pr =>
        obtain ⟨best, path⟩ := pr
        rw [hb] at h
        obtain ⟨hbmem, hpne, c, hcmem, hfind⟩ := bestCandidate_some hb
        have hreach_best : Reaches (build_graph rels) x best := by
          obtain ⟨π, hπ⟩ := hconn c hcmem
          obtain ⟨hp, _, _⟩ := (find_join_path_spec rels c best d).1 path hfind
          exact ⟨π ++ path, isPath_append hπ hp⟩
        have hconn' : ∀ c' ∈ connected ++ [best], Reaches (build_graph rels) x c' := by
          intro c' hc'
          rcases List.mem_append.mp hc' with hc' | hc'
          · exact hconn c' hc'
          · rw [List.mem_singleton.mp hc']; exact hreach_best
        have := ih (connected ++ [best]) ((r :: rs).erase best) (acc ++ path) es h hconn'
        rcases List.mem_append.mp hy with hy | hy
        · exact this y (List.mem_append_left _ (List.mem_append_left _ hy))
        · by_cases hyb : y = best
          · subst hyb; exact hreach_best
          · exact this y (List.mem_append_right _ ((List.mem_erase_of_ne hyb).mpr hy))

/-- The fuel `remaining.length` used by `find_join_path_multi` is canonical:
any fuel at least `remaining.length` computes the same answer, because every
iteration removes exactly one element of `remaining`. -/
theorem multiLoop_fuel_irrelevant {rels : List Relationship} {d : Nat} :
    ∀ (f1 f2 : Nat) (connected remaining : List String) (acc : List Edge),
      remaining.length ≤ f1 → remaining.length ≤ f2 →
      multiLoop rels d f1 connected remaining acc =
        multiLoop rels d f2 connected remaining acc := by
  intro f1
  induction f1 with
  | zero =>
    intro f2 connected remaining acc h1 h2
    cases remaining with
    | nil => cases f2 <;> rfl
    | cons r rs => simp at h1
  | succ f1 ih =>
    intro f2 connected remaining acc h1 h2
    cases remaining with
    | nil => cases f2 <;> rfl
    | cons r rs =>
      cases f2 with
      | zero => simp at h2
      | succ f2 =>
        rw [multiLoop, multiLoop]
        cases hb : bestCandidate rels d connected (r :: rs) with
        | none => rfl
        | some pr =>
          obtain ⟨best, path⟩ := pr
          obtain ⟨hbmem, _, _⟩ := bestCandidate_some hb
          have hlen : ((r :: rs).erase best).length = (r :: rs).length - 1 :=
            List.length_erase_of_mem hbmem
          simp only [List.length_cons] at h1 h2 hlen
          exact ih f2 (connected ++ [best]) ((r :: rs).erase best) (acc ++ path)
            (by omega) (by omega)

/-! ## Concrete relationship fixtures used by the resolver claims -/

def relAB : Relationship := ⟨"r1", "A", "B", some "inner", [⟨"id", "=", "a_id", none⟩]⟩
def relBC : Relationship := ⟨"r2", "B", "C", some "inner", [⟨"id", "=", "b_id", none⟩]⟩
def starAB : Relationship := ⟨"s1", "A", "B", some "inner", [⟨"id", "=", "a_id", none⟩]⟩
def starAC : Relationship := ⟨"s2", "A", "C", some "inner", [⟨"id", "=", "a_id", none⟩]⟩
def starAD : Relationship := ⟨"s3", "A", "D", some "inner", [⟨"id", "=", "a_id", none⟩]⟩

theorem find_join_path_multi_cons_eq (rels : List Relationship) (x : String)
    (rest : List String) (d : Nat) (h : ¬ (x :: rest).length < 2) :
    find_join_path_multi rels (x :: rest) d =
      match multiLoop rels d (dedupStrings rest []).length [x]
          (dedupStrings rest []) [] with
      | none => none
      | some all_edges => some (dedupEdges all_edges []) := by
  unfold find_join_path_multi
  rw [if_neg h]

/-- **C3**: for every relationship graph and every pair of dataset ids,
`find_join_path` performs breadth-first search: whenever a connecting path of
at most `max_depth` edges exists it returns a connecting path with the minimum
number of edges (and within the depth bound), and it returns not-found when
every connecting path exceeds `max_depth`.  Concretely, with only `A→B` and
`B→C` declared, `find_join_path A C` (depth 5, the default) returns a 2-edge
path and `find_join_path A C 1` returns not-found. -/
theorem C3_find_join_path_bfs_shortest :
    (∀ (rels : List Relationship) (s t : String) (d : Nat),
      ((∃ π, IsPath (build_graph rels) s t π ∧ π.length ≤ d) →
        ∃ es, find_join_path rels s t d = some es ∧
          IsPath (build_graph rels) s t es ∧ es.length ≤ d ∧
          ∀ π, IsPath (build_graph rels) s t π → es.length ≤ π.length) ∧
      ((∀ π, IsPath (build_graph rels) s t π → d < π.length) →
        find_join_path rels s t d = none)) ∧
    find_join_path [relAB, relBC] "A" "C" 5 =
      some [⟨"B", relAB, false⟩, ⟨"C", relBC, false⟩] ∧
    find_join_path [relAB, relBC] "A" "C" 1 = none := by
  refine ⟨?_, by decide, by decide⟩
  intro rels s t d
  constructor
  · rintro ⟨π, hπ, hlen⟩
    cases hfind : find_join_path rels s t d with
    | none =>
      have := (find_join_path_spec rels s t d).2 hfind π hπ
      omega
    | some es => exact ⟨es, rfl, (find_join_path_spec rels s t d).1 es hfind⟩
  · intro hall
    cases hfind : find_join_path rels s t d with
    | none => rfl
    | some es =>
      obtain ⟨hp, hle, _⟩ := (find_join_path_spec rels s t d).1 es hfind
      have := hall es hp
      omega

theorem C3_find_join_path_bfs_shortest_witness :
    ∃ es, find_join_path [relAB, relBC] "A" "C" 5 = some es ∧
      IsPath (build_graph [relAB, relBC]) "A" "C" es ∧ es.length ≤ 5 ∧
      ∀ π, IsPath (build_graph [relAB, relBC]) "A" "C" π → es.length ≤ π.length :=
  (C3_find_join_path_bfs_shortest.1 [relAB, relBC] "A" "C" 5).1
    ⟨[⟨"B", relAB, false⟩, ⟨"C", relBC, false⟩],
      IsPath.cons (by decide) (IsPath.cons (by decide) (IsPath.nil _)), by decide⟩

/-- **C2**: `find_join_path_multi` greedily grows a connected set; whenever it
returns an edge list the relationship ids in it are pairwise distinct; when
some required dataset is not connected to the first one it returns not-found;
and on the star `A→B`, `A→C`, `A→D` with required `[B, C, D]` it returns
exactly three edges, every one incident to the hub `A`. -/
theorem C2_find_join_path_multi_greedy :
    (∀ (rels : List Relationship) (ids : List String) (d : Nat) (es : List Edge),
      find_join_path_multi rels ids d = some es →
      (es.map (fun e => e.relationship.id)).Nodup) ∧
    (∀ (rels : List Relationship) (x : String) (rest : List String) (d : Nat),
      (∃ tg ∈ x :: rest, ¬ Reaches (build_graph rels) x tg) →
      find_join_path_multi rels (x :: rest) d = none) ∧
    find_join_path_multi [starAB, starAC, starAD] ["B", "C", "D"] 10 =
      some [⟨"A", starAB, true⟩, ⟨"C", starAC, false⟩, ⟨"D", starAD, false⟩] ∧
    (∀ e ∈ [(⟨"A", starAB, true⟩ : Edge), ⟨"C", starAC, false⟩, ⟨"D", starAD, false⟩],
      e.relationship.left_dataset = "A") := by
  refine ⟨?_, ?_, by decide, by decide⟩
  · intro rels ids d es h
    by_cases hlen : ids.length < 2
    · unfold find_join_path_multi at h
      rw [if_pos hlen] at h
      cases ids with
      | nil => cases h; simp
      | cons x rest => cases h; simp
    · cases ids with
      | nil => simp at hlen
      | cons x rest =>
        rw [find_join_path_multi_cons_eq rels x rest d hlen] at h
        cases hm : multiLoop rels d (dedupStrings rest []).length [x]
            (dedupStrings rest []) [] with
        | none =>
          rw [hm] at h
          exact Option.noConfusion (show (none : Option (List Edge)) = some es from h)
        | some all_edges =>
          rw [hm] at h
          obtain rfl := Option.some.inj
            (show some (dedupEdges all_edges []) = some es from h)
          exact (dedupEdges_ids_nodup all_edges []).1
  · intro rels x rest d hex
    obtain ⟨tg, htg, hnr⟩ := hex
    cases hfind : find_join_path_multi rels (x :: rest) d with
    | none => rfl
    | some es =>
      exfalso
      by_cases hlen : (x :: rest).length < 2
      · have hrest : rest = [] := by
          cases rest with
          | nil => rfl
          | cons a l => simp only [List.length_cons] at hlen; omega
        subst hrest
        have : tg = x := by simpa using htg
        subst this
        exact hnr ⟨[], IsPath.nil _⟩
      · rw [find_join_path_multi_cons_eq rels x rest d hlen] at hfind
        cases hm : multiLoop rels d (dedupStrings rest []).length [x]
            (dedupStrings rest []) [] with
        | none =>
          rw [hm] at hfind
          exact Option.noConfusion (show (none : Option (List Edge)) = some es from hfind)
        | some all_edges =>
          have hreach := multiLoop_some_reaches _ [x] (dedupStrings rest []) [] all_edges hm
            (by intro c hc; rw [List.mem_singleton.mp hc]; exact ⟨[], IsPath.nil _⟩)
          rcases List.mem_cons.mp htg with rfl | htg
          · exact hnr ⟨[], IsPath.nil _⟩
          · exact hnr (hreach tg (List.mem_append_right _
              (mem_dedupStrings.mpr ⟨htg, by simp⟩)))

theorem C2_find_join_path_multi_greedy_witness :
    ((([(⟨"A", starAB, true⟩ : Edge), ⟨"C", starAC, false⟩, ⟨"D", starAD, false⟩]).map
        (fun e => e.relationship.id)).Nodup) :=
  C2_find_join_path_multi_greedy.1 [starAB, starAC, starAD] ["B", "C", "D"] 10 _ (by decide)

/-! ## SQL generator (`sql_generator.py`)

The generator's context is the parsed context dictionary: `__init__` builds
`{ds['id']: ds}`-style dictionaries for datasets, metrics and filters.  In a
dict comprehension a duplicated key keeps the *last* value, so `dictLookup`
searches from the back of the declaration list. -/

structure Dataset where
  id : String
  /-- the optional `'alias'` key (`alias` is reserved in Lean) -/
  aliasName : Option String := none
deriving DecidableEq, Repr

structure Metric where
  id : String
  expression : String
deriving DecidableEq, Repr

structure FilterParam where
  name : String
  data_type : Option String := none
deriving DecidableEq, Repr

/-- A filter definition (named `FilterDef` to avoid the `Filter` of order
theory). -/
structure FilterDef where
  id : String
  condition : String
  parameters : Option (List FilterParam) := none
deriving DecidableEq, Repr

structure SQLContext where
  datasets : List Dataset := []
  metrics : List Metric := []
  filters : List FilterDef := []
deriving DecidableEq, Repr

/-- Lookup in a `{x[key]: x for x in xs}` dictionary: the last entry with the
requested key wins. -/
def dictLookup {α : Type} (key : α → String) : List α → String → Option α
  | [], _ => none
  | x :: xs, k =>
    match dictLookup key xs k with
    | some v => some v
    | none => if key x = k then some x else none

theorem dictLookup_eq_none_iff {α : Type} {key : α → String} :
    ∀ {l : List α} {k : String}, dictLookup key l k = none ↔ k ∉ l.map key := by
  intro l
  induction l with
  | nil => intro k; simp [dictLookup]
  | cons x xs ih =>
    intro k
    rw [dictLookup]
    cases hx : dictLookup key xs k with
    | some v =>
      have hmem : k ∈ xs.map key := by
        by_contra hm
        rw [← ih] at hm
        rw [hm] at hx
        exact Option.noConfusion hx
      simp only [List.map_cons, List.mem_cons]
      constructor
      · intro h; cases h
      · intro h; exact absurd (Or.inr hmem) h
    | none =>
      by_cases hk : key x = k
      · simp [hk]
      · simp only [if_neg hk, List.map_cons, List.mem_cons]
        constructor
        · intro _ h
          rcases h with h | h
          · exact hk h.symm
          · rw [ih] at hx; exact hx h
        · intro _; trivial

/-- ASCII upper-casing, modelling `str.upper()` on the ASCII inputs used
here. -/
def pyStrUpper (s : String) : String := ⟨s.data.map Char.toUpper⟩

/-- `_build_select_clause`'s loop body: a select column that is a declared
metric id becomes `«expression» AS «id»`; every other column passes through
unchanged. -/
def expandedColumns (ctx : SQLContext) : List String → List String
  | [] => []
  | col :: cols =>
    (match dictLookup Metric.id ctx.metrics col with
     | some m => m.expression ++ " AS " ++ col
     | none => col) :: expandedColumns ctx cols

def build_select_clause (ctx : SQLContext) (cols : List String) : String :=
  String.intercalate ",\n    " (expandedColumns ctx cols)

/-- `self.datasets.get(ds_id, {...}).get('alias', ds_id)`. -/
def dsAlias (ctx : SQLContext) (dsId : String) : String :=
  match dictLookup Dataset.id ctx.datasets dsId with
  | some ds => ds.aliasName.getD dsId
  | none => dsId

/-- The reversed-condition comprehension of `_build_from_clause`: left and
right column names are exchanged and the optional `condition_type` key is
dropped. -/
def swapJoinCondition (c : JoinCondition) : JoinCondition :=
  ⟨c.right_column, c.operator, c.left_column, none⟩

def edgeLeftDs (edge : Edge) : String :=
  if edge.reverse then edge.relationship.right_dataset else edge.relationship.left_dataset

def edgeRightDs (edge : Edge) : String :=
  if edge.reverse then edge.relationship.left_dataset else edge.relationship.right_dataset

/-- The conditions used by `_build_from_clause` for one edge: swapped for a
reverse edge, as declared otherwise. -/
def edgeJoinConditions (edge : Edge) : List JoinCondition :=
  if edge.reverse then edge.relationship.conditions.map swapJoinCondition
  else edge.relationship.conditions

/-- The inner `for cond in conditions` loop: the first condition (or any with
`condition_type` `'on'`) is emitted bare, later non-`'on'` conditions get the
upper-cased type prefix. -/
def buildJoinConds (leftAl rightAl : String) :
    List JoinCondition → List String → List String
  | [], acc => acc
  | c :: cs, acc =>
    let lc := leftAl ++ "." ++ c.left_column
    let rc := rightAl ++ "." ++ c.right_column
    let ct := c.condition_type.getD "on"
    let s :=
      if ct = "on" ∨ acc.length = 0 then lc ++ " " ++ c.operator ++ " " ++ rc
      else pyStrUpper ct ++ " " ++ lc ++ " " ++ c.operator ++ " " ++ rc
    buildJoinConds leftAl rightAl cs (acc ++ [s])

/-- `list(self.datasets.values())[0]` for the no-join-path branch: the first
insertion-ordered key's (last-bound) value. -/
def firstDatasetValue (l : List Dataset) : Option Dataset :=
  match l with
  | [] => none
  | ds :: _ => dictLookup Dataset.id l ds.id

/-- `SQLGenerator._build_from_clause`. -/
def build_from_clause (ctx : SQLContext) (join_path : List Edge) : String :=
  match join_path with
  | [] =>
    match firstDatasetValue ctx.datasets with
    | some ds => "FROM " ++ ds.id ++ " AS " ++ ds.aliasName.getD ds.id
    | none => "FROM dataset"
  | first_edge :: _ =>
    let start_ds_id :=
      if first_edge.reverse then first_edge.relationship.right_dataset
      else first_edge.relationship.left_dataset
    let start_alias := dsAlias ctx start_ds_id
    let from_parts := ("FROM " ++ start_ds_id ++ " AS " ++ start_alias) ::
      join_path.map (fun edge =>
        let left_ds_id := edgeLeftDs edge
        let right_ds_id := edgeRightDs edge
        let right_alias := dsAlias ctx right_ds_id
        let join_type := pyStrUpper (edge.relationship.join_type.getD "inner")
        let left_al := dsAlias ctx left_ds_id
        let jcs := buildJoinConds left_al right_alias (edgeJoinConditions edge) []
        join_type ++ " JOIN " ++ right_ds_id ++ " AS " ++ right_alias ++ " ON " ++
          String.intercalate " " jcs)
    String.intercalate "\n" from_parts

def build_where_clause (conds : List String) : String :=
  if conds = [] then "" else "WHERE " ++ String.intercalate " AND " conds

def build_group_by_clause (cols : List String) : String :=
  if cols = [] then "" else "GROUP BY " ++ String.intercalate ", " cols

def build_order_by_clause (cols : List String) : String :=
  if cols = [] then "" else "ORDER BY " ++ String.intercalate ", " cols

/-- `SQLGenerator.generate_multi_dataset_query`.  `limit` is falsy in Python
both for `None` and for `0`. -/
def generate_multi_dataset_query (ctx : SQLContext) (select_columns : List String)
    (join_path : List Edge) (where_clauses : Option (List String))
    (group_by : Option (List String)) (order_by : Option (List String))
    (limit : Option Int) : String :=
  let select_clause := build_select_clause ctx select_columns
  let from_clause := build_from_clause ctx join_path
  let where_clause := build_where_clause (where_clauses.getD [])
  let group_by_clause := build_group_by_clause (group_by.getD [])
  let order_by_clause := build_order_by_clause (order_by.getD [])
  let limit_clause :=
    match limit with
    | some n => if n = 0 then "" else "LIMIT " ++ toString n
    | none => ""
  let sql_parts := ["SELECT " ++ select_clause, from_clause, where_clause,
    group_by_clause, order_by_clause, limit_clause]
  String.intercalate "\n" (sql_parts.filter (fun part => part ≠ ""))

/-! ## Filter application (`apply_filter`) -/

/-- Python `str.replace`: replace every non-overlapping occurrence, scanning
left to right. -/
def replaceAll (pat sub : List Char) : List Char → List Char
  | [] => []
  | c :: cs =>
    if pat ≠ [] ∧ pat.isPrefixOf (c :: cs) then
      sub ++ replaceAll pat sub (cs.drop (pat.length - 1))
    else c :: replaceAll pat sub cs
termination_by l => l.length
decreasing_by
  · simp only [List.length_drop, List.length_cons]; omega
  · simp only [List.length_cons]; omega

def pyReplace (s pat sub : String) : String :=
  ⟨replaceAll pat.data sub.data s.data⟩

/-- `SQLGenerator.apply_filter`.  Parameter values are taken already rendered
by `str` (the code interpolates `str(value)` for non-string-typed
parameters). -/
def apply_filter (ctx : SQLContext) (filter_id : String)
    (params : Option (List (String × String))) : String :=
  match dictLookup FilterDef.id ctx.filters filter_id with
  | none => ""
  | some f =>
    let ps := params.getD []
    let pdefs := f.parameters.getD []
    if ps ≠ [] ∧ pdefs ≠ [] then
      pdefs.foldl
        (fun cond pd =>
          match dictLookup Prod.fst ps pd.name with
          | none => cond
          | some pv =>
            let value := pv.2
            let fv :=
              if pd.data_type.getD "string" = "string" then "'" ++ value ++ "'"
              else value
            pyReplace cond ("\x7b" ++ pd.name ++ "\x7d") fv)
        f.condition
    else f.condition

/-! ## `validate_sql` and its regular expressions

`validate_sql` upper-cases the SQL text and runs `re.search` with five
patterns.  The two interesting ones use `.*` (any run without a newline) and
a trailing negative lookahead `(?!WHERE)`.  The tiny matcher below interprets
exactly this fragment of Python regex syntax: a sequence of literal strings,
`.*` and negative lookaheads, with full backtracking (existential choice of
the `.*` split). -/

inductive RItem where
  | lit (s : String)
  | dotStar
  | negLook (s : String)
deriving Repr

/-- All suffixes reachable from the current position by consuming zero or
more non-newline characters (the semantics of `.*`). -/
def dotStarSuffixes : List Char → List (List Char)
  | [] => [[]]
  | c :: cs => (c :: cs) :: (if c = '\n' then [] else dotStarSuffixes cs)

/-- Does the item sequence match a prefix of `cs`? -/
def rmatch : List RItem → List Char → Bool
  | [], _ => true
  | .lit s :: rest, cs =>
    if s.data.isPrefixOf cs then rmatch rest (cs.drop s.data.length) else false
  | .dotStar :: rest, cs => (dotStarSuffixes cs).any (fun suf => rmatch rest suf)
  | .negLook s :: rest, cs => (!s.data.isPrefixOf cs) && rmatch rest cs

/-- `re.search`: does the pattern match starting at any position? -/
def research (r : List RItem) : List Char → Bool
  | [] => rmatch r []
  | c :: cs => rmatch r (c :: cs) || research r cs

/-- The `dangerous_patterns` list of `validate_sql`, verbatim:
`DROP TABLE`, `DROP DATABASE`, `TRUNCATE`, `DELETE FROM.*(?!WHERE)`,
`UPDATE.*SET.*(?!WHERE)`. -/
def dangerous_patterns : List (List RItem) :=
  [[.lit "DROP TABLE"],
   [.lit "DROP DATABASE"],
   [.lit "TRUNCATE"],
   [.lit "DELETE FROM", .dotStar, .negLook "WHERE"],
   [.lit "UPDATE", .dotStar, .lit "SET", .dotStar, .negLook "WHERE"]]

/-- `SQLGenerator.validate_sql`: `False` as soon as some pattern matches the
upper-cased SQL, `True` otherwise. -/
def validate_sql (sql : String) : Bool :=
  dangerous_patterns.all (fun p => !(research p (pyStrUpper sql).data))

/-- Substring containment, via the matcher. -/
def strContains (s sub : String) : Bool := research [.lit sub] s.data

/-! ## Fixtures for the SQL-generator claims -/

def ordersDs : Dataset := ⟨"orders", some "o"⟩
def customersDs : Dataset := ⟨"customers", some "c"⟩
def totalMetric : Metric := ⟨"total", "SUM(o.amount)"⟩
def ordCustRel : Relationship :=
  ⟨"oc", "orders", "customers", some "inner", [⟨"customer_id", "=", "id", none⟩]⟩
def exampleCtx : SQLContext := ⟨[ordersDs, customersDs], [totalMetric], []⟩
def ocEdge : Edge := ⟨"customers", ordCustRel, false⟩
def relC1 : Relationship := ⟨"rc", "A", "B", some "inner", [⟨"x", "=", "y", none⟩]⟩
def emptyCtx : SQLContext := ⟨[], [], []⟩

/-- **C1** (counterexample): the claim is false on the code.  `find_join_path`
from `B` to `A` over the single declared relationship `A→B` (condition
`x = y`) returns a reverse-direction edge, and that edge carries the
originating relationship's conditions exactly as declared — not with the
left/right column names swapped. -/
theorem C1_reverse_edge_counterexample :
    find_join_path [relC1] "B" "A" 5 = some [⟨"A", relC1, true⟩] ∧
    (⟨"A", relC1, true⟩ : Edge).reverse = true ∧
    (⟨"A", relC1, true⟩ : Edge).relationship.conditions = relC1.conditions ∧
    (⟨"A", relC1, true⟩ : Edge).relationship.conditions ≠
      relC1.conditions.map swapJoinCondition := by decide

/-- **C1** (amended): every edge of the built graph — reverse edges included —
carries the originating relationship unchanged; the swap happens downstream:
`_build_from_clause` itself remaps the left/right column names of a reverse
edge's conditions when it emits the `ON` clause, so the emitted condition is
normally oriented.  Concretely, the reverse edge over `A→B` with condition
`x = y` is emitted as `FROM B AS B INNER JOIN A AS A ON B.y = A.x`. -/
theorem C1_reverse_remap_done_by_sql_generator :
    (∀ (rels : List Relationship) (n : String) (e : Edge),
      e ∈ adj (build_graph rels) n → e.relationship ∈ rels) ∧
    (∀ e : Edge, e.reverse = true →
      edgeJoinConditions e = e.relationship.conditions.map swapJoinCondition) ∧
    build_from_clause emptyCtx [⟨"A", relC1, true⟩] =
      "FROM B AS B\nINNER JOIN A AS A ON B.y = A.x" := by
  refine ⟨?_, ?_, by decide⟩
  · intro rels n e h
    exact (build_graph_wf rels).rel_mem n e h
  · intro e h
    simp [edgeJoinConditions, h]

theorem C1_reverse_remap_done_by_sql_generator_witness :
    (⟨"A", relC1, true⟩ : Edge).relationship ∈ [relC1] ∧
    edgeJoinConditions ⟨"A", relC1, true⟩ =
      (⟨"A", relC1, true⟩ : Edge).relationship.conditions.map swapJoinCondition :=
  ⟨C1_reverse_remap_done_by_sql_generator.1 [relC1] "B" ⟨"A", relC1, true⟩ (by decide),
   C1_reverse_remap_done_by_sql_generator.2.1 ⟨"A", relC1, true⟩ (by decide)⟩

/-- **C6** (code bug): `validate_sql` is a total Boolean check, but the
pattern `DELETE FROM.*(?!WHERE)` matches any text containing `DELETE FROM`
(after the greedy `.*` the trailing negative lookahead always has a position
at which it succeeds), and likewise `UPDATE.*SET.*(?!WHERE)` matches any
`UPDATE … SET`.  So a `DELETE`/`UPDATE` carrying a `WHERE` clause is rejected
too, contradicting the documented "without WHERE" intent; the plain dangerous
commands are rejected and a `SELECT` passes. -/
theorem C6_validate_sql_rejects_conditioned_delete :
    validate_sql "DELETE FROM t WHERE id = 1" = false ∧
    validate_sql "UPDATE t SET x = 1 WHERE id = 2" = false ∧
    validate_sql "DELETE FROM t" = false ∧
    validate_sql "UPDATE t SET x = 1" = false ∧
    validate_sql "DROP TABLE t" = false ∧
    validate_sql "drop database d" = false ∧
    validate_sql "TRUNCATE t" = false ∧
    validate_sql "SELECT name FROM t" = true := by decide

/-- **C8**: select-list expansion replaces exactly the declared metric ids by
`«expression» AS «id»` and passes every other column through unchanged; the
concrete query over `["c.name", "total"]` with one inner join and
`GROUP BY c.name` emits `JOIN`, `GROUP BY` and the literal `SUM(o.amount)`,
and the bare metric id is not among the select columns. -/
theorem C8_metric_expansion_in_select :
    (∀ (ctx : SQLContext) (cols : List String),
      expandedColumns ctx cols = cols.map (fun col =>
        match dictLookup Metric.id ctx.metrics col with
        | some m => m.expression ++ " AS " ++ col
        | none => col)) ∧
    generate_multi_dataset_query exampleCtx ["c.name", "total"] [ocEdge] none
        (some ["c.name"]) none none =
      "SELECT c.name,\n    SUM(o.amount) AS total\nFROM orders AS o\nINNER JOIN customers AS c ON o.customer_id = c.id\nGROUP BY c.name" ∧
    expandedColumns exampleCtx ["c.name", "total"] = ["c.name", "SUM(o.amount) AS total"] ∧
    "total" ∉ expandedColumns exampleCtx ["c.name", "total"] ∧
    strContains (generate_multi_dataset_query exampleCtx ["c.name", "total"] [ocEdge] none
        (some ["c.name"]) none none) "JOIN" = true ∧
    strContains (generate_multi_dataset_query exampleCtx ["c.name", "total"] [ocEdge] none
        (some ["c.name"]) none none) "GROUP BY" = true ∧
    strContains (generate_multi_dataset_query exampleCtx ["c.name", "total"] [ocEdge] none
        (some ["c.name"]) none none) "SUM(o.amount)" = true := by
  refine ⟨?_, by decide, by decide, by decide, by decide, by decide, by decide⟩
  intro ctx cols
  induction cols with
  | nil => simp [expandedColumns]
  | cons col cols ih => simp only [expandedColumns, List.map_cons, ih]

/-- **C10**: an `apply_filter` call with a filter id that is not declared in
the context returns the empty string, for every params argument: the unknown
id is silently swallowed. -/
theorem C10_apply_filter_unknown_id_empty :
    ∀ (ctx : SQLContext) (filter_id : String) (params : Option (List (String × String))),
      filter_id ∉ ctx.filters.map FilterDef.id →
      apply_filter ctx filter_id params = "" := by
  intro ctx fid params h
  unfold apply_filter
  rw [dictLookup_eq_none_iff.mpr h]

theorem C10_apply_filter_unknown_id_empty_witness :
    apply_filter ⟨[], [], [⟨"active_only", "status = 'active'", none⟩]⟩ "unknown"
      (some [("x", "1")]) = "" :=
  C10_apply_filter_unknown_id_empty _ "unknown" _ (by decide)

/-! ## A dynamic value model for the validator (`context_validator.py`)

`ContextValidator.validate` receives `parsed_context: Dict[str, Any]` whose
values come from `yaml.safe_load` and can hold any YAML type, so the
embedding uses a dynamic value type and models the Python operations that can
raise (`len`, iteration, attribute access `.get`, subscripting, hashing,
`str.strip`, `str.join`) in `Except`.  Python `bool` is kept distinct from
`int` (the validator never compares booleans with integers), and dictionary
equality is structural (insertion order included), which only diverges from
Python for documents whose dataset identifiers are themselves dicts. -/

inductive PyVal where
  | str (s : String)
  | int (n : Int)
  | bool (b : Bool)
  | pynone
  | list (xs : List PyVal)
  | dict (xs : List (String × PyVal))

inductive PyErr where
  | typeError
  | keyError
  | attributeError
  | fuelExhausted
deriving DecidableEq, Repr

mutual
/-- Python `==` on the values above. -/
def pyEq : PyVal → PyVal → Bool
  | .str a, .str b => a = b
  | .int a, .int b => a = b
  | .bool a, .bool b => a = b
  | .pynone, .pynone => true
  | .list a, .list b => pyEqList a b
  | .dict a, .dict b => pyEqDict a b
  | _, _ => false
def pyEqList : List PyVal → List PyVal → Bool
  | [], [] => true
  | a :: as, b :: bs => pyEq a b && pyEqList as bs
  | _, _ => false
def pyEqDict : List (String × PyVal) → List (String × PyVal) → Bool
  | [], [] => true
  | (k, v) :: as, (k', v') :: bs => (k = k') && pyEq v v' && pyEqDict as bs
  | _, _ => false
end

/-- Python truthiness. -/
def pyTruthy : PyVal → Bool
  | .str s => !(s = "")
  | .int n => !(n = 0)
  | .bool b => b
  | .pynone => false
  | .list xs => !xs.isEmpty
  | .dict xs => !xs.isEmpty

/-- `len(v)`: `TypeError` for unsized values. -/
def pyLen : PyVal → Except PyErr Int
  | .str s => .ok s.length
  | .list xs => .ok xs.length
  | .dict xs => .ok xs.length
  | _ => .error .typeError

/-- Is the value usable as a `set` member / `dict` key? -/
def pyHashable : PyVal → Bool
  | .list _ => false
  | .dict _ => false
  | _ => true

/-- Iteration: lists yield elements, strings single-character strings, dicts
their keys; other values raise `TypeError`. -/
def pyIter : PyVal → Except PyErr (List PyVal)
  | .list xs => .ok xs
  | .str s => .ok (s.data.map fun c => .str ⟨[c]⟩)
  | .dict xs => .ok (xs.map fun p => .str p.1)
  | _ => .error .typeError

/-- String-keyed dictionary lookup with CPython last-binding-wins semantics
for duplicated literal keys. -/
def pyLookup : List (String × PyVal) → String → Option PyVal
  | [], _ => none
  | (k, v) :: xs, key =>
    match pyLookup xs key with
    | some w => some w
    | none => if k = key then some v else none

/-- `v.get(key)` (and `v.get(key, dflt)`): `AttributeError` unless `v` is a
dict. -/
def pyGetAttr (v : PyVal) (key : String) (dflt : PyVal) : Except PyErr PyVal :=
  match v with
  | .dict xs => .ok ((pyLookup xs key).getD dflt)
  | _ => .error .attributeError

/-- `v[key]`: `KeyError` when absent, `AttributeError`-free but `TypeError`
when `v` is not subscriptable the way the validator uses it. -/
def pySubscript (v : PyVal) (key : String) : Except PyErr PyVal :=
  match v with
  | .dict xs =>
    match pyLookup xs key with
    | some w => .ok w
    | none => .error .keyError
  | _ => .error .typeError

mutual
/-- `repr` as used inside the validator's f-strings (the messages are carried
verbatim into `ValidationResult`). -/
def pyRepr : PyVal → String
  | .str s => "'" ++ s ++ "'"
  | .int n => toString n
  | .bool b => if b then "True" else "False"
  | .pynone => "None"
  | .list xs => "[" ++ String.intercalate ", " (pyReprList xs) ++ "]"
  | .dict xs => "\x7b" ++ String.intercalate ", " (pyReprDict xs) ++ "\x7d"
def pyReprList : List PyVal → List String
  | [] => []
  | x :: xs => pyRepr x :: pyReprList xs
def pyReprDict : List (String × PyVal) → List String
  | [] => []
  | (k, v) :: xs => ("'" ++ k ++ "': " ++ pyRepr v) :: pyReprDict xs
end

/-- `str(v)` (the f-string conversion). -/
def pyStr : PyVal → String
  | .str s => s
  | v => pyRepr v

/-! ## `ValidationResult` and the schema pass -/

structure VIssue where
  code : String
  message : String
  field : Option String
  severity : String
  details : List (String × PyVal)

structure ValidationResult where
  errors : List VIssue := []
  warnings : List VIssue := []
  passed : Bool := true

/-- `ValidationResult.add_error`. -/
def addError (r : ValidationResult) (code message : String) (field : Option String)
    (details : List (String × PyVal)) : ValidationResult :=
  { r with errors := r.errors ++ [⟨code, message, field, "error", details⟩],
           passed := false }

/-- `ValidationResult.add_warning`. -/
def addWarning (r : ValidationResult) (code message : String) (field : Option String)
    (details : List (String × PyVal)) : ValidationResult :=
  { r with warnings := r.warnings ++ [⟨code, message, field, "warning", details⟩] }

/-- `parsed_context.get(k, dflt)` — the document itself is a genuine dict. -/
def docGet (doc : List (String × PyVal)) (k : String) (dflt : PyVal) : PyVal :=
  (pyLookup doc k).getD dflt

/-- `ContextValidator._validate_schema`.  Note that Python evaluates
`len(name)` twice: lazily in the `or` chain (skipped when the value is falsy)
and again inside the error message's f-string. -/
def validate_schema (doc : List (String × PyVal)) (r0 : ValidationResult) :
    Except PyErr ValidationResult := do
  let name := docGet doc "name" (.str "")
  let nameBad ←
    if pyTruthy name then do
      let l ← pyLen name
      pure (decide (l < 3) || decide (100 < l))
    else pure true
  let r1 ←
    if nameBad then do
      let l ← pyLen name
      pure (addError r0 "INVALID_NAME"
        ("Context name must be 3-100 characters, got: " ++ toString l)
        (some "name") [])
    else pure r0
  let description := docGet doc "description" (.str "")
  let descBad ←
    if pyTruthy description then do
      let l ← pyLen description
      pure (decide (l < 10))
    else pure true
  let r2 ←
    if descBad then do
      let l ← pyLen description
      pure (addError r1 "INVALID_DESCRIPTION"
        ("Description must be at least 10 characters, got: " ++ toString l)
        (some "description") [])
    else pure r1
  let context_type := docGet doc "context_type" .pynone
  if pyEq context_type (.str "single_dataset") ||
      pyEq context_type (.str "multi_dataset") then
    pure r2
  else
    pure (addError r2 "INVALID_CONTEXT_TYPE"
      ("Invalid context_type: " ++ pyStr context_type) (some "context_type") [])

/-! ## Semantic pass (`_validate_semantics`, `_validate_column_references`)

The database lookup is abstracted by a list of `(uuid-string, schema)` pairs
describing the requesting user's datasets: the `SELECT … WHERE id IN (…)
AND user_id = …` query returns exactly the requested ids among them. -/

def pvMem (s : List PyVal) (v : PyVal) : Bool := s.any fun w => pyEq w v

/-- `str.strip('{}')`. -/
def pyStripBraces (s : String) : String :=
  let isBrace := fun c => c = '\x7b' ∨ c = '\x7d'
  ⟨((s.data.dropWhile isBrace).reverse.dropWhile isBrace).reverse⟩

/-- `uuid.UUID(hex)` on a string argument: succeeds exactly on a 32-hex-digit
value after removing `urn:`, `uuid:`, braces and dashes. -/
def isValidUUIDString (s : String) : Bool :=
  let s1 := pyReplace s "urn:" ""
  let s2 := pyReplace s1 "uuid:" ""
  let s3 := pyStripBraces s2
  let s4 := pyReplace s3 "-" ""
  decide (s4.length = 32) &&
    s4.data.all (fun c => c.isDigit || ('a' ≤ c && c ≤ 'f') || ('A' ≤ c && c ≤ 'F'))

/-- First `for ds_def in datasets` loop: collect parseable UUID strings,
report missing or invalid ids.  `uuid.UUID` applied to a truthy non-string
raises `AttributeError`, which the `except (ValueError, TypeError)` clause
does not catch. -/
def semanticsLoop1 : List PyVal → List String → ValidationResult →
    Except PyErr (List String × ValidationResult)
  | [], ids, r => .ok (ids, r)
  | ds :: rest, ids, r => do
    let idv ← pyGetAttr ds "dataset_id" .pynone
    if !pyTruthy idv then do
      let dsid ← pyGetAttr ds "id" .pynone
      semanticsLoop1 rest ids (addError r "MISSING_DATASET_ID"
        ("Dataset '" ++ pyStr dsid ++ "' missing dataset_id") (some "datasets") [])
    else
      match idv with
      | .str s =>
        if isValidUUIDString s then semanticsLoop1 rest (ids ++ [s]) r
        else do
          let dsid ← pyGetAttr ds "id" .pynone
          semanticsLoop1 rest ids (addError r "INVALID_DATASET_ID"
            ("Invalid UUID for dataset '" ++ pyStr dsid ++ "': " ++ s)
            (some "datasets") [])
      | _ => .error .attributeError

/-- Second loop: flag dataset references the database does not resolve.
Membership in the `existing_ids` set hashes the queried value first. -/
def semanticsLoop2 : List PyVal → List String → ValidationResult →
    Except PyErr ValidationResult
  | [], _, r => .ok r
  | ds :: rest, existing, r => do
    let idv ← pyGetAttr ds "dataset_id" .pynone
    if !pyHashable idv then .error .typeError
    else if existing.any (fun e => pyEq idv (.str e)) then
      semanticsLoop2 rest existing r
    else do
      let nm ← pyGetAttr ds "name" .pynone
      semanticsLoop2 rest existing (addError r "DATASET_NOT_FOUND"
        ("Dataset '" ++ pyStr nm ++ "' with ID " ++ pyStr idv ++
          " not found or not owned by user")
        (some "datasets") [("dataset_id", idv)])

/-- `{ds["id"]: ds["dataset_id"] for ds in datasets}` — direct subscripts
(`KeyError` when absent) and dictionary keys must be hashable. -/
def buildIdMap : List PyVal → List (PyVal × PyVal) →
    Except PyErr (List (PyVal × PyVal))
  | [], m => .ok m
  | ds :: rest, m => do
    let k ← pySubscript ds "id"
    if !pyHashable k then .error .typeError
    else do
      let v ← pySubscript ds "dataset_id"
      buildIdMap rest (m ++ [(k, v)])

def pvLookup : List (PyVal × PyVal) → PyVal → Option PyVal
  | [], _ => none
  | (k, v) :: xs, key =>
    match pvLookup xs key with
    | some w => some w
    | none => if pyEq k key then some v else none

/-- `dataset_schemas.get(real_id, {})` — hashes the query. -/
def schemasGet (schemas : List (String × PyVal)) (k : PyVal) :
    Except PyErr PyVal :=
  if !pyHashable k then .error .typeError
  else
    .ok ((schemas.foldl
      (fun acc p => if pyEq k (.str p.1) then some p.2 else acc) none).getD (.dict []))

/-- `[c["name"] for c in schema.get("columns", [])]`. -/
def schemaColumns (schema : PyVal) : Except PyErr (List PyVal) := do
  let colsv ← pyGetAttr schema "columns" (.list [])
  let cols ← pyIter colsv
  cols.mapM fun c => pySubscript c "name"

/-- One side of the per-condition column check. -/
def checkColumnSide (r : ValidationResult) (relId dsId schema col : PyVal) :
    Except PyErr ValidationResult := do
  if pyTruthy schema && pyTruthy col then do
    let names ← schemaColumns schema
    if names.any (fun n => pyEq col n) then pure r
    else
      pure (addError r "COLUMN_NOT_FOUND"
        ("Column '" ++ pyStr col ++ "' not found in dataset '" ++ pyStr dsId ++ "'")
        (some "relationships")
        [("relationship", relId), ("dataset", dsId), ("column", col)])
  else pure r

def condLoop (relId leftDsId rightDsId leftSchema rightSchema : PyVal) :
    List PyVal → ValidationResult → Except PyErr ValidationResult
  | [], r => .ok r
  | c :: rest, r => do
    let lc ← pyGetAttr c "left_column" .pynone
    let rc ← pyGetAttr c "right_column" .pynone
    let r ← checkColumnSide r relId leftDsId leftSchema lc
    let r ← checkColumnSide r relId rightDsId rightSchema rc
    condLoop relId leftDsId rightDsId leftSchema rightSchema rest r

def colRefLoop (idMap : List (PyVal × PyVal)) (schemas : List (String × PyVal)) :
    List PyVal → ValidationResult → Except PyErr ValidationResult
  | [], r => .ok r
  | rel :: rest, r => do
    let l ← pyGetAttr rel "left_dataset" .pynone
    let rgt ← pyGetAttr rel "right_dataset" .pynone
    if !pyHashable l then .error .typeError
    else if (pvLookup idMap l).isNone then do
      let rid ← pyGetAttr rel "id" .pynone
      colRefLoop idMap schemas rest (addError r "UNKNOWN_DATASET_IN_RELATIONSHIP"
        ("Relationship '" ++ pyStr rid ++ "' references unknown dataset: " ++ pyStr l)
        (some "relationships") [])
    else if !pyHashable rgt then .error .typeError
    else if (pvLookup idMap rgt).isNone then do
      let rid ← pyGetAttr rel "id" .pynone
      colRefLoop idMap schemas rest (addError r "UNKNOWN_DATASET_IN_RELATIONSHIP"
        ("Relationship '" ++ pyStr rid ++ "' references unknown dataset: " ++ pyStr rgt)
        (some "relationships") [])
    else do
      let lreal := (pvLookup idMap l).getD .pynone
      let rreal := (pvLookup idMap rgt).getD .pynone
      let lschema ← schemasGet schemas lreal
      let rschema ← schemasGet schemas rreal
      let condsv ← pyGetAttr rel "conditions" (.list [])
      let conds ← pyIter condsv
      let rid ← pyGetAttr rel "id" .pynone
      let r ← condLoop rid l rgt lschema rschema conds r
      colRefLoop idMap schemas rest r

/-- `_validate_semantics` followed by `_validate_column_references`. -/
def validate_semantics (db : List (String × PyVal)) (doc : List (String × PyVal))
    (r : ValidationResult) : Except PyErr ValidationResult := do
  let datasetsv := docGet doc "datasets" (.list [])
  let datasets ← pyIter datasetsv
  let (ids, r) ← semanticsLoop1 datasets [] r
  let r ←
    if !ids.isEmpty then
      semanticsLoop2 datasets ((db.filter (fun p => p.1 ∈ ids)).map Prod.fst) r
    else pure r
  let schemas := if ids.isEmpty then [] else db.filter (fun p => p.1 ∈ ids)
  let relsv := docGet doc "relationships" (.list [])
  if !pyTruthy relsv then pure r
  else do
    let rels ← pyIter relsv
    let idMap ← buildIdMap datasets []
    colRefLoop idMap schemas rels r

/-! ## Graph pass (`_validate_relationships`) -/

def joinTypeLoop : List PyVal → ValidationResult → Except PyErr ValidationResult
  | [], r => .ok r
  | rel :: rest, r => do
    let jt ← pyGetAttr rel "join_type" .pynone
    if ["inner", "left", "right", "outer"].any (fun s => pyEq jt (.str s)) then
      joinTypeLoop rest r
    else do
      let rid ← pyGetAttr rel "id" .pynone
      joinTypeLoop rest (addError r "INVALID_JOIN_TYPE"
        ("Invalid join_type in relationship '" ++ pyStr rid ++ "': " ++ pyStr jt)
        (some "relationships") [])

/-- `set.add`. -/
def pvSetAdd (s : List PyVal) (v : PyVal) : List PyVal :=
  if pvMem s v then s else s ++ [v]

/-- `set.remove` (the element is present whenever the code calls it). -/
def pvSetRemove (s : List PyVal) (v : PyVal) : List PyVal :=
  s.filter fun w => !pyEq w v

/-- `if left not in graph: graph[left] = set()` then `graph[left].add(right)`. -/
def cycleGraphAdd (g : List (PyVal × List PyVal)) (l r : PyVal) :
    List (PyVal × List PyVal) :=
  if g.any (fun p => pyEq p.1 l) then
    g.map fun p => if pyEq p.1 l then (p.1, pvSetAdd p.2 r) else p
  else g ++ [(l, [r])]

def buildCycleGraph : List PyVal → List (PyVal × List PyVal) →
    Except PyErr (List (PyVal × List PyVal))
  | [], g => .ok g
  | rel :: rest, g => do
    let l ← pyGetAttr rel "left_dataset" .pynone
    let r ← pyGetAttr rel "right_dataset" .pynone
    if !pyHashable l then .error .typeError
    else if !pyHashable r then .error .typeError
    else buildCycleGraph rest (cycleGraphAdd g l r)

def cgLookup (g : List (PyVal × List PyVal)) (n : PyVal) : List PyVal :=
  match g with
  | [] => []
  | (k, v) :: rest => if pyEq k n then v else cgLookup rest n

mutual
/-- The recursive `has_cycle(node, visited, rec_stack)`, with fuel bounding
the recursion depth (shown sufficient below).  The mutated `visited` and
`rec_stack` sets are threaded through and returned. -/
def hasCycle (g : List (PyVal × List PyVal)) :
    Nat → PyVal → List PyVal → List PyVal →
    Except PyErr (Option (List PyVal) × List PyVal × List PyVal)
  | 0, _, _, _ => .error .fuelExhausted
  | fuel + 1, node, visited, recStack =>
    hasCycleNbrs g fuel node (cgLookup g node) (pvSetAdd visited node)
      (pvSetAdd recStack node)
termination_by fuel _n _v _r => (fuel, 0)

/-- The `for neighbor in graph.get(node, [])` loop inside `has_cycle`. -/
def hasCycleNbrs (g : List (PyVal × List PyVal)) :
    Nat → PyVal → List PyVal → List PyVal → List PyVal →
    Except PyErr (Option (List PyVal) × List PyVal × List PyVal)
  | _, node, [], visited, recStack => .ok (none, visited, pvSetRemove recStack node)
  | fuel, node, nb :: nbs, visited, recStack =>
    if !pvMem visited nb then
      match hasCycle g fuel nb visited recStack with
      | .error e => .error e
      | .ok (some c, visited', recStack') => .ok (some (node :: c), visited', recStack')
      | .ok (none, visited', recStack') => hasCycleNbrs g fuel node nbs visited' recStack'
    else if pvMem recStack nb then .ok (some [node, nb], visited, recStack)
    else hasCycleNbrs g fuel node nbs visited recStack
termination_by fuel _n nbs _v _r => (fuel, nbs.length + 1)
end

/-- Fuel for `has_cycle`: the recursion depth is bounded by the number of
distinct nodes ever added to `visited`, which come from the keys and the
adjacency sets. -/
def cycleFuel (g : List (PyVal × List PyVal)) : Nat :=
  1 + g.length + (g.map fun p => p.2.length).sum

/-- The `for node in graph:` driver with its first-cycle `break`. -/
def detectCycleLoop (g : List (PyVal × List PyVal)) :
    List (PyVal × List PyVal) → List PyVal → ValidationResult →
    Except PyErr ValidationResult
  | [], _, r => .ok r
  | (node, _) :: rest, visited, r =>
    if pvMem visited node then detectCycleLoop g rest visited r
    else
      match hasCycle g (cycleFuel g) node visited [] with
      | .error e => .error e
      | .ok (some c, _, _) =>
        match c.mapM (fun v => match v with
          | .str s => some s
          | _ => none) with
        | some strs =>
          .ok (addError r "CIRCULAR_DEPENDENCY"
            ("Circular dependency detected in relationships: " ++
              String.intercalate " â†’ " strs)
            (some "relationships") [("cycle", .list c)])
        | none => .error .typeError
      | .ok (none, visited', _) => detectCycleLoop g rest visited' r

def dupLoop : List PyVal → List (PyVal × PyVal) → ValidationResult →
    Except PyErr ValidationResult
  | [], _, r => .ok r
  | rel :: rest, seen, r => do
    let l ← pyGetAttr rel "left_dataset" .pynone
    let rgt ← pyGetAttr rel "right_dataset" .pynone
    if !(pyHashable l && pyHashable rgt) then .error .typeError
    else if seen.any (fun p => pyEq p.1 l && pyEq p.2 rgt) then
      dupLoop rest (seen ++ [(l, rgt)]) (addWarning r "DUPLICATE_RELATIONSHIP"
        ("Duplicate relationship between '" ++ pyStr l ++ "' and '" ++ pyStr rgt ++ "'")
        (some "relationships") [("left", l), ("right", rgt)])
    else dupLoop rest (seen ++ [(l, rgt)]) r

/-- `ContextValidator._validate_relationships`. -/
def validate_relationships (doc : List (String × PyVal)) (r : ValidationResult) :
    Except PyErr ValidationResult := do
  let relsv := docGet doc "relationships" (.list [])
  if !pyTruthy relsv then
    pure (addWarning r "NO_RELATIONSHIPS"
      "Multi-dataset context has no relationships defined" (some "relationships") [])
  else do
    let rels ← pyIter relsv
    let r ← joinTypeLoop rels r
    let g ← buildCycleGraph rels []
    let r ← detectCycleLoop g g [] r
    dupLoop rels [] r

/-! ## Rule pass (`_validate_business_rules`) and `validate` -/

def trimWs (s : String) : String :=
  ⟨((s.data.dropWhile Char.isWhitespace).reverse.dropWhile Char.isWhitespace).reverse⟩

/-- `v.strip()`: strings only. -/
def pyStrip (v : PyVal) : Except PyErr PyVal :=
  match v with
  | .str s => .ok (.str (trimWs s))
  | _ => .error .attributeError

def rulesLoop : List PyVal → ValidationResult → Except PyErr ValidationResult
  | [], r => .ok r
  | rule :: rest, r => do
    let sev ← pyGetAttr rule "severity" .pynone
    let r ←
      if ["error", "warning", "info"].any (fun s => pyEq sev (.str s)) then pure r
      else do
        let rid ← pyGetAttr rule "id" .pynone
        pure (addError r "INVALID_SEVERITY"
          ("Invalid severity in rule '" ++ pyStr rid ++ "': " ++ pyStr sev)
          (some "business_rules") [])
    let rt ← pyGetAttr rule "rule_type" .pynone
    let r ←
      if ["validation", "quality", "constraint"].any (fun s => pyEq rt (.str s)) then pure r
      else do
        let rid ← pyGetAttr rule "id" .pynone
        pure (addError r "INVALID_RULE_TYPE"
          ("Invalid rule_type in rule '" ++ pyStr rid ++ "': " ++ pyStr rt)
          (some "business_rules") [])
    let condv ← pyGetAttr rule "condition" (.str "")
    let cond ← pyStrip condv
    let r ←
      if !pyTruthy cond then do
        let rid ← pyGetAttr rule "id" .pynone
        pure (addError r "EMPTY_RULE_CONDITION"
          ("Rule '" ++ pyStr rid ++ "' has empty condition") (some "business_rules") [])
      else pure r
    rulesLoop rest r

def validate_business_rules (doc : List (String × PyVal)) (r : ValidationResult) :
    Except PyErr ValidationResult := do
  let rulesv := docGet doc "business_rules" (.list [])
  if !pyTruthy rulesv then pure r
  else do
    let rules ← pyIter rulesv
    rulesLoop rules r

/-- `ContextValidator.validate`: the four passes in order, the graph pass only
for multi-dataset contexts. -/
def validate (db : List (String × PyVal)) (doc : List (String × PyVal)) :
    Except PyErr ValidationResult := do
  let r : ValidationResult := {}
  let r ← validate_schema doc r
  let r ← validate_semantics db doc r
  let r ←
    if pyEq (docGet doc "context_type" .pynone) (.str "multi_dataset") then
      validate_relationships doc r
    else pure r
  validate_business_rules doc r

/-! ### C4: cycle detection fixtures (relationships a→b, b→c, c→a) -/

def relA : PyVal := .dict [("id", .str "r1"), ("left_dataset", .str "a"),
  ("right_dataset", .str "b"), ("join_type", .str "inner")]
def relB : PyVal := .dict [("id", .str "r2"), ("left_dataset", .str "b"),
  ("right_dataset", .str "c"), ("join_type", .str "inner")]
def relC : PyVal := .dict [("id", .str "r3"), ("left_dataset", .str "c"),
  ("right_dataset", .str "a"), ("join_type", .str "inner")]

def docC4 : List (String × PyVal) :=
  [("name", .str "Cycle Context"),
   ("description", .str "A context with a cycle."),
   ("context_type", .str "multi_dataset"),
   ("datasets", .list []),
   ("relationships", .list [relA, relB, relC])]

def gC4 : List (PyVal × List PyVal) :=
  [(.str "a", [.str "b"]), (.str "b", [.str "c"]), (.str "c", [.str "a"])]

theorem hcC4 : hasCycle gC4 7 (.str "a") [] [] =
    .ok (some [.str "a", .str "b", .str "c", .str "a"],
         [.str "a", .str "b", .str "c"], [.str "a", .str "b", .str "c"]) := by
  simp [hasCycle, hasCycleNbrs, gC4, cgLookup, pvMem, pvSetAdd, pvSetRemove, pyEq]

/-- C4: validating the multi-dataset document whose relationships form the
directed cycle a→b, b→c, c→a produces exactly one CIRCULAR_DEPENDENCY error,
and the cycle node sequence attached to that error contains all three
datasets a, b and c. -/
theorem C4_cycle_detection_single_error :
    ∃ cyc : List PyVal,
      ((validate [] docC4).toOption.map fun r =>
          (r.errors.filter fun e => e.code = "CIRCULAR_DEPENDENCY").map
            fun e => pyLookup e.details "cycle") =
        some [some (.list cyc)] ∧
      PyVal.str "a" ∈ cyc ∧ PyVal.str "b" ∈ cyc ∧ PyVal.str "c" ∈ cyc := by
  refine ⟨[.str "a", .str "b", .str "c", .str "a"], ?_, by simp, by simp, by simp⟩
  have hg : buildCycleGraph
      [PyVal.dict [("id", PyVal.str "r1"), ("left_dataset", PyVal.str "a"),
        ("right_dataset", PyVal.str "b"), ("join_type", PyVal.str "inner")],
       PyVal.dict [("id", PyVal.str "r2"), ("left_dataset", PyVal.str "b"),
        ("right_dataset", PyVal.str "c"), ("join_type", PyVal.str "inner")],
       PyVal.dict [("id", PyVal.str "r3"), ("left_dataset", PyVal.str "c"),
        ("right_dataset", PyVal.str "a"), ("join_type", PyVal.str "inner")]] [] = .ok gC4 := by
    rfl
  have hlen1 : "Cycle Context".length = 13 := by rfl
  have hlen2 : "A context with a cycle.".length = 23 := by rfl
  have hfuel : 1 + gC4.length + (List.map (fun p => p.2.length) gC4).sum = 7 := by rfl
  set_option maxHeartbeats 4000000 in
  simp [validate, validate_schema, validate_semantics, validate_relationships,
    validate_business_rules, docGet, pyLookup, pyGetAttr, pyIter, pyTruthy, pyLen,
    pyEq, pyEqList, pyEqDict, pyStr, pyRepr, addError, addWarning, semanticsLoop1,
    semanticsLoop2, buildIdMap, colRefLoop, pvLookup, schemasGet, schemaColumns,
    checkColumnSide, condLoop, joinTypeLoop, hg, cycleGraphAdd,
    pvSetAdd, pvSetRemove, pvMem, hcC4, cgLookup, cycleFuel,
    detectCycleLoop, dupLoop, rulesLoop, pyStrip, trimWs, pyHashable, pySubscript,
    docC4, relA, relB, relC, Except.toOption, Except.map, bind, Except.bind, pure,
    Except.pure, hlen1, hlen2, hfuel, List.mapM, List.mapM.loop]

/-! ### C7: well-typedness predicates under which the validator cannot raise -/

/-- Datasets the validator can process without raising: a dict with a hashable
`id` and a `dataset_id` that is a string or `None`. -/
def wellTypedDataset : PyVal → Bool
  | .dict xs =>
    (pyLookup xs "id").isSome && pyHashable ((pyLookup xs "id").getD .pynone) &&
    (match pyLookup xs "dataset_id" with
     | some (.str _) => true
     | some .pynone => true
     | _ => false)
  | _ => false

/-- Relationships the validator can process without raising: a dict whose
`left_dataset`/`right_dataset` are strings and whose `conditions`, when
present, is a list of dicts. -/
def wellTypedRel : PyVal → Bool
  | .dict xs =>
    (match pyLookup xs "left_dataset" with | some (.str _) => true | _ => false) &&
    (match pyLookup xs "right_dataset" with | some (.str _) => true | _ => false) &&
    (match pyLookup xs "conditions" with
     | none => true
     | some (.list cs) => cs.all fun c => match c with | .dict _ => true | _ => false
     | _ => false)
  | _ => false

/-- Business rules the validator can process without raising: a dict whose
`condition`, when present, is a string. -/
def wellTypedRule : PyVal → Bool
  | .dict xs =>
    (match pyLookup xs "condition" with
     | none => true
     | some (.str _) => true
     | _ => false)
  | _ => false

/-- Documents whose field values have the types the validator's own accesses
assume; every otherwise malformed value (bad UUIDs, unknown datasets, cycles,
bad join types, empty conditions, out-of-range lengths…) is still allowed. -/
def wellTypedDoc (doc : List (String × PyVal)) : Bool :=
  (match docGet doc "name" (.str "") with | .str _ => true | _ => false) &&
  (match docGet doc "description" (.str "") with | .str _ => true | _ => false) &&
  (match docGet doc "datasets" (.list []) with
   | .list ds => ds.all wellTypedDataset
   | _ => false) &&
  (match docGet doc "relationships" (.list []) with
   | .list rels => rels.all wellTypedRel
   | _ => false) &&
  (match docGet doc "business_rules" (.list []) with
   | .list rules => rules.all wellTypedRule
   | _ => false)

/-- A dataset schema as `_validate_column_references` reads it: a dict whose
`columns`, when present, is a list of dicts carrying a `name` key. -/
def wellTypedSchema : PyVal → Bool
  | .dict xs =>
    (match pyLookup xs "columns" with
     | none => true
     | some (.list cs) => cs.all fun c =>
         match c with
         | .dict ys => (pyLookup ys "name").isSome
         | _ => false
     | _ => false)
  | _ => false

/-- Database rows whose schema part has the shape the validator reads. -/
def wellTypedDb (db : List (String × PyVal)) : Bool :=
  db.all fun p => wellTypedSchema p.2

mutual
theorem pyEq_refl : ∀ v, pyEq v v = true
  | .str _ => by simp [pyEq]
  | .int _ => by simp [pyEq]
  | .bool _ => by simp [pyEq]
  | .pynone => by simp [pyEq]
  | .list xs => by simp [pyEq, pyEqList_refl xs]
  | .dict xs => by simp [pyEq, pyEqDict_refl xs]
theorem pyEqList_refl : ∀ xs, pyEqList xs xs = true
  | [] => by simp [pyEqList]
  | x :: xs => by simp [pyEqList, pyEq_refl x, pyEqList_refl xs]
theorem pyEqDict_refl : ∀ xs, pyEqDict xs xs = true
  | [] => by simp [pyEqDict]
  | (k, v) :: xs => by simp [pyEqDict, pyEq_refl v, pyEqDict_refl xs]
end

theorem pvMem_append (s t : List PyVal) (w : PyVal) :
    pvMem (s ++ t) w = (pvMem s w || pvMem t w) := by
  unfold pvMem
  exact List.any_append

theorem pvMem_setAdd_self (s : List PyVal) (v : PyVal) :
    pvMem (pvSetAdd s v) v = true := by
  unfold pvSetAdd
  by_cases h : pvMem s v = true
  · rw [if_pos h]; exact h
  · rw [if_neg h, pvMem_append]
    have : pvMem [v] v = true := by
      unfold pvMem
      rw [List.any_cons, List.any_nil, pyEq_refl]
      rfl
    rw [this, Bool.or_true]

theorem pvMem_setAdd_of_mem (s : List PyVal) (v w : PyVal)
    (h : pvMem s w = true) : pvMem (pvSetAdd s v) w = true := by
  unfold pvSetAdd
  by_cases hv : pvMem s v = true
  · rw [if_pos hv]; exact h
  · rw [if_neg hv, pvMem_append, h, Bool.true_or]

/-- All values the cycle search can ever visit: the graph's keys and every
member of an adjacency set. -/
def cycleUniverse (g : List (PyVal × List PyVal)) : List PyVal :=
  g.map Prod.fst ++ (g.map fun p => p.2).flatten

/-- Nodes of the universe not yet marked visited; the recursion measure. -/
def remainingCount (g : List (PyVal × List PyVal)) (visited : List PyVal) : Nat :=
  ((cycleUniverse g).filter fun u => !pvMem visited u).length

theorem filter_length_le_of_imp (U : List PyVal) (p q : PyVal → Bool)
    (himp : ∀ u, q u = true → p u = true) :
    (U.filter q).length ≤ (U.filter p).length := by
  induction U with
  | nil => simp
  | cons x xs ih =>
    by_cases hq : q x = true
    · rw [List.filter_cons_of_pos hq, List.filter_cons_of_pos (himp x hq)]
      simpa using ih
    · rw [List.filter_cons_of_neg (by simpa using hq)]
      by_cases hp : p x = true
      · rw [List.filter_cons_of_pos hp]
        exact Nat.le_succ_of_le ih
      · rw [List.filter_cons_of_neg (by simpa using hp)]
        exact ih

theorem filter_length_lt_of_imp (U : List PyVal) (p q : PyVal → Bool)
    (himp : ∀ u, q u = true → p u = true)
    (v : PyVal) (hv : v ∈ U) (hp : p v = true) (hq : q v = false) :
    (U.filter q).length < (U.filter p).length := by
  induction U with
  | nil => cases hv
  | cons x xs ih =>
    rcases List.mem_cons.mp hv with h | h
    · subst h
      rw [List.filter_cons_of_pos hp, List.filter_cons_of_neg (by simp [hq])]
      exact Nat.lt_succ_of_le (filter_length_le_of_imp xs p q himp)
    · by_cases hqx : q x = true
      · rw [List.filter_cons_of_pos hqx, List.filter_cons_of_pos (himp x hqx)]
        simpa using ih h
      · rw [List.filter_cons_of_neg (by simpa using hqx)]
        by_cases hpx : p x = true
        · rw [List.filter_cons_of_pos hpx]
          exact Nat.lt_succ_of_lt (ih h)
        · rw [List.filter_cons_of_neg (by simpa using hpx)]
          exact ih h

theorem remainingCount_lt (g : List (PyVal × List PyVal)) (visited : List PyVal)
    (v : PyVal) (hv : v ∈ cycleUniverse g) (hnm : pvMem visited v = false) :
    remainingCount g (pvSetAdd visited v) < remainingCount g visited := by
  refine filter_length_lt_of_imp _ _ _ ?_ v hv ?_ ?_
  · intro u hu
    by_cases h : pvMem visited u = true
    · have := pvMem_setAdd_of_mem visited v u h
      simp [this] at hu
    · simpa using h
  · simpa using hnm
  · simp [pvMem_setAdd_self]

theorem remainingCount_le_of_subset (g : List (PyVal × List PyVal))
    (s t : List PyVal) (h : ∀ w, pvMem s w = true → pvMem t w = true) :
    remainingCount g t ≤ remainingCount g s := by
  apply filter_length_le_of_imp
  intro u hu
  by_cases hs : pvMem s u = true
  · have := h u hs
    simp [this] at hu
  · simpa using hs

theorem cgLookup_subset (g : List (PyVal × List PyVal)) (n : PyVal) :
    ∀ x ∈ cgLookup g n, x ∈ cycleUniverse g := by
  induction g with
  | nil => intro x hx; simp [cgLookup] at hx
  | cons p rest ih =>
    intro x hx
    unfold cgLookup at hx
    unfold cycleUniverse
    by_cases h : pyEq p.1 n = true
    · rw [if_pos h] at hx
      refine List.mem_append.mpr (Or.inr ?_)
      rw [List.map_cons, List.flatten_cons]
      exact List.mem_append.mpr (Or.inl hx)
    · rw [if_neg h] at hx
      rcases List.mem_append.mp (ih x hx) with hm | hm
      · refine List.mem_append.mpr (Or.inl ?_)
        rw [List.map_cons]
        exact List.mem_cons_of_mem _ hm
      · refine List.mem_append.mpr (Or.inr ?_)
        rw [List.map_cons, List.flatten_cons]
        exact List.mem_append.mpr (Or.inr hm)

theorem remainingCount_lt_of_mem (g : List (PyVal × List PyVal))
    (s t : List PyVal) (v : PyVal)
    (hsub : ∀ w, pvMem s w = true → pvMem t w = true)
    (hv : v ∈ cycleUniverse g) (hvs : pvMem s v = false) (hvt : pvMem t v = true) :
    remainingCount g t < remainingCount g s := by
  refine filter_length_lt_of_imp _ _ _ ?_ v hv ?_ ?_
  · intro u hu
    by_cases h : pvMem s u = true
    · have := hsub u h
      simp [this] at hu
    · simpa using h
  · simpa using hvs
  · simp [hvt]

/-- The cycle search always terminates within the fuel bound: whenever the
remaining-universe count is below the fuel, both `hasCycle` and its neighbour
loop return `.ok`, only grow `visited`, and report cycles whose nodes all lie
in the universe. -/
theorem hasCycle_total (g : List (PyVal × List PyVal)) : ∀ fuel : Nat,
    (∀ node visited recStack, node ∈ cycleUniverse g → pvMem visited node = false →
      remainingCount g visited < fuel →
      ∃ out vis rs, hasCycle g fuel node visited recStack = .ok (out, vis, rs) ∧
        (∀ w, pvMem visited w = true → pvMem vis w = true) ∧
        pvMem vis node = true ∧
        (∀ c, out = some c → ∀ x ∈ c, x ∈ cycleUniverse g)) ∧
    (∀ node nbs visited recStack, node ∈ cycleUniverse g →
      (∀ x ∈ nbs, x ∈ cycleUniverse g) →
      remainingCount g visited < fuel →
      ∃ out vis rs, hasCycleNbrs g fuel node nbs visited recStack = .ok (out, vis, rs) ∧
        (∀ w, pvMem visited w = true → pvMem vis w = true) ∧
        (∀ c, out = some c → ∀ x ∈ c, x ∈ cycleUniverse g)) := by
  intro fuel
  induction fuel with
  | zero =>
    constructor
    · intro _ _ _ _ _ hlt; omega
    · intro _ _ _ _ _ _ hlt; omega
  | succ F ih =>
    have e1 : ∀ node visited recStack, node ∈ cycleUniverse g →
        pvMem visited node = false → remainingCount g visited < F + 1 →
        ∃ out vis rs, hasCycle g (F + 1) node visited recStack = .ok (out, vis, rs) ∧
          (∀ w, pvMem visited w = true → pvMem vis w = true) ∧
          pvMem vis node = true ∧
          (∀ c, out = some c → ∀ x ∈ c, x ∈ cycleUniverse g) := by
      intro node visited recStack hU hnv hlt
      have hlt1 : remainingCount g (pvSetAdd visited node) < F :=
        Nat.lt_of_lt_of_le (remainingCount_lt g visited node hU hnv) (by omega)
      obtain ⟨out, vis, rs, heq, hmono, hcyc⟩ :=
        ih.2 node (cgLookup g node) (pvSetAdd visited node) (pvSetAdd recStack node)
          hU (cgLookup_subset g node) hlt1
      refine ⟨out, vis, rs, ?_, ?_, ?_, hcyc⟩
      · simp only [hasCycle]
        exact heq
      · intro w hw
        exact hmono w (pvMem_setAdd_of_mem _ _ _ hw)
      · exact hmono node (pvMem_setAdd_self _ _)
    refine ⟨e1, ?_⟩
    intro node nbs
    induction nbs with
    | nil =>
      intro visited recStack hU _ _
      exact ⟨none, visited, pvSetRemove recStack node, by simp only [hasCycleNbrs],
        fun w hw => hw, by intro c hc; cases hc⟩
    | cons nb nbs' ihn =>
      intro visited recStack hU hnbs hlt
      have hnbU : nb ∈ cycleUniverse g := hnbs nb (List.mem_cons_self _ _)
      by_cases hnv : pvMem visited nb = true
      · by_cases hrs : pvMem recStack nb = true
        · refine ⟨some [node, nb], visited, recStack, ?_, fun w hw => hw, ?_⟩
          · simp only [hasCycleNbrs, hnv, hrs]
            rfl
          · intro c hc x hx
            obtain rfl := Option.some.inj hc
            simp only [List.mem_cons, List.not_mem_nil, or_false] at hx
            rcases hx with rfl | rfl
            · exact hU
            · exact hnbU
        · obtain ⟨out, vis, rs, heq, hmono, hcyc⟩ :=
            ihn visited recStack hU (fun x hx => hnbs x (List.mem_cons_of_mem _ hx)) hlt
          refine ⟨out, vis, rs, ?_, hmono, hcyc⟩
          simp only [hasCycleNbrs, hnv, hrs]
          simpa using heq
      · have hnv' : pvMem visited nb = false := by simpa using hnv
        obtain ⟨out1, vis1, rs1, heq1, hmono1, hself1, hcyc1⟩ :=
          e1 nb visited recStack hnbU hnv' hlt
        cases out1 with
        | some c =>
          refine ⟨some (node :: c), vis1, rs1, ?_, hmono1, ?_⟩
          · simp [hasCycleNbrs, hnv', heq1]
          · intro c' hc' x hx
            obtain rfl := Option.some.inj hc'
            rcases List.mem_cons.mp hx with hx | hx
            · subst hx
              exact hU
            · exact hcyc1 c rfl x hx
        | none =>
          have hlt2 : remainingCount g vis1 < F + 1 := by
            have := remainingCount_lt_of_mem g visited vis1 nb hmono1 hnbU hnv' hself1
            omega
          obtain ⟨out, vis, rs, heq, hmono, hcyc⟩ :=
            ihn vis1 rs1 hU (fun x hx => hnbs x (List.mem_cons_of_mem _ hx)) hlt2
          refine ⟨out, vis, rs, ?_, fun w hw => hmono w (hmono1 w hw), hcyc⟩
          rw [show hasCycleNbrs g (F + 1) node (nb :: nbs') visited recStack =
              hasCycleNbrs g (F + 1) node nbs' vis1 rs1 from ?_]
          · exact heq
          · simp [hasCycleNbrs, hnv', heq1]

theorem remainingCount_lt_cycleFuel (g : List (PyVal × List PyVal))
    (visited : List PyVal) : remainingCount g visited < cycleFuel g := by
  unfold remainingCount cycleFuel
  have h1 : ((cycleUniverse g).filter fun u => !pvMem visited u).length ≤
      (cycleUniverse g).length := List.length_filter_le _ _
  have h2 : (cycleUniverse g).length =
      g.length + (g.map fun p => p.2.length).sum := by
    unfold cycleUniverse
    rw [List.length_append, List.length_map, List.length_flatten, List.map_map]
    rfl
  omega

theorem key_mem_cycleUniverse (g : List (PyVal × List PyVal))
    (p : PyVal × List PyVal) (hp : p ∈ g) : p.1 ∈ cycleUniverse g := by
  unfold cycleUniverse
  exact List.mem_append.mpr (Or.inl (List.mem_map.mpr ⟨p, hp, rfl⟩))

theorem strMapM_loop : ∀ (c : List PyVal) (acc : List String),
    (∀ x ∈ c, ∃ s, x = PyVal.str s) →
    ∃ strs, List.mapM.loop (fun v => match v with
      | PyVal.str s => some s
      | _ => none) c acc = some strs := by
  intro c
  induction c with
  | nil => intro acc _; exact ⟨acc.reverse, rfl⟩
  | cons x xs ih =>
    intro acc h
    obtain ⟨s, rfl⟩ := h x (List.mem_cons_self _ _)
    obtain ⟨strs, hstrs⟩ := ih (s :: acc) fun y hy => h y (List.mem_cons_of_mem _ hy)
    exact ⟨strs, hstrs⟩

theorem strMapM_isSome (c : List PyVal)
    (h : ∀ x ∈ c, ∃ s, x = PyVal.str s) :
    ∃ strs, (c.mapM fun v => match v with
      | PyVal.str s => some s
      | _ => none) = some strs :=
  strMapM_loop c [] h

theorem detectCycleLoop_ok (g : List (PyVal × List PyVal))
    (hstr : ∀ x ∈ cycleUniverse g, ∃ s, x = PyVal.str s) :
    ∀ (rest : List (PyVal × List PyVal)), (∀ p ∈ rest, p ∈ g) →
    ∀ visited r, ∃ r', detectCycleLoop g rest visited r = .ok r' := by
  intro rest
  induction rest with
  | nil => intro _ visited r; exact ⟨r, rfl⟩
  | cons p rest' ih =>
    intro hsub visited r
    obtain ⟨node, adj⟩ := p
    by_cases hv : pvMem visited node = true
    · obtain ⟨r', hr'⟩ := ih (fun q hq => hsub q (List.mem_cons_of_mem _ hq)) visited r
      exact ⟨r', by simpa [detectCycleLoop, hv] using hr'⟩
    · have hU : node ∈ cycleUniverse g :=
        key_mem_cycleUniverse g (node, adj) (hsub _ (List.mem_cons_self _ _))
      obtain ⟨out, vis, rs, heq, _, _, hcyc⟩ :=
        (hasCycle_total g (cycleFuel g)).1 node visited [] hU (by simpa using hv)
          (remainingCount_lt_cycleFuel g visited)
      cases out with
      | some c =>
        obtain ⟨strs, hstrs⟩ := strMapM_isSome c fun x hx => hstr x (hcyc c rfl x hx)
        refine ⟨addError r "CIRCULAR_DEPENDENCY"
          ("Circular dependency detected in relationships: " ++
            String.intercalate " â†’ " strs)
          (some "relationships") [("cycle", .list c)], ?_⟩
        unfold detectCycleLoop
        rw [if_neg (by simpa using hv), heq]
        simp only [hstrs]
      | none =>
        obtain ⟨r', hr'⟩ := ih (fun q hq => hsub q (List.mem_cons_of_mem _ hq)) vis r
        refine ⟨r', ?_⟩
        unfold detectCycleLoop
        rw [if_neg (by simpa using hv), heq]
        exact hr'

theorem pvSetAdd_subset (s : List PyVal) (v : PyVal) :
    ∀ x ∈ pvSetAdd s v, x ∈ s ∨ x = v := by
  intro x hx
  unfold pvSetAdd at hx
  by_cases h : pvMem s v = true
  · rw [if_pos h] at hx
    exact Or.inl hx
  · rw [if_neg h] at hx
    rcases List.mem_append.mp hx with h1 | h1
    · exact Or.inl h1
    · right
      simpa using h1

theorem cycleUniverse_cycleGraphAdd (g : List (PyVal × List PyVal)) (l r : PyVal) :
    ∀ x ∈ cycleUniverse (cycleGraphAdd g l r),
      x ∈ cycleUniverse g ∨ x = l ∨ x = r := by
  intro x hx
  unfold cycleGraphAdd at hx
  by_cases h : g.any (fun p => pyEq p.1 l) = true
  · rw [if_pos h] at hx
    unfold cycleUniverse at hx ⊢
    rcases List.mem_append.mp hx with hm | hm
    · left
      refine List.mem_append.mpr (Or.inl ?_)
      rw [List.map_map] at hm
      obtain ⟨q, hq, hqx⟩ := List.mem_map.mp hm
      refine List.mem_map.mpr ⟨q, hq, ?_⟩
      by_cases hql : pyEq q.1 l = true
      · rw [← hqx]
        simp [hql]
      · rw [← hqx]
        simp [hql]
    · rw [List.map_map] at hm
      obtain ⟨ad, had, hxad⟩ := List.mem_flatten.mp hm
      obtain ⟨q, hq, hqad⟩ := List.mem_map.mp had
      by_cases hql : pyEq q.1 l = true
      · simp only [Function.comp, hql, if_pos] at hqad
        subst hqad
        rcases pvSetAdd_subset q.2 r x hxad with hxq | rfl
        · left
          refine List.mem_append.mpr (Or.inr ?_)
          exact List.mem_flatten.mpr ⟨q.2, List.mem_map.mpr ⟨q, hq, rfl⟩, hxq⟩
        · right; right; rfl
      · simp only [Function.comp, hql] at hqad
        rw [if_neg (by simpa using hql)] at hqad
        subst hqad
        left
        refine List.mem_append.mpr (Or.inr ?_)
        exact List.mem_flatten.mpr ⟨q.2, List.mem_map.mpr ⟨q, hq, rfl⟩, hxad⟩
  · rw [if_neg h] at hx
    unfold cycleUniverse at hx ⊢
    rcases List.mem_append.mp hx with hm | hm
    · rw [List.map_append] at hm
      rcases List.mem_append.mp hm with hm1 | hm1
      · left
        exact List.mem_append.mpr (Or.inl hm1)
      · right; left
        simpa using hm1
    · rw [List.map_append, List.flatten_append] at hm
      rcases List.mem_append.mp hm with hm1 | hm1
      · left
        exact List.mem_append.mpr (Or.inr hm1)
      · right; right
        simpa using hm1

theorem opt_str_of_match (o : Option PyVal)
    (h : (match o with | some (PyVal.str _) => true | _ => false) = true) :
    ∃ s, o = some (PyVal.str s) := by
  match o with
  | some (PyVal.str s) => exact ⟨s, rfl⟩
  | none => cases h
  | some (PyVal.int _) => cases h
  | some (PyVal.bool _) => cases h
  | some PyVal.pynone => cases h
  | some (PyVal.list _) => cases h
  | some (PyVal.dict _) => cases h

theorem wellTypedRel_strs (xs : List (String × PyVal))
    (h : wellTypedRel (.dict xs) = true) :
    (∃ s, pyLookup xs "left_dataset" = some (PyVal.str s)) ∧
    (∃ s, pyLookup xs "right_dataset" = some (PyVal.str s)) := by
  unfold wellTypedRel at h
  simp only [Bool.and_eq_true] at h
  exact ⟨opt_str_of_match _ h.1.1, opt_str_of_match _ h.1.2⟩

theorem buildCycleGraph_ok : ∀ (rels : List PyVal) (g0 : List (PyVal × List PyVal)),
    (∀ rel ∈ rels, wellTypedRel rel = true) →
    (∀ x ∈ cycleUniverse g0, ∃ s, x = PyVal.str s) →
    ∃ g, buildCycleGraph rels g0 = .ok g ∧
      ∀ x ∈ cycleUniverse g, ∃ s, x = PyVal.str s := by
  intro rels
  induction rels with
  | nil => intro g0 _ hstr; exact ⟨g0, rfl, hstr⟩
  | cons rel rest ih =>
    intro g0 hwt hstr
    have hw := hwt rel (List.mem_cons_self _ _)
    match rel, hw with
    | .dict xs, hw =>
      obtain ⟨⟨ls, hls⟩, ⟨rs, hrs⟩⟩ := wellTypedRel_strs xs hw
      have hgl : pyGetAttr (.dict xs) "left_dataset" .pynone = .ok (.str ls) := by
        simp [pyGetAttr, hls]
      have hgr : pyGetAttr (.dict xs) "right_dataset" .pynone = .ok (.str rs) := by
        simp [pyGetAttr, hrs]
      have hstr' : ∀ x ∈ cycleUniverse (cycleGraphAdd g0 (.str ls) (.str rs)),
          ∃ s, x = PyVal.str s := by
        intro x hx
        rcases cycleUniverse_cycleGraphAdd g0 _ _ x hx with hx0 | rfl | rfl
        · exact hstr x hx0
        · exact ⟨ls, rfl⟩
        · exact ⟨rs, rfl⟩
      obtain ⟨g, hg, hgs⟩ := ih (cycleGraphAdd g0 (.str ls) (.str rs))
        (fun r hr => hwt r (List.mem_cons_of_mem _ hr)) hstr'
      refine ⟨g, ?_, hgs⟩
      rw [show buildCycleGraph (PyVal.dict xs :: rest) g0 =
          buildCycleGraph rest (cycleGraphAdd g0 (.str ls) (.str rs)) from ?_]
      · exact hg
      · simp [buildCycleGraph, hgl, hgr, pyHashable, bind, Except.bind]

theorem validate_schema_ok (doc : List (String × PyVal)) (r0 : ValidationResult)
    (hn : ∃ s, docGet doc "name" (.str "") = .str s)
    (hd : ∃ s, docGet doc "description" (.str "") = .str s) :
    ∃ r, validate_schema doc r0 = .ok r := by
  obtain ⟨ns, hns⟩ := hn
  obtain ⟨dsv, hds⟩ := hd
  unfold validate_schema
  rw [hns, hds]
  simp only [pyLen, bind, Except.bind, pure, Except.pure]
  repeat' split
  all_goals exact ⟨_, rfl⟩

theorem opt_str_or_none_of_match (o : Option PyVal)
    (h : (match o with
      | some (PyVal.str _) => true
      | some PyVal.pynone => true
      | _ => false) = true) :
    o = some PyVal.pynone ∨ ∃ s, o = some (PyVal.str s) := by
  match o with
  | some (PyVal.str s) => exact Or.inr ⟨s, rfl⟩
  | some PyVal.pynone => exact Or.inl rfl
  | none => cases h
  | some (PyVal.int _) => cases h
  | some (PyVal.bool _) => cases h
  | some (PyVal.list _) => cases h
  | some (PyVal.dict _) => cases h

theorem wellTypedDataset_parts (xs : List (String × PyVal))
    (h : wellTypedDataset (.dict xs) = true) :
    (pyLookup xs "id").isSome = true ∧
    pyHashable ((pyLookup xs "id").getD .pynone) = true ∧
    (pyLookup xs "dataset_id" = some PyVal.pynone ∨
      ∃ s, pyLookup xs "dataset_id" = some (PyVal.str s)) := by
  unfold wellTypedDataset at h
  simp only [Bool.and_eq_true] at h
  exact ⟨h.1.1, h.1.2, opt_str_or_none_of_match _ h.2⟩

theorem semanticsLoop1_ok : ∀ (datasets : List PyVal),
    (∀ ds ∈ datasets, wellTypedDataset ds = true) →
    ∀ ids r, ∃ p, semanticsLoop1 datasets ids r = .ok p := by
  intro datasets
  induction datasets with
  | nil => intro _ ids r; exact ⟨(ids, r), rfl⟩
  | cons ds rest ih =>
    intro hwt ids r
    have hw := hwt ds (List.mem_cons_self _ _)
    have ih' := ih fun d hd => hwt d (List.mem_cons_of_mem _ hd)
    match ds, hw with
    | .dict xs, hw =>
      obtain ⟨-, -, hdid⟩ := wellTypedDataset_parts xs hw
      rcases hdid with hdid | ⟨s, hdid⟩ <;>
        (unfold semanticsLoop1
         simp only [pyGetAttr, hdid, Option.getD_some, bind, Except.bind, pure,
           Except.pure, pyTruthy]
         repeat' split
         all_goals first
           | exact ih' _ _
           | (rename_i hfalse
              first
                | exact absurd hfalse (by decide)
                | exact absurd (by decide) hfalse))

theorem semanticsLoop2_ok : ∀ (datasets : List PyVal),
    (∀ ds ∈ datasets, wellTypedDataset ds = true) →
    ∀ existing r, ∃ r', semanticsLoop2 datasets existing r = .ok r' := by
  intro datasets
  induction datasets with
  | nil => intro _ existing r; exact ⟨r, rfl⟩
  | cons ds rest ih =>
    intro hwt existing r
    have hw := hwt ds (List.mem_cons_self _ _)
    have ih' := ih fun d hd => hwt d (List.mem_cons_of_mem _ hd)
    match ds, hw with
    | .dict xs, hw =>
      obtain ⟨-, -, hdid⟩ := wellTypedDataset_parts xs hw
      rcases hdid with hdid | ⟨s, hdid⟩ <;>
        (unfold semanticsLoop2
         simp only [pyGetAttr, hdid, Option.getD_some, bind, Except.bind, pure,
           Except.pure, pyHashable]
         repeat' split
         all_goals first
           | exact ih' _ _
           | (rename_i hfalse
              first
                | exact absurd hfalse (by decide)
                | exact absurd (by decide) hfalse))

theorem buildIdMap_ok : ∀ (datasets : List PyVal),
    (∀ ds ∈ datasets, wellTypedDataset ds = true) →
    ∀ m, (∀ p ∈ m, pyHashable p.2 = true) →
    ∃ m', buildIdMap datasets m = .ok m' ∧ ∀ p ∈ m', pyHashable p.2 = true := by
  intro datasets
  induction datasets with
  | nil => intro _ m hm; exact ⟨m, rfl, hm⟩
  | cons ds rest ih =>
    intro hwt m hm
    have hw := hwt ds (List.mem_cons_self _ _)
    have ih' := ih fun d hd => hwt d (List.mem_cons_of_mem _ hd)
    match ds, hw with
    | .dict xs, hw =>
      obtain ⟨hid, hidh, hdid⟩ := wellTypedDataset_parts xs hw
      obtain ⟨idv, hlk⟩ := Option.isSome_iff_exists.mp hid
      have hsub : pySubscript (.dict xs) "id" = .ok idv := by
        simp [pySubscript, hlk]
      have hidh' : pyHashable idv = true := by
        rw [hlk] at hidh
        simpa using hidh
      have hext : ∀ (v : PyVal), pyHashable v = true →
          ∀ p ∈ m ++ [(idv, v)], pyHashable p.2 = true := by
        intro v hv p hp
        rcases List.mem_append.mp hp with h1 | h1
        · exact hm p h1
        · obtain rfl : p = (idv, v) := by simpa using h1
          exact hv
      rcases hdid with hdid | ⟨s, hdid⟩
      · have hsub2 : pySubscript (.dict xs) "dataset_id" = .ok .pynone := by
          simp [pySubscript, hdid]
        unfold buildIdMap
        rw [hsub]
        simp [bind, Except.bind, hidh', hsub2]
        obtain ⟨m', hbm, hmv⟩ := ih' _ (hext .pynone rfl)
        exact ⟨m', hbm, fun a b hab => hmv (a, b) hab⟩
      · have hsub2 : pySubscript (.dict xs) "dataset_id" = .ok (.str s) := by
          simp [pySubscript, hdid]
        unfold buildIdMap
        rw [hsub]
        simp [bind, Except.bind, hidh', hsub2]
        obtain ⟨m', hbm, hmv⟩ := ih' _ (hext (.str s) rfl)
        exact ⟨m', hbm, fun a b hab => hmv (a, b) hab⟩

theorem subMapM_loop_ok : ∀ (cs : List PyVal) (acc : List PyVal),
    (∀ c ∈ cs, ∃ ys, c = PyVal.dict ys ∧ (pyLookup ys "name").isSome = true) →
    ∃ l, List.mapM.loop (fun c => pySubscript c "name") cs acc = .ok l := by
  intro cs
  induction cs with
  | nil => intro acc _; exact ⟨acc.reverse, rfl⟩
  | cons c cs ih =>
    intro acc h
    obtain ⟨ys, rfl, hname⟩ := h c (List.mem_cons_self _ _)
    obtain ⟨w, hw⟩ := Option.isSome_iff_exists.mp hname
    have hsub : pySubscript (.dict ys) "name" = .ok w := by
      simp [pySubscript, hw]
    obtain ⟨l, hl⟩ := ih (w :: acc) fun d hd => h d (List.mem_cons_of_mem _ hd)
    refine ⟨l, ?_⟩
    show (pySubscript (PyVal.dict ys) "name" >>= fun v =>
      List.mapM.loop (fun c => pySubscript c "name") cs (v :: acc)) = .ok l
    rw [hsub]
    exact hl

theorem opt_dict_of_match (c : PyVal)
    (h : (match c with | PyVal.dict _ => true | _ => false) = true) :
    ∃ ys, c = PyVal.dict ys := by
  match c with
  | PyVal.dict ys => exact ⟨ys, rfl⟩
  | PyVal.str _ => cases h
  | PyVal.int _ => cases h
  | PyVal.bool _ => cases h
  | PyVal.pynone => cases h
  | PyVal.list _ => cases h

theorem schemaColumns_ok (v : PyVal) (h : wellTypedSchema v = true) :
    ∃ names, schemaColumns v = .ok names := by
  match v, h with
  | .dict xs, h =>
    simp only [wellTypedSchema] at h
    match hlk : pyLookup xs "columns" with
    | none =>
      have hga : pyGetAttr (.dict xs) "columns" (.list []) = .ok (.list []) := by
        simp [pyGetAttr, hlk]
      refine ⟨[], ?_⟩
      unfold schemaColumns
      rw [hga]
      rfl
    | some (PyVal.list cs) =>
      rw [hlk] at h
      have hcs : ∀ c ∈ cs, ∃ ys, c = PyVal.dict ys ∧ (pyLookup ys "name").isSome = true := by
        intro c hc
        have := (List.all_eq_true.mp h) c hc
        obtain ⟨ys, rfl⟩ := opt_dict_of_match c (by
          cases c <;> simpa using this)
        exact ⟨ys, rfl, by simpa using this⟩
      have hga : pyGetAttr (.dict xs) "columns" (.list []) = .ok (.list cs) := by
        simp [pyGetAttr, hlk]
      obtain ⟨l, hl⟩ := subMapM_loop_ok cs [] hcs
      refine ⟨l, ?_⟩
      unfold schemaColumns
      rw [hga]
      exact hl
    | some (PyVal.str _) => rw [hlk] at h; cases h
    | some (PyVal.int _) => rw [hlk] at h; cases h
    | some (PyVal.bool _) => rw [hlk] at h; cases h
    | some PyVal.pynone => rw [hlk] at h; cases h
    | some (PyVal.dict _) => rw [hlk] at h; cases h

theorem checkColumnSide_ok (r : ValidationResult) (relId dsId schema col : PyVal)
    (h : wellTypedSchema schema = true) :
    ∃ r', checkColumnSide r relId dsId schema col = .ok r' := by
  obtain ⟨names, hn⟩ := schemaColumns_ok schema h
  unfold checkColumnSide
  simp only [hn, bind, Except.bind, pure, Except.pure]
  repeat' split
  all_goals exact ⟨_, rfl⟩

theorem condLoop_ok : ∀ (conds : List PyVal),
    (∀ c ∈ conds, ∃ ys, c = PyVal.dict ys) →
    ∀ relId l rgt lsch rsch, wellTypedSchema lsch = true →
    wellTypedSchema rsch = true →
    ∀ r, ∃ r', condLoop relId l rgt lsch rsch conds r = .ok r' := by
  intro conds
  induction conds with
  | nil => intro _ relId l rgt lsch rsch _ _ r; exact ⟨r, rfl⟩
  | cons c rest ih =>
    intro h relId l rgt lsch rsch hls hrs r
    obtain ⟨ys, rfl⟩ := h c (List.mem_cons_self _ _)
    obtain ⟨r1, hr1⟩ := checkColumnSide_ok r relId l lsch
      ((pyLookup ys "left_column").getD .pynone) hls
    obtain ⟨r2, hr2⟩ := checkColumnSide_ok r1 relId rgt rsch
      ((pyLookup ys "right_column").getD .pynone) hrs
    obtain ⟨r3, hr3⟩ := ih (fun d hd => h d (List.mem_cons_of_mem _ hd))
      relId l rgt lsch rsch hls hrs r2
    refine ⟨r3, ?_⟩
    unfold condLoop
    simp only [pyGetAttr, bind, Except.bind, hr1, hr2]
    exact hr3

theorem schemasGet_fold_wts : ∀ (schemas : List (String × PyVal)) (acc : Option PyVal)
    (k : PyVal),
    (∀ p ∈ schemas, wellTypedSchema p.2 = true) →
    (∀ v, acc = some v → wellTypedSchema v = true) →
    ∀ v, schemas.foldl (fun acc p => if pyEq k (.str p.1) then some p.2 else acc) acc
      = some v → wellTypedSchema v = true := by
  intro schemas
  induction schemas with
  | nil => intro acc k _ hacc v hv; exact hacc v hv
  | cons p rest ih =>
    intro acc k hall hacc v hv
    rw [List.foldl_cons] at hv
    refine ih _ k (fun q hq => hall q (List.mem_cons_of_mem _ hq)) ?_ v hv
    intro w hw
    by_cases hck : pyEq k (.str p.1) = true
    · rw [if_pos hck] at hw
      obtain rfl := Option.some.inj hw
      exact hall p (List.mem_cons_self _ _)
    · rw [if_neg hck] at hw
      exact hacc w hw

theorem schemasGet_wts (schemas : List (String × PyVal))
    (hall : ∀ p ∈ schemas, wellTypedSchema p.2 = true) (k : PyVal)
    (hk : pyHashable k = true) :
    ∃ v, schemasGet schemas k = .ok v ∧ wellTypedSchema v = true := by
  unfold schemasGet
  rw [hk]
  simp only [Bool.not_true, Bool.false_eq_true, if_false]
  cases hf : schemas.foldl (fun acc p => if pyEq k (.str p.1) then some p.2 else acc)
      none with
  | none => exact ⟨.dict [], by simp, rfl⟩
  | some v =>
    refine ⟨v, by simp, ?_⟩
    exact schemasGet_fold_wts schemas none k hall (by intro w hw; cases hw) v hf

theorem wellTypedRel_conds (xs : List (String × PyVal))
    (h : wellTypedRel (.dict xs) = true) :
    ∃ cs, (pyLookup xs "conditions").getD (PyVal.list []) = PyVal.list cs ∧
      ∀ c ∈ cs, ∃ ys, c = PyVal.dict ys := by
  simp only [wellTypedRel, Bool.and_eq_true] at h
  have hc := h.2
  match hlk : pyLookup xs "conditions" with
  | none =>
    refine ⟨[], by simp [hlk], by intro c hc'; cases hc'⟩
  | some (PyVal.list cs) =>
    rw [hlk] at hc
    refine ⟨cs, by simp [hlk], ?_⟩
    intro c hmem
    exact opt_dict_of_match c ((List.all_eq_true.mp hc) c hmem)
  | some (PyVal.str _) => rw [hlk] at hc; cases hc
  | some (PyVal.int _) => rw [hlk] at hc; cases hc
  | some (PyVal.bool _) => rw [hlk] at hc; cases hc
  | some PyVal.pynone => rw [hlk] at hc; cases hc
  | some (PyVal.dict _) => rw [hlk] at hc; cases hc

theorem pvLookup_mem : ∀ (m : List (PyVal × PyVal)) (k v : PyVal),
    pvLookup m k = some v → ∃ p ∈ m, p.2 = v := by
  intro m
  induction m with
  | nil => intro k v h; cases h
  | cons p rest ih =>
    intro k v h
    unfold pvLookup at h
    cases hrest : pvLookup rest k with
    | some w =>
      rw [hrest] at h
      obtain rfl := Option.some.inj h
      obtain ⟨q, hq, hqv⟩ := ih k w hrest
      exact ⟨q, List.mem_cons_of_mem _ hq, hqv⟩
    | none =>
      rw [hrest] at h
      by_cases hk : pyEq p.1 k = true
      · rw [if_pos hk] at h
        obtain rfl := Option.some.inj h
        exact ⟨p, List.mem_cons_self _ _, rfl⟩
      · rw [if_neg hk] at h
        cases h

theorem colRefLoop_ok : ∀ (rels : List PyVal),
    (∀ rel ∈ rels, wellTypedRel rel = true) →
    ∀ (idMap : List (PyVal × PyVal)) (schemas : List (String × PyVal)),
    (∀ p ∈ idMap, pyHashable p.2 = true) →
    (∀ p ∈ schemas, wellTypedSchema p.2 = true) →
    ∀ r, ∃ r', colRefLoop idMap schemas rels r = .ok r' := by
  intro rels
  induction rels with
  | nil => intro _ idMap schemas _ _ r; exact ⟨r, rfl⟩
  | cons rel rest ih =>
    intro hwt idMap schemas hmap hsch r
    have hw := hwt rel (List.mem_cons_self _ _)
    have ih' := ih (fun d hd => hwt d (List.mem_cons_of_mem _ hd)) idMap schemas hmap hsch
    match rel, hw with
    | .dict xs, hw =>
      obtain ⟨⟨ls, hls⟩, ⟨rs, hrs⟩⟩ := wellTypedRel_strs xs hw
      obtain ⟨cs, hcnd, hcsd⟩ := wellTypedRel_conds xs hw
      have hlh : ∀ k, pyHashable ((pvLookup idMap k).getD .pynone) = true := by
        intro k
        cases hpl : pvLookup idMap k with
        | none => rfl
        | some w =>
          obtain ⟨p, hp, hpv⟩ := pvLookup_mem idMap _ w hpl
          simpa [← hpv] using hmap p hp
      obtain ⟨lsch, hlsch, hlwts⟩ := schemasGet_wts schemas hsch
        ((pvLookup idMap (.str ls)).getD .pynone) (hlh _)
      obtain ⟨rsch, hrsch, hrwts⟩ := schemasGet_wts schemas hsch
        ((pvLookup idMap (.str rs)).getD .pynone) (hlh _)
      obtain ⟨r3, hr3⟩ := condLoop_ok cs hcsd
        ((pyLookup xs "id").getD .pynone) (.str ls) (.str rs) lsch rsch
        hlwts hrwts r
      simp only [colRefLoop]
      simp [pyGetAttr, hls, hrs, hcnd, bind, Except.bind, pyHashable, pyIter,
        hlsch, hrsch, hr3]
      repeat' split
      all_goals exact ih' _

theorem val_list_of_match (v : PyVal) (p : PyVal → Bool)
    (h : (match v with | PyVal.list xs => xs.all p | _ => false) = true) :
    ∃ xs, v = PyVal.list xs ∧ ∀ x ∈ xs, p x = true := by
  match v with
  | PyVal.list xs => exact ⟨xs, rfl, fun x hx => (List.all_eq_true.mp h) x hx⟩
  | PyVal.str _ => cases h
  | PyVal.int _ => cases h
  | PyVal.bool _ => cases h
  | PyVal.pynone => cases h
  | PyVal.dict _ => cases h

theorem validate_semantics_ok (db doc : List (String × PyVal)) (r : ValidationResult)
    (hdb : wellTypedDb db = true)
    (hds : (match docGet doc "datasets" (.list []) with
            | PyVal.list ds => ds.all wellTypedDataset
            | _ => false) = true)
    (hrl : (match docGet doc "relationships" (.list []) with
            | PyVal.list rels => rels.all wellTypedRel
            | _ => false) = true) :
    ∃ r', validate_semantics db doc r = .ok r' := by
  obtain ⟨ds, hdse, hdsw⟩ := val_list_of_match _ _ hds
  obtain ⟨rels, hrle, hrlw⟩ := val_list_of_match _ _ hrl
  have hdbp : ∀ p ∈ db, wellTypedSchema p.2 = true :=
    fun p hp => (List.all_eq_true.mp hdb) p hp
  obtain ⟨⟨ids, r1⟩, h1⟩ := semanticsLoop1_ok ds hdsw [] r
  unfold validate_semantics
  rw [hdse, hrle]
  by_cases hie : ids.isEmpty = true
  · by_cases hrt : pyTruthy (.list rels) = true
    · obtain ⟨m', hbm, hmv⟩ := buildIdMap_ok ds hdsw [] (by intro p hp; cases hp)
      obtain ⟨r', hcr⟩ := colRefLoop_ok rels hrlw m' [] hmv (by intro p hp; cases hp) r1
      refine ⟨r', ?_⟩
      simp [pyIter, bind, Except.bind, pure, Except.pure, h1, hie, hrt, hbm, hcr]
    · refine ⟨r1, ?_⟩
      simp [pyIter, bind, Except.bind, pure, Except.pure, h1, hie, hrt]
  · obtain ⟨r2, h2⟩ := semanticsLoop2_ok ds hdsw
      ((db.filter (fun p => p.1 ∈ ids)).map Prod.fst) r1
    by_cases hrt : pyTruthy (.list rels) = true
    · obtain ⟨m', hbm, hmv⟩ := buildIdMap_ok ds hdsw [] (by intro p hp; cases hp)
      obtain ⟨r', hcr⟩ := colRefLoop_ok rels hrlw m' (db.filter (fun p => p.1 ∈ ids))
        hmv (fun p hp => hdbp p (List.mem_of_mem_filter hp)) r2
      refine ⟨r', ?_⟩
      simp [pyIter, bind, Except.bind, pure, Except.pure, h1, h2, hie, hrt, hbm, hcr]
    · refine ⟨r2, ?_⟩
      simp [pyIter, bind, Except.bind, pure, Except.pure, h1, h2, hie, hrt]

theorem joinTypeLoop_ok : ∀ (rels : List PyVal),
    (∀ rel ∈ rels, wellTypedRel rel = true) →
    ∀ r, ∃ r', joinTypeLoop rels r = .ok r' := by
  intro rels
  induction rels with
  | nil => intro _ r; exact ⟨r, rfl⟩
  | cons rel rest ih =>
    intro hwt r
    have hw := hwt rel (List.mem_cons_self _ _)
    have ih' := ih fun d hd => hwt d (List.mem_cons_of_mem _ hd)
    match rel, hw with
    | .dict xs, _ =>
      unfold joinTypeLoop
      simp only [pyGetAttr, bind, Except.bind, pure, Except.pure]
      repeat' split
      all_goals exact ih' _

theorem dupLoop_ok : ∀ (rels : List PyVal),
    (∀ rel ∈ rels, wellTypedRel rel = true) →
    ∀ seen r, ∃ r', dupLoop rels seen r = .ok r' := by
  intro rels
  induction rels with
  | nil => intro _ seen r; exact ⟨r, rfl⟩
  | cons rel rest ih =>
    intro hwt seen r
    have hw := hwt rel (List.mem_cons_self _ _)
    have ih' := ih fun d hd => hwt d (List.mem_cons_of_mem _ hd)
    match rel, hw with
    | .dict xs, hw =>
      obtain ⟨⟨ls, hls⟩, ⟨rs, hrs⟩⟩ := wellTypedRel_strs xs hw
      unfold dupLoop
      simp [pyGetAttr, hls, hrs, bind, Except.bind, pyHashable]
      repeat' split
      all_goals exact ih' _ _

theorem validate_relationships_ok (doc : List (String × PyVal)) (r : ValidationResult)
    (hrl : (match docGet doc "relationships" (.list []) with
            | PyVal.list rels => rels.all wellTypedRel
            | _ => false) = true) :
    ∃ r', validate_relationships doc r = .ok r' := by
  obtain ⟨rels, hrle, hrlw⟩ := val_list_of_match _ _ hrl
  unfold validate_relationships
  rw [hrle]
  by_cases hrt : pyTruthy (.list rels) = true
  · obtain ⟨r1, h1⟩ := joinTypeLoop_ok rels hrlw r
    obtain ⟨g, hg, hgs⟩ := buildCycleGraph_ok rels [] hrlw
      (by intro x hx; simp [cycleUniverse] at hx)
    obtain ⟨r2, h2⟩ := detectCycleLoop_ok g hgs g (fun p hp => hp) [] r1
    obtain ⟨r3, h3⟩ := dupLoop_ok rels hrlw [] r2
    refine ⟨r3, ?_⟩
    simp [hrt, pyIter, bind, Except.bind, pure, Except.pure, h1, hg, h2, h3]
  · refine ⟨addWarning r "NO_RELATIONSHIPS"
      "Multi-dataset context has no relationships defined" (some "relationships") [], ?_⟩
    simp [hrt, pure, Except.pure]

theorem opt_cond_of_match (o : Option PyVal)
    (h : (match o with
      | none => true
      | some (PyVal.str _) => true
      | _ => false) = true) :
    o = none ∨ ∃ s, o = some (PyVal.str s) := by
  match o with
  | none => exact Or.inl rfl
  | some (PyVal.str s) => exact Or.inr ⟨s, rfl⟩
  | some (PyVal.int _) => cases h
  | some (PyVal.bool _) => cases h
  | some PyVal.pynone => cases h
  | some (PyVal.list _) => cases h
  | some (PyVal.dict _) => cases h

theorem rulesLoop_ok : ∀ (rules : List PyVal),
    (∀ rule ∈ rules, wellTypedRule rule = true) →
    ∀ r, ∃ r', rulesLoop rules r = .ok r' := by
  intro rules
  induction rules with
  | nil => intro _ r; exact ⟨r, rfl⟩
  | cons rule rest ih =>
    intro hwt r
    have hw := hwt rule (List.mem_cons_self _ _)
    have ih' := ih fun d hd => hwt d (List.mem_cons_of_mem _ hd)
    match rule, hw with
    | .dict xs, hw =>
      have hc : pyLookup xs "condition" = none ∨
          ∃ s, pyLookup xs "condition" = some (PyVal.str s) := by
        simp only [wellTypedRule] at hw
        exact opt_cond_of_match _ hw
      rcases hc with hc | ⟨s, hc⟩ <;>
        (unfold rulesLoop
         simp [pyGetAttr, hc, pyStrip, bind, Except.bind, pure, Except.pure]
         repeat' split
         all_goals exact ih' _)

theorem validate_business_rules_ok (doc : List (String × PyVal)) (r : ValidationResult)
    (hbr : (match docGet doc "business_rules" (.list []) with
            | PyVal.list rules => rules.all wellTypedRule
            | _ => false) = true) :
    ∃ r', validate_business_rules doc r = .ok r' := by
  obtain ⟨rules, hre, hrw⟩ := val_list_of_match _ _ hbr
  unfold validate_business_rules
  rw [hre]
  by_cases hrt : pyTruthy (.list rules) = true
  · obtain ⟨r', h'⟩ := rulesLoop_ok rules hrw r
    refine ⟨r', ?_⟩
    simp [hrt, pyIter, bind, Except.bind, pure, Except.pure, h']
  · refine ⟨r, ?_⟩
    simp [hrt, pure, Except.pure]

theorem val_str_of_match (v : PyVal)
    (h : (match v with | PyVal.str _ => true | _ => false) = true) :
    ∃ s, v = PyVal.str s := by
  match v with
  | PyVal.str s => exact ⟨s, rfl⟩
  | PyVal.int _ => cases h
  | PyVal.bool _ => cases h
  | PyVal.pynone => cases h
  | PyVal.list _ => cases h
  | PyVal.dict _ => cases h

/-- C7 claim theorem (amended): on any database rows and any document whose
field values are merely well-typed — however semantically malformed — the
validator returns a `ValidationResult` and never raises. -/
theorem C7_validate_no_raise_welltyped (db doc : List (String × PyVal))
    (hdb : wellTypedDb db = true) (hdoc : wellTypedDoc doc = true) :
    ∃ r, validate db doc = .ok r := by
  simp only [wellTypedDoc, Bool.and_eq_true] at hdoc
  obtain ⟨⟨⟨⟨hn, hd⟩, hds⟩, hrl⟩, hbr⟩ := hdoc
  obtain ⟨r1, h1⟩ := validate_schema_ok doc {} (val_str_of_match _ hn)
    (val_str_of_match _ hd)
  obtain ⟨r2, h2⟩ := validate_semantics_ok db doc r1 hdb hds hrl
  by_cases hmd : pyEq (docGet doc "context_type" .pynone) (.str "multi_dataset") = true
  · obtain ⟨r3, h3⟩ := validate_relationships_ok doc r2 hrl
    obtain ⟨r4, h4⟩ := validate_business_rules_ok doc r3 hbr
    refine ⟨r4, ?_⟩
    unfold validate
    simp [h1, h2, hmd, h3, h4, bind, Except.bind, pure, Except.pure]
  · obtain ⟨r4, h4⟩ := validate_business_rules_ok doc r2 hbr
    refine ⟨r4, ?_⟩
    unfold validate
    simp [h1, h2, hmd, h4, bind, Except.bind, pure, Except.pure]

/-- C7 counterexample: a document whose `name` is the integer `123` makes the
validator raise `TypeError` — `len(name)` is evaluated inside the error
message after `not name` short-circuits to `False` — so the original claim
("never raises however malformed the field values") is too strong. -/
theorem C7_validate_raises_on_int_name :
    validate [] [("name", PyVal.int 123)] = .error .typeError := by
  rfl

/-- The malformed-but-well-typed document used to witness the C7 theorem:
bad UUID, unknown datasets, bogus join type — all reported, not raised. -/
def docC7w : List (String × PyVal) :=
  [("name", .str "W"),
   ("context_type", .str "multi_dataset"),
   ("datasets", .list [.dict [("id", .str "d1"), ("dataset_id", .str "not-a-uuid")]]),
   ("relationships", .list [.dict [("id", .str "r"),
     ("left_dataset", .str "a"), ("right_dataset", .str "b"),
     ("join_type", .str "bogus")]])]

theorem C7_validate_no_raise_welltyped_witness :
    wellTypedDb [] = true ∧ wellTypedDoc docC7w = true ∧
    ∃ r, validate [] docC7w = .ok r :=
  ⟨by decide, by decide, C7_validate_no_raise_welltyped [] docC7w (by decide) (by decide)⟩

/-! ## Context parser (`context_parser.py`)

The regexes of `ContextParser` are modelled as explicit scanners over the
character list, implementing Python `re` semantics (leftmost match, greedy
`\s*`/`\s+`/`.+` with backtracking, lazy `.*?`/`.+?`, `re.DOTALL` for the
frontmatter pattern, `re.MULTILINE` for the title pattern, `re.IGNORECASE`
where the source passes it, and non-overlapping `finditer`).  The YAML codec
is abstracted as `yload`/`ydump` parameters. -/

/-- Python's `\s` class. -/
def pyIsWs (c : Char) : Bool :=
  c = ' ' || c = '\t' || c = '\n' || c = '\r' || c = '\x0b' || c = '\x0c'

/-- Python's `\w` class (ASCII fragment, all that the inputs use). -/
def pyIsWord (c : Char) : Bool :=
  c.isAlphanum || c = '_'

/-- `str.strip()` over the character list (Python's whitespace set). -/
def pyStripL (l : List Char) : List Char :=
  ((l.dropWhile pyIsWs).reverse.dropWhile pyIsWs).reverse

/-- Index of the last newline of a list, if any — where a greedy `\s*`
followed by a literal `\n` ends up after backtracking inside a whitespace
run. -/
def lastNlIdx : List Char → Option Nat
  | [] => none
  | c :: cs =>
    match lastNlIdx cs with
    | some k => some (k + 1)
    | none => if c = '\n' then some 0 else none

/-- `\s*\n`: consume the whitespace run up to and including its last newline;
`none` when the run has no newline. -/
def wsThenNl (l : List Char) : Option (List Char) :=
  match lastNlIdx (l.takeWhile pyIsWs) with
  | none => none
  | some k => some (l.drop (k + 1))

/-- All newline indices of a whitespace run, in the descending order a greedy
`\s*` backtracks through. -/
def nlIdxsDesc (w : List Char) : List Nat :=
  (go w 0).reverse
where
  go : List Char → Nat → List Nat
    | [], _ => []
    | c :: cs, i => (if c = '\n' then [i] else []) ++ go cs (i + 1)

/-- `---\s*\n` after the separating newline of the frontmatter pattern;
returns what follows (group 2 of the pattern). -/
def fmTail (cs : List Char) : Option (List Char) :=
  match cs with
  | '-' :: '-' :: '-' :: cs' => wsThenNl cs'
  | _ => none

/-- The lazy `(.*?)\n---\s*\n(.*)$` scan: grow group 1 one character at a
time, testing `fmTail` at every newline. -/
def fmScan (acc : List Char) : List Char → Option (List Char × List Char)
  | [] => none
  | c :: cs =>
    if c = '\n' then
      match fmTail cs with
      | some md => some (acc.reverse, md)
      | none => fmScan (c :: acc) cs
    else fmScan (c :: acc) cs

/-- Backtracking of the first `\s*\n`: candidate body starts in the greedy
order. -/
def fmTryStarts (rest : List Char) : List Nat → Option (List Char × List Char)
  | [] => none
  | k :: ks =>
    match fmScan [] (rest.drop (k + 1)) with
    | some r => some r
    | none => fmTryStarts rest ks

/-- `re.match(r'^---\s*\n(.*?)\n---\s*\n(.*)$', content, re.DOTALL)`. -/
def frontmatterMatch (s : String) : Option (String × String) :=
  match s.data with
  | '-' :: '-' :: '-' :: rest =>
    match fmTryStarts rest (nlIdxsDesc (rest.takeWhile pyIsWs)) with
    | some (g1, g2) => some (⟨g1⟩, ⟨g2⟩)
    | none => none
  | _ => none

/-- Greedy `\s+.+` (with the `\s+`/`.+` backtracking interplay): returns the
consumed prefix, the `.+` group and the remainder. -/
def wsPlusDotPlus (l : List Char) : Option (List Char × List Char × List Char) :=
  let w := l.takeWhile pyIsWs
  if w.isEmpty then none
  else
    match l.drop w.length with
    | c :: cs =>
      let content := (c :: cs).takeWhile (fun x => !(x = '\n'))
      some (w ++ content, content, (c :: cs).drop content.length)
    | [] =>
      match lastNonNlFrom1 w with
      | none => none
      | some j =>
        let content := (w.drop j).takeWhile (fun x => !(x = '\n'))
        some (w.take j ++ content, content, (w.drop j).drop content.length)
where
  /-- Largest index `j ≥ 1` holding a non-newline character. -/
  lastNonNlFrom1 : List Char → Option Nat
    | [] => none
    | _ :: cs =>
      match go cs with
      | some k => some (k + 1)
      | none => none
  go : List Char → Option Nat
    | [] => none
    | c :: cs =>
      match go cs with
      | some k => some (k + 1)
      | none => if c = '\n' then none else some 0

/-- `re.search(r'^#\s+(.+)$', content, re.MULTILINE)`: try every line start. -/
def titleScan : Bool → List Char → Option (List Char)
  | _, [] => none
  | atStart, c :: cs =>
    if atStart && c = '#' then
      match wsPlusDotPlus cs with
      | some (_, content, _) => some content
      | none => titleScan (c = '\n') cs
    else titleScan (c = '\n') cs

/-- Case-insensitive literal match, returning the remainder. -/
def matchCI : List Char → List Char → Option (List Char)
  | [], l => some l
  | k :: ks, c :: cs => if c.toLower = k then matchCI ks cs else none
  | _ :: _, [] => none

/-- One `[-*]\s+.+\n?` list item; returns the remainder. -/
def itemOnce : List Char → Option (List Char)
  | c :: cs =>
    if c = '-' || c = '*' then
      match wsPlusDotPlus cs with
      | some (_, _, rest) =>
        match rest with
        | '\n' :: rest' => some rest'
        | _ => some rest
      | none => none
    else none
  | [] => none

/-- `((?:[-*]\s+.+\n?)+)`: the concatenation of one or more greedy items;
returns the captured block.  Fuelled by the input length. -/
def itemsPlus : Nat → List Char → Option (List Char)
  | 0, _ => none
  | fuel + 1, l =>
    match itemOnce l with
    | none => none
    | some rest =>
      let consumed := l.take (l.length - rest.length)
      match itemsPlus fuel rest with
      | some blk => some (consumed ++ blk)
      | none => some consumed

/-- `\s*\n` followed by the item block, with the greedy `\s*` backtracking. -/
def blockAfter (l : List Char) : Option (List Char) :=
  go (nlIdxsDesc (l.takeWhile pyIsWs))
where
  go : List Nat → Option (List Char)
    | [] => none
    | k :: ks =>
      let r := l.drop (k + 1)
      match itemsPlus r.length r with
      | some blk => some blk
      | none => go ks

/-- `##\s+«kw»s?\s*\n(block)` attempted at the current position
(case-insensitive keyword, greedy optional `s`). -/
def sectionTry (kw : List Char) : List Char → Option (List Char)
  | '#' :: '#' :: rest =>
    let w := rest.takeWhile pyIsWs
    if w.isEmpty then none
    else
      match matchCI kw (rest.drop w.length) with
      | none => none
      | some afterKw =>
        match afterKw with
        | c :: cs =>
          if c.toLower = 's' then
            match blockAfter cs with
            | some blk => some blk
            | none => blockAfter afterKw
          else blockAfter afterKw
        | [] => blockAfter afterKw
  | _ => none

/-- `re.search` for the section pattern: leftmost match wins. -/
def sectionScan (kw : List Char) : Nat → List Char → Option (List Char)
  | 0, _ => none
  | fuel + 1, l =>
    match sectionTry kw l with
    | some blk => some blk
    | none =>
      match l with
      | [] => none
      | _ :: cs => sectionScan kw fuel cs

/-- `[a-f0-9-]` (the item pattern carries no IGNORECASE). -/
def hexLower (c : Char) : Bool :=
  ('a' ≤ c && c ≤ 'f') || c.isDigit || c = '-'

/-- `[a-f0-9-]` under `re.IGNORECASE` (pattern 1). -/
def hexCI (c : Char) : Bool := hexLower c.toLower

/-- Exact literal match, returning the remainder. -/
def matchLit : List Char → List Char → Option (List Char)
  | [], l => some l
  | k :: ks, c :: cs => if c = k then matchLit ks cs else none
  | _ :: _, [] => none

/-- The `\s+\(id:\s*([a-f0-9-]+)\)` tail shared by the two dataset item
patterns; `ci` selects `re.IGNORECASE`.  Returns the hex group and the
remainder after the match. -/
def idTailTry (hex : Char → Bool) (ci : Bool) (l : List Char) :
    Option (List Char × List Char) :=
  let w := l.takeWhile pyIsWs
  if w.isEmpty then none
  else
    match (if ci then matchCI ['(', 'i', 'd', ':'] (l.drop w.length)
           else matchLit ['(', 'i', 'd', ':'] (l.drop w.length)) with
    | none => none
    | some cs =>
      let cs' := cs.drop (cs.takeWhile pyIsWs).length
      let hx := cs'.takeWhile hex
      if hx.isEmpty then none
      else
        match cs'.drop hx.length with
        | ')' :: rest => some (hx, rest)
        | _ => none

/-- The lazy `(.+?)` before the id tail: grow the group one (non-newline)
character at a time, testing the tail after each step. -/
def lazyIdScan (hex : Char → Bool) (ci : Bool) :
    Nat → List Char → List Char → Option (List Char × List Char × List Char)
  | 0, _, _ => none
  | fuel + 1, acc, l =>
    match l with
    | [] => none
    | c :: cs =>
      if c = '\n' then none
      else
        match idTailTry hex ci cs with
        | some (hx, rest) => some ((c :: acc).reverse, hx, rest)
        | none => lazyIdScan hex ci fuel (c :: acc) cs

/-- `re.finditer(r'[-*]\s+(.+?)\s+\(id:\s*([a-f0-9-]+)\)', block)`. -/
def listItemFind : Nat → List Char → List (List Char × List Char)
  | 0, _ => []
  | fuel + 1, l =>
    match l with
    | [] => []
    | c :: cs =>
      if c = '-' || c = '*' then
        let w := cs.takeWhile pyIsWs
        if w.isEmpty then listItemFind fuel cs
        else
          match lazyIdScan hexLower false (cs.length + 1) [] (cs.drop w.length) with
          | some (nm, hx, rest) => (nm, hx) :: listItemFind fuel rest
          | none => listItemFind fuel cs
      else listItemFind fuel cs

/-- `re.finditer(r'##\s+Dataset:\s+(.+?)\s+\(id:\s*([a-f0-9-]+)\)', content,
re.IGNORECASE)`. -/
def dsHeaderFind : Nat → List Char → List (List Char × List Char)
  | 0, _ => []
  | fuel + 1, l =>
    match l with
    | [] => []
    | '#' :: '#' :: rest =>
      (match dsHeaderTry rest with
       | some (nm, hx, after) => (nm, hx) :: dsHeaderFind fuel after
       | none =>
         match l with
         | _ :: cs => dsHeaderFind fuel cs
         | [] => [])
    | _ :: cs => dsHeaderFind fuel cs
where
  dsHeaderTry (rest : List Char) : Option (List Char × List Char × List Char) :=
    let w := rest.takeWhile pyIsWs
    if w.isEmpty then none
    else
      match matchCI ['d', 'a', 't', 'a', 's', 'e', 't', ':'] (rest.drop w.length) with
      | none => none
      | some afterKw =>
        let w2 := afterKw.takeWhile pyIsWs
        if w2.isEmpty then none
        else lazyIdScan hexCI true (afterKw.length + 1) [] (afterKw.drop w2.length)

/-- `(?:→|->)` with its alternation order. -/
def arrowMatch : List Char → Option (List Char)
  | '→' :: r => some r
  | '-' :: '>' :: r => some r
  | _ => none

/-- One `[-*]\s+(\w+)\s*(?:→|->)\s*(\w+)\s+via\s+(\w+)` attempt after the
bullet. -/
def relTry (cs : List Char) : Option (List Char × List Char × List Char × List Char) :=
  let w := cs.takeWhile pyIsWs
  if w.isEmpty then none
  else
    let l1 := cs.drop w.length
    let f := l1.takeWhile pyIsWord
    if f.isEmpty then none
    else
      let l2 := l1.drop f.length
      match arrowMatch (l2.drop (l2.takeWhile pyIsWs).length) with
      | none => none
      | some l3 =>
        let l4 := l3.drop (l3.takeWhile pyIsWs).length
        let t := l4.takeWhile pyIsWord
        if t.isEmpty then none
        else
          let l5 := l4.drop t.length
          let w5 := l5.takeWhile pyIsWs
          if w5.isEmpty then none
          else
            match matchLit ['v', 'i', 'a'] (l5.drop w5.length) with
            | none => none
            | some l6 =>
              let w6 := l6.takeWhile pyIsWs
              if w6.isEmpty then none
              else
                let col := (l6.drop w6.length).takeWhile pyIsWord
                if col.isEmpty then none
                else some (f, t, col, (l6.drop w6.length).drop col.length)

/-- `re.finditer` for the relationship line pattern. -/
def relFind : Nat → List Char → List (List Char × List Char × List Char)
  | 0, _ => []
  | fuel + 1, l =>
    match l with
    | [] => []
    | c :: cs =>
      if c = '-' || c = '*' then
        match relTry cs with
        | some (f, t, col, rest) => (f, t, col) :: relFind fuel rest
        | none => relFind fuel cs
      else relFind fuel cs

/-- `str.lower()` (ASCII fragment). -/
def pyLowerL (s : List Char) : List Char := s.map Char.toLower

/-- `str.title()`: upper-case every letter that follows a non-letter,
lower-case the other letters. -/
def pyTitleL (s : List Char) : List Char := go false s
where
  go : Bool → List Char → List Char
    | _, [] => []
    | prevA, c :: cs =>
      (if c.isAlpha then (if prevA then c.toLower else c.toUpper) else c) ::
        go c.isAlpha cs

/-- `content.split('\n\n')` (non-overlapping, left to right). -/
def splitNlNl : List Char → List (List Char)
  | [] => [[]]
  | '\n' :: '\n' :: rest => [] :: splitNlNl rest
  | c :: rest =>
    match splitNlNl rest with
    | p :: ps => (c :: p) :: ps
    | [] => [[c]]

/-- A synthesized dataset entry (both markdown dataset patterns). -/
def mkDatasetEntry (nm hx : List Char) : PyVal :=
  let name := pyStripL nm
  .dict [("id", .str ⟨(pyLowerL name).map fun c => if c = ' ' then '_' else c⟩),
         ("name", .str ⟨name⟩),
         ("dataset_id", .str ⟨pyStripL hx⟩)]

/-- A synthesized relationship entry (`_extract_relationships_from_markdown`):
note the `from_dataset`/`to_dataset`/`type` keys. -/
def mkRelEntry (f t col : List Char) : PyVal :=
  let fr := pyLowerL (pyStripL f)
  let toN := pyLowerL (pyStripL t)
  let c := col
  .dict [("id", .str ⟨fr ++ '_' :: toN⟩),
         ("name", .str ⟨pyTitleL fr ++ ' ' :: 't' :: 'o' :: ' ' :: pyTitleL toN⟩),
         ("type", .str "many_to_one"),
         ("from_dataset", .str ⟨fr⟩),
         ("from_column", .str ⟨c⟩),
         ("to_dataset", .str ⟨toN⟩),
         ("to_column", .str ⟨c⟩),
         ("description", .str ⟨('R' :: 'e' :: 'l' :: 'a' :: 't' :: 'i' :: 'o' :: 'n' ::
           's' :: 'h' :: 'i' :: 'p' :: ' ' :: 'f' :: 'r' :: 'o' :: 'm' :: ' ' :: fr) ++
           (' ' :: 't' :: 'o' :: ' ' :: toN) ++ (' ' :: 'v' :: 'i' :: 'a' :: ' ' :: c)⟩)]

/-- `ContextParser._extract_datasets_from_markdown`. -/
def extract_datasets_from_markdown (content : String) (dataset_id : Option String) :
    Except String (List PyVal) :=
  let p1 := (dsHeaderFind (content.data.length + 1) content.data).map
    fun p => mkDatasetEntry p.1 p.2
  let p2 :=
    match sectionScan ['d', 'a', 't', 'a', 's', 'e', 't']
        (content.data.length + 1) content.data with
    | some blk => (listItemFind (blk.length + 1) blk).map fun p => mkDatasetEntry p.1 p.2
    | none => []
  let datasets := p1 ++ p2
  let datasets :=
    match datasets, dataset_id with
    | [], some did =>
      let name :=
        match titleScan true content.data with
        | some g => (⟨pyStripL g⟩ : String)
        | none => "Dataset Context"
      [.dict [("id", .str "main"), ("name", .str name), ("dataset_id", .str did)]]
    | ds, _ => ds
  if datasets.isEmpty then .error "No datasets found" else .ok datasets

/-- `ContextParser._extract_relationships_from_markdown`. -/
def extract_relationships_from_markdown (content : String) : Option (List PyVal) :=
  match sectionScan ['r', 'e', 'l', 'a', 't', 'i', 'o', 'n', 's', 'h', 'i', 'p']
      (content.data.length + 1) content.data with
  | none => none
  | some blk =>
    let rels := (relFind (blk.length + 1) blk).map fun p => mkRelEntry p.1 p.2.1 p.2.2
    if rels.isEmpty then none else some rels

/-- `ContextParser.parse`, with the YAML loader abstracted as `yload`. -/
def parse (yload : String → Option PyVal) (content : String)
    (dataset_id : Option String) : Except String (PyVal × String) :=
  match frontmatterMatch content with
  | some (y, md) =>
    match yload y with
    | some (PyVal.dict d) => .ok (.dict d, ⟨pyStripL md.data⟩)
    | some _ => .error "YAML frontmatter must be a dictionary"
    | none => .error "YAML parsing error"
  | none =>
    let name :=
      match titleScan true content.data with
      | some g => (⟨pyStripL g⟩ : String)
      | none => "Dataset Context"
    let paragraphs := ((splitNlNl content.data).map pyStripL).filter
      fun p => !p.isEmpty && !(match p with | '#' :: _ => true | _ => false)
    let short_description :=
      match paragraphs with
      | p :: _ => (⟨p.take 200⟩ : String)
      | [] => "Dataset context documentation"
    match extract_datasets_from_markdown content dataset_id with
    | .error e => .error e
    | .ok datasets =>
      let context_type := if 1 < datasets.length then "multi_dataset" else "single_dataset"
      let rels := extract_relationships_from_markdown content
      let base := [("name", PyVal.str name), ("version", PyVal.str "1.0.0"),
        ("description", PyVal.str short_description),
        ("context_type", PyVal.str context_type),
        ("status", PyVal.str "active"), ("datasets", PyVal.list datasets)]
      let py :=
        match rels with
        | some rl => base ++ [("relationships", PyVal.list rl)]
        | none => base
      .ok (.dict py, content)

/-- `ContextSerializer.serialize`, with the YAML dumper abstracted as
`ydump`. -/
def serialize (ydump : PyVal → String) (y : PyVal) (markdown_content : String) :
    String :=
  "---\n" ++ ydump y ++ "---\n\n" ++ markdown_content

/-! ### C5: the headerless §8 Orders/Customers input -/

def c5input : String :=
  "# Orders\n\nSome text.\n## Datasets\n- Orders (id: abc)\n- Customers (id: def)\n## Relationships\n- Orders -> Customers via customer_id"

/-- The dictionary the source synthesizes for `c5input` (checked below). -/
def c5yaml : List (String × PyVal) :=
  [("name", .str "Orders"), ("version", .str "1.0.0"),
   ("description", .str "Some text.\n## Datasets\n- Orders (id: abc)\n- Customers (id: def)\n## Relationships\n- Orders -> Customers via customer_id"),
   ("context_type", .str "multi_dataset"), ("status", .str "active"),
   ("datasets", .list
     [.dict [("id", .str "orders"), ("name", .str "Orders"), ("dataset_id", .str "abc")],
      .dict [("id", .str "customers"), ("name", .str "Customers"), ("dataset_id", .str "def")]]),
   ("relationships", .list
     [.dict [("id", .str "orders_customers"), ("name", .str "Orders to Customers"),
       ("type", .str "many_to_one"), ("from_dataset", .str "orders"),
       ("from_column", .str "customer_id"), ("to_dataset", .str "customers"),
       ("to_column", .str "customer_id"),
       ("description", .str "Relationship from orders to customers via customer_id")]])]

set_option maxRecDepth 100000 in
/-- C5 counterexample: the relationship entry synthesized for the headerless
§8 input carries `from_dataset`/`to_dataset`/`type = "many_to_one"` keys and
has NO `left_dataset`, `right_dataset` or `join_type` keys, so it is not the
claimed single-column inner-join `Relationship` with `leftDataset` and
`rightDataset` fields. -/
theorem C5_headerless_rel_keys_counterexample :
    ∃ y rel, parse (fun _ => none) c5input none = .ok (.dict y, c5input) ∧
      pyLookup y "relationships" = some (.list [.dict rel]) ∧
      pyLookup rel "left_dataset" = none ∧
      pyLookup rel "right_dataset" = none ∧
      pyLookup rel "join_type" = none ∧
      pyLookup rel "from_dataset" = some (.str "orders") ∧
      pyLookup rel "to_dataset" = some (.str "customers") ∧
      pyLookup rel "type" = some (.str "many_to_one") :=
  ⟨c5yaml,
   [("id", .str "orders_customers"), ("name", .str "Orders to Customers"),
    ("type", .str "many_to_one"), ("from_dataset", .str "orders"),
    ("from_column", .str "customer_id"), ("to_dataset", .str "customers"),
    ("to_column", .str "customer_id"),
    ("description", .str "Relationship from orders to customers via customer_id")],
   rfl, rfl, rfl, rfl, rfl, rfl, rfl, rfl⟩

set_option maxRecDepth 100000 in
/-- C5 (amended): the headerless §8 input parses — independently of the YAML
loader — to the synthesized document above: two datasets with lower-cased
ids, one `many_to_one` relationship per matching line whose
`from_dataset`/`to_dataset` are the lower-cased names joined by the declared
column, and `context_type = "multi_dataset"`. -/
theorem C5_headerless_parse_synthesis :
    (∀ yload, parse yload c5input none = .ok (.dict c5yaml, c5input)) ∧
    pyLookup c5yaml "context_type" = some (.str "multi_dataset") ∧
    (∃ ds, pyLookup c5yaml "datasets" = some (.list ds) ∧ ds.length = 2) ∧
    (∃ rl, pyLookup c5yaml "relationships" = some (.list rl) ∧ rl.length = 1) :=
  ⟨fun _ => rfl, rfl, ⟨_, rfl, rfl⟩, ⟨_, rfl, rfl⟩⟩

/-! ### C9: serialize/parse round trip -/

/-- Does the list contain the `"\n---"` pattern the frontmatter scan could
stop at? -/
def containsNlDashes : List Char → Bool
  | '\n' :: '-' :: '-' :: '-' :: _ => true
  | _ :: rest => containsNlDashes rest
  | [] => false

theorem containsNlDashes_cons_false {b : Char} {bs : List Char}
    (h : containsNlDashes (b :: bs) = false) : containsNlDashes bs = false := by
  unfold containsNlDashes at h
  split at h
  · cases h
  · rename_i _ heq
    injection heq with h1 h2
    subst h2
    exact h
  · rename_i heq
    cases heq

theorem fmTail_shape (l : List Char) (r : List Char) (h : fmTail l = some r) :
    ∃ l', l = '-' :: '-' :: '-' :: l' := by
  unfold fmTail at h
  split at h
  · exact ⟨_, rfl⟩
  · cases h

theorem fmScan_junction : ∀ (body acc tl : List Char),
    tl.takeWhile pyIsWs = [] →
    containsNlDashes body = false →
    fmScan acc (body ++ '\n' :: '-' :: '-' :: '-' :: '\n' :: '\n' :: tl) =
      some (acc.reverse ++ body, tl) := by
  intro body
  induction body with
  | nil =>
    intro acc tl htl _
    have hft : fmTail ('-' :: '-' :: '-' :: '\n' :: '\n' :: tl) = some tl := by
      have h1 : List.takeWhile pyIsWs ('\n' :: '\n' :: tl) = ['\n', '\n'] := by
        rw [List.takeWhile_cons_of_pos (by decide),
          List.takeWhile_cons_of_pos (by decide), htl]
      simp only [fmTail, wsThenNl, h1]
      rfl
    show fmScan acc ('\n' :: '-' :: '-' :: '-' :: '\n' :: '\n' :: tl) =
      some (acc.reverse ++ [], tl)
    unfold fmScan
    rw [if_pos rfl, hft, List.append_nil]
  | cons b bs ih =>
    intro acc tl htl hno
    show fmScan acc (b :: (bs ++ '\n' :: '-' :: '-' :: '-' :: '\n' :: '\n' :: tl)) =
      some (acc.reverse ++ b :: bs, tl)
    unfold fmScan
    by_cases hb : b = '\n'
    · subst hb
      rw [if_pos rfl]
      have hnone : fmTail (bs ++ '\n' :: '-' :: '-' :: '-' :: '\n' :: '\n' :: tl) = none := by
        cases hcf : fmTail (bs ++ '\n' :: '-' :: '-' :: '-' :: '\n' :: '\n' :: tl) with
        | none => rfl
        | some r =>
          exfalso
          obtain ⟨l', hl'⟩ := fmTail_shape _ _ hcf
          rcases bs with _ | ⟨c1, _ | ⟨c2, _ | ⟨c3, bs3⟩⟩⟩
          · injection hl' with h1 _
            exact absurd h1 (by decide)
          · injection hl' with h1 hl'
            injection hl' with h2 _
            exact absurd h2 (by decide)
          · injection hl' with h1 hl'
            injection hl' with h2 hl'
            injection hl' with h3 _
            exact absurd h3 (by decide)
          · injection hl' with h1 hl'
            injection hl' with h2 hl'
            injection hl' with h3 _
            subst h1; subst h2; subst h3
            simp [containsNlDashes] at hno
      rw [hnone]
      rw [ih ('\n' :: acc) tl htl (containsNlDashes_cons_false hno)]
      simp
    · rw [if_neg hb]
      rw [ih (b :: acc) tl htl (containsNlDashes_cons_false hno)]
      simp

theorem pyStripL_takeWhile_nil (l : List Char) (h : pyStripL l = l) :
    l.takeWhile pyIsWs = [] := by
  have hlen1 : (pyStripL l).length ≤ (l.dropWhile pyIsWs).length := by
    unfold pyStripL
    rw [List.length_reverse]
    calc ((l.dropWhile pyIsWs).reverse.dropWhile pyIsWs).length
        ≤ (l.dropWhile pyIsWs).reverse.length :=
          (List.dropWhile_sublist _).length_le
      _ = (l.dropWhile pyIsWs).length := List.length_reverse _

  rw [h] at hlen1
  have hsplit : l.takeWhile pyIsWs ++ l.dropWhile pyIsWs = l :=
    List.takeWhile_append_dropWhile pyIsWs l
  have hlen2 : (l.takeWhile pyIsWs).length + (l.dropWhile pyIsWs).length = l.length := by
    rw [← List.length_append, hsplit]
  have : (l.takeWhile pyIsWs).length = 0 := by omega
  exact List.eq_nil_of_length_eq_zero this

/-- C9: serializing a parsed structured document (YAML mapping plus stripped
markdown body) and re-parsing the text yields the same mapping and the same
markdown, whatever the dataset-id argument; the YAML codec is abstracted by
`yload`/`ydump` with the round-trip and dump-shape facts as hypotheses (the
dump ends in a newline, starts with a non-whitespace character, and contains
no line starting with `---`). -/
theorem C9_serialize_parse_roundtrip
    (yload : String → Option PyVal) (ydump : PyVal → String)
    (d : List (String × PyVal)) (md : String) (ybody : List Char)
    (hdump : (ydump (.dict d)).data = ybody ++ ['\n'])
    (hyb : ybody.takeWhile pyIsWs = [])
    (hybne : ybody ≠ [])
    (hno : containsNlDashes ybody = false)
    (hload : yload ⟨ybody⟩ = some (.dict d))
    (hmd : pyStripL md.data = md.data) :
    ∀ dsid, parse yload (serialize ydump (.dict d) md) dsid = .ok (.dict d, md) := by
  intro dsid
  have hdata : (serialize ydump (.dict d) md).data =
      '-' :: '-' :: '-' :: '\n' ::
        (ybody ++ '\n' :: '-' :: '-' :: '-' :: '\n' :: '\n' :: md.data) := by
    show ("---\n" ++ ydump (.dict d) ++ "---\n\n" ++ md).data = _
    rw [String.data_append, String.data_append, String.data_append, hdump]
    have h1 : ("---\n" : String).data = ['-', '-', '-', '\n'] := rfl
    have h2 : ("---\n\n" : String).data = ['-', '-', '-', '\n', '\n'] := rfl
    rw [h1, h2]
    simp
  obtain ⟨c0, cs0, hcons⟩ : ∃ c0 cs0, ybody = c0 :: cs0 := by
    cases hyb' : ybody with
    | nil => exact absurd hyb' hybne
    | cons a b => exact ⟨a, b, rfl⟩
  have hc0 : ¬ pyIsWs c0 = true := by
    intro h
    rw [hcons, List.takeWhile_cons_of_pos h] at hyb
    cases hyb
  have hrestw : List.takeWhile pyIsWs
      (ybody ++ '\n' :: '-' :: '-' :: '-' :: '\n' :: '\n' :: md.data) = [] := by
    rw [hcons, List.cons_append, List.takeWhile_cons_of_neg hc0]
  have htl : md.data.takeWhile pyIsWs = [] := pyStripL_takeWhile_nil _ hmd
  have hfm : frontmatterMatch (serialize ydump (.dict d) md) =
      some (⟨ybody⟩, ⟨md.data⟩) := by
    unfold frontmatterMatch
    rw [hdata]
    have hscan := fmScan_junction ybody [] md.data htl hno
    simp only [List.reverse_nil, List.nil_append] at hscan
    simp only [List.takeWhile_cons_of_pos (show pyIsWs '\n' = true by decide), hrestw]
    show (match fmTryStarts
        ('\n' :: (ybody ++ '\n' :: '-' :: '-' :: '-' :: '\n' :: '\n' :: md.data))
        (nlIdxsDesc ['\n']) with
      | some (g1, g2) => some ((⟨g1⟩ : String), (⟨g2⟩ : String))
      | none => none) = _
    have hidx : nlIdxsDesc ['\n'] = [0] := rfl
    rw [hidx]
    unfold fmTryStarts
    rw [show List.drop (0 + 1)
        ('\n' :: (ybody ++ '\n' :: '-' :: '-' :: '-' :: '\n' :: '\n' :: md.data)) =
        ybody ++ '\n' :: '-' :: '-' :: '-' :: '\n' :: '\n' :: md.data from rfl]
    rw [hscan]
  unfold parse
  rw [hfm]
  show (match yload ⟨ybody⟩ with
    | some (PyVal.dict d) => Except.ok (PyVal.dict d, (⟨pyStripL (⟨md.data⟩ : String).data⟩ : String))
    | some _ => Except.error "YAML frontmatter must be a dictionary"
    | none => Except.error "YAML parsing error") = _
  rw [hload, hmd]

theorem C9_serialize_parse_roundtrip_witness :
    parse (fun s => if s = "k: v" then some (.dict [("k", PyVal.str "v")]) else none)
      (serialize (fun _ => "k: v\n") (.dict [("k", PyVal.str "v")]) "# Hello") none =
      .ok (.dict [("k", PyVal.str "v")], "# Hello") :=
  C9_serialize_parse_roundtrip
    (fun s => if s = "k: v" then some (.dict [("k", PyVal.str "v")]) else none)
    (fun _ => "k: v\n") [("k", PyVal.str "v")] "# Hello" ['k', ':', ' ', 'v']
    (by decide) (by decide) (by decide) (by decide) (by rfl) (by rfl) none
